import Mathlib

/-!
# A shallow embedding of the imord2 persistent B-tree

This file embeds the core of the imord2 repository (an in-memory,
copy-on-write ordered key-value B-tree) into Lean and proves, or refutes,
the claims made by its specification.

Conventions of the embedding:

* Rust `usize` values are modelled as `Nat`.  Where the source performs a
  subtraction that is guarded by the surrounding control flow we use
  truncated `Nat` subtraction; the one family of subtractions whose safety
  is itself a claim (`get_by_offset`) goes through `checkedSub`, which
  reports an underflow explicitly.
* Every operation that can panic in Rust (slice indexing, `Option::unwrap`
  on `pop`/`last`, vector `remove`/`split_off` out of range) is modelled in
  the `Except PanicSite` monad; the `PanicSite` value records which kind of
  partial operation failed.
* `Arc<Node>` references are modelled by plain values: `Arc::make_mut`
  (clone-on-write before mutation) becomes ordinary functional update.
* Rust's `slice::binary_search_by` over the sorted `key_values` array is
  modelled by `searchKey`, a scan that returns exactly the result the Rust
  binary search is specified to return on a sorted slice with unique keys
  (`found idx` at the matching index, otherwise `notFound` at the
  insertion point, i.e. the number of keys smaller than the probe).
-/

set_option maxHeartbeats 1600000
set_option maxRecDepth 16000
set_option linter.unusedVariables false

namespace Imord2

/-- `PredicateResult` from src/node/find.rs: classification of one key by a
range-query predicate. -/
inductive PredicateResult where
  | Left
  | Match
  | Right
deriving DecidableEq, Repr

/-- The kinds of panic sites of the Rust source that the embedding tracks.

* `index`: slice/vector indexing or `remove`/`split_off` out of bounds;
* `sibling`: the sibling accesses `children[child_idx - 1]` (including the
  `usize` underflow when `child_idx = 0`) and `children[child_idx + 1]`
  at the top of `Node::rebalance`;
* `popLeaf`: `key_values.pop().unwrap()` at the leaf of `take_right_most`;
* `popOther`: any other `pop().unwrap()` (insert split, rotate right);
* `lastNone`: `last()/last_mut().unwrap()` failing;
* `subUnderflow`: a checked `usize` subtraction underflowing. -/
inductive PanicSite where
  | index
  | sibling
  | popLeaf
  | popOther
  | lastNone
  | subUnderflow
deriving DecidableEq, Repr

/-- Modelled from the spec (§3 Config): the `BTreeConfig` structure holding
the single order parameter `max_degree`.  Its definition is not under
`src/` (only its uses are); the derived thresholds below follow the spec's
formulas verbatim. -/
structure BTreeConfig where
  max_degree : Nat
deriving DecidableEq, Repr

/-- Modelled from the spec: `min_children = ceil(M/2)`. -/
def BTreeConfig.min_children (c : BTreeConfig) : Nat := (c.max_degree + 1) / 2

/-- Modelled from the spec: `max_key_value = M - 1`. -/
def BTreeConfig.max_key_value (c : BTreeConfig) : Nat := c.max_degree - 1

/-- Modelled from the spec: `min_key_value = min_children - 1`. -/
def BTreeConfig.min_key_value (c : BTreeConfig) : Nat := c.min_children - 1

/-- Modelled from the spec: `under_size(n) = n < min_key_value`. -/
def BTreeConfig.node_under_size (c : BTreeConfig) (n : Nat) : Bool :=
  decide (n < c.min_key_value)

/-- Modelled from the spec: `at_min_size(n) = n <= min_key_value`. -/
def BTreeConfig.node_at_min_size (c : BTreeConfig) (n : Nat) : Bool :=
  decide (n ≤ c.min_key_value)

/-- Modelled from the spec: `should_split(n) = n > max_key_value`. -/
def BTreeConfig.node_should_split (c : BTreeConfig) (n : Nat) : Bool :=
  decide (c.max_key_value < n)

/-- Result of Rust's `slice::binary_search_by`: `Ok(idx)` / `Err(idx)`. -/
inductive SearchResult where
  | found (idx : Nat)
  | notFound (idx : Nat)
deriving DecidableEq, Repr

variable {K V : Type}

/-- Model of `self.key_values.binary_search_by(|(k, _)| k.cmp(&key))`.
On a strictly sorted list this scan returns exactly what the Rust binary
search contract guarantees: `found idx` when `key` occurs at index `idx`,
otherwise `notFound` at the insertion point. -/
def searchKey [LinearOrder K] (key : K) : List (K × V) → SearchResult
  | [] => .notFound 0
  | (k, _) :: rest =>
    if k < key then
      match searchKey key rest with
      | .found i => .found (i + 1)
      | .notFound i => .notFound (i + 1)
    else if k = key then .found 0
    else .notFound 0

/-- The tree node of src/node/node.rs: sorted key-value entries, child
subtree references, and the cached subtree entry count. -/
inductive Node (K V : Type) where
  | mk (key_values : List (K × V)) (children : List (Node K V)) (count : Nat)

/-- Field accessor: `key_values`. -/
def Node.key_values : Node K V → List (K × V)
  | .mk kvs _ _ => kvs

/-- Field accessor: `children`. -/
def Node.children : Node K V → List (Node K V)
  | .mk _ cs _ => cs

/-- Field accessor: the cached `count`. -/
def Node.count : Node K V → Nat
  | .mk _ _ n => n

/-- `Node::is_leaf`: true iff the node has no children. -/
def Node.is_leaf (t : Node K V) : Bool := t.children.isEmpty

/-- `children.iter().fold(0, |a, c| a + c.count)`. -/
def sumCounts (cs : List (Node K V)) : Nat := cs.foldl (fun a c => a + c.count) 0

/-- `Node::new_with_key_values`: reconstruct a node, recomputing `count`
from the components. -/
def new_with_key_values (kvs : List (K × V)) (cs : List (Node K V)) : Node K V :=
  .mk kvs cs (kvs.length + sumCounts cs)

/-- The in-order entry sequence of a subtree: the contents of the map,
in key order when the tree is well formed.  `interleave` interleaves the
children's sequences with the separators (leaf: no children, so just the
entries). -/
def interleave : List (List α) → List α → List α
  | [], ks => ks
  | l :: ls, [] => l ++ interleave ls []
  | l :: ls, k :: ks => l ++ k :: interleave ls ks

/-- The in-order entry list of a subtree. -/
def Node.inorder : Node K V → List (K × V)
  | .mk kvs cs _ => interleave (cs.attach.map fun c => c.val.inorder) kvs
termination_by t => sizeOf t
decreasing_by
  have h := List.sizeOf_lt_of_mem c.property
  simp only [Node.mk.sizeOf_spec]
  omega

/-- Structural invariant: every internal node has exactly
`key_values.len() + 1` children (recursively). -/
def Node.structOk : Node K V → Bool
  | .mk kvs cs _ =>
    (cs.isEmpty || cs.length == kvs.length + 1) &&
      cs.attach.all fun c => c.val.structOk
termination_by t => sizeOf t
decreasing_by
  have h := List.sizeOf_lt_of_mem c.property
  simp only [Node.mk.sizeOf_spec]
  omega

/-- Count invariant: at every node,
`count = key_values.len() + Σ child.count`. -/
def Node.countOk : Node K V → Bool
  | .mk kvs cs cnt =>
    (cnt == kvs.length + sumCounts cs) && cs.attach.all fun c => c.val.countOk
termination_by t => sizeOf t
decreasing_by
  have h := List.sizeOf_lt_of_mem c.property
  simp only [Node.mk.sizeOf_spec]
  omega

/-- Every node of the subtree holds at least one entry. -/
def Node.entriesNonempty : Node K V → Bool
  | .mk kvs cs _ =>
    (!kvs.isEmpty) && cs.attach.all fun c => c.val.entriesNonempty
termination_by t => sizeOf t
decreasing_by
  have h := List.sizeOf_lt_of_mem c.property
  simp only [Node.mk.sizeOf_spec]
  omega

/-- Strict ascending key order of an entry list. -/
def sortedKeys [LinearOrder K] (l : List (K × V)) : Prop :=
  l.Pairwise fun a b => a.1 < b.1

instance [LinearOrder K] (l : List (K × V)) : Decidable (sortedKeys l) :=
  inferInstanceAs (Decidable (l.Pairwise _))

/-- The structural invariants a live tree node satisfies between
operations: child-count relation, correct cached counts, every node
nonempty, and the entries in strictly ascending key order. -/
def Node.wf [LinearOrder K] (t : Node K V) : Prop :=
  t.structOk ∧ t.countOk ∧ t.entriesNonempty ∧ sortedKeys t.inorder

instance [LinearOrder K] (t : Node K V) : Decidable t.wf :=
  inferInstanceAs (Decidable (_ ∧ _ ∧ _ ∧ _))

/-- `Node::get_by_key` (src/node/node.rs): binary search the node, descend
into the child at the insertion point when not found. -/
def Node.get_by_key [LinearOrder K] (key : K) : Node K V → Except PanicSite (Option V)
  | .mk kvs cs _ =>
    match searchKey key kvs with
    | .found idx =>
      match kvs.get? idx with
      | Option.some kv => .ok (some kv.2)
      | Option.none => .error .index
    | .notFound idx =>
      if cs.isEmpty then .ok none
      else
        match h : cs.get? idx with
        | Option.some child => Node.get_by_key key child
        | Option.none => .error .index
termination_by t => sizeOf t
decreasing_by
  have h2 := List.sizeOf_lt_of_mem (List.get?_mem h)
  simp only [Node.mk.sizeOf_spec]
  omega

/-- A `usize` subtraction that, as in a Rust debug build, fails on
underflow. -/
def checkedSub (a b : Nat) : Except PanicSite Nat :=
  if b ≤ a then .ok (a - b) else .error .subUnderflow

/-- Outcome of one pass of the `get_by_offset` scanning loop. -/
inductive GboStep (K V : Type) where
  | intoChild (idx : Nat) (ro : Nat)
  | foundKV (kv : K × V)
  | needLast (ro : Nat)
  | panic (p : PanicSite)

/-- The `for idx in 0..self.key_values.len()` loop of `get_by_offset`,
walking the entries and children in lockstep while maintaining the
relative offset.  `i` is the current loop index. -/
def gboScan : List (K × V) → List (Node K V) → Nat → Nat → GboStep K V
  | [], _, ro, _ => .needLast ro
  | _ :: _, [], _, _ => .panic .index
  | kv :: kvs', c :: cs', ro, i =>
    if ro < c.count then .intoChild i ro
    else
      match checkedSub ro c.count with
      | .error p => .panic p
      | .ok ro1 =>
        if ro1 = 0 then .foundKV kv
        else
          match checkedSub ro1 1 with
          | .error p => .panic p
          | .ok ro2 => gboScan kvs' cs' ro2 (i + 1)

/-- `Node::get_by_offset` (src/node/node.rs). -/
def Node.get_by_offset : Node K V → Nat → Except PanicSite (Option (K × V))
  | .mk kvs cs cnt, offset =>
    if cnt ≤ offset then .ok none
    else if cs.isEmpty then .ok (kvs.get? offset)
    else
      match gboScan kvs cs offset 0 with
      | .intoChild i ro =>
        match h : cs.get? i with
        | Option.some c => Node.get_by_offset c ro
        | Option.none => .error .index
      | .foundKV kv => .ok (some kv)
      | .needLast ro =>
        match h : cs.getLast? with
        | Option.some lastc => Node.get_by_offset lastc ro
        | Option.none => .error .lastNone
      | .panic p => .error p
termination_by t _ => sizeOf t
decreasing_by
  · have h2 := List.sizeOf_lt_of_mem (List.get?_mem h)
    simp only [Node.mk.sizeOf_spec]
    omega
  · have h2 := List.sizeOf_lt_of_mem (List.mem_of_mem_getLast? h)
    simp only [Node.mk.sizeOf_spec]
    omega

/-- How `get_by_offset` continues after the scanning loop: the loop's
outcome determines which child (if any) is recursed into. -/
def gboStepInterp (allcs : List (Node K V)) :
    GboStep K V → Except PanicSite (Option (K × V))
  | .intoChild i ro =>
    match allcs.get? i with
    | Option.some c => c.get_by_offset ro
    | Option.none => .error .index
  | .foundKV kv => .ok (some kv)
  | .needLast ro =>
    match allcs.getLast? with
    | Option.some lc => lc.get_by_offset ro
    | Option.none => .error .lastNone
  | .panic p => .error p

/-- `KeyRangeResult` from src/node/find.rs.  The Rust type carries key
references `start`/`end`; the embedding stores the keys by value, with the
`end` field renamed `stop` (`end` is a Lean keyword). -/
inductive KeyRangeResult (K : Type) where
  | none
  | some (start : K) (stop : K) (n : Nat)
deriving DecidableEq, Repr

/-- `KeyRangeResult::merge_into`. -/
def KeyRangeResult.merge_into [LinearOrder K] :
    KeyRangeResult K → KeyRangeResult K → KeyRangeResult K
  | .none, other => other
  | s, .none => s
  | .some s1 e1 n1, .some s2 e2 n2 => .some (min s1 s2) (max e1 e2) (n1 + n2)

/-- `KeyRangeResult::n`. -/
def KeyRangeResult.n : KeyRangeResult K → Nat
  | .none => 0
  | .some _ _ n => n

/-- `KeyRangeResult::start_key`. -/
def KeyRangeResult.start_key : KeyRangeResult K → Option K
  | .none => Option.none
  | .some s _ _ => Option.some s

/-- `KeyRangeResult::end_key`. -/
def KeyRangeResult.end_key : KeyRangeResult K → Option K
  | .none => Option.none
  | .some _ e _ => Option.some e

/-- State produced by the entry-scanning loop of the branch case of
`find_key_range`: the matched `(index, key)` pairs in order, the final
value of `extra_child_to_check`, and the index at which a `Right`
classification broke the loop (if any). -/
structure FkrScan (K : Type) where
  matched : List (Nat × K)
  extra : Option Nat
  rightIdx : Option Nat
deriving DecidableEq, Repr

/-- The branch-scanning loop of `find_key_range` (src/node/find.rs):
`idx` is the current index, the last argument the current value of
`extra_child_to_check`. -/
def fkrScan (pred : K → PredicateResult) : List (K × V) → Nat → Option Nat → FkrScan K
  | [], _, extra => ⟨[], extra, Option.none⟩
  | (k, _) :: rest, idx, extra =>
    match pred k with
    | .Left => fkrScan pred rest (idx + 1) (Option.some (idx + 1))
    | .Match =>
      let s := fkrScan pred rest (idx + 1) (Option.some (idx + 1))
      ⟨(idx, k) :: s.matched, s.extra, s.rightIdx⟩
    | .Right => ⟨[], Option.none, Option.some idx⟩

/-- The `for idx in first_idx + 1..=last_idx` aggregation loop of
`find_key_range`: each index contributes that child's cached count plus
one for the separator itself. -/
def spanCount (cs : List (Node K V)) (first_idx last_idx : Nat) : Except PanicSite Nat :=
  (List.range' (first_idx + 1) (last_idx - first_idx)).foldlM
    (fun acc idx =>
      match cs.get? idx with
      | Option.some c => .ok (acc + c.count + 1)
      | Option.none => .error .index) 0

/-- The leaf case of `find_key_range`: filter the entries by the
predicate; the first match is `start`, the last is `end`, `n` the number
of matches. -/
def leafFkr [LinearOrder K] (pred : K → PredicateResult) (kvs : List (K × V)) :
    KeyRangeResult K :=
  match kvs.filter fun kv => pred kv.1 == PredicateResult.Match with
  | [] => .none
  | m :: rest => .some m.1 ((m :: rest).getLast (List.cons_ne_nil m rest)).1 (m :: rest).length

/-- `Node::find_key_range` (src/node/find.rs). -/
def Node.find_key_range [LinearOrder K] (pred : K → PredicateResult) :
    Node K V → Except PanicSite (KeyRangeResult K)
  | .mk kvs [] _ => .ok (leafFkr pred kvs)
  | .mk kvs (c0 :: cs') _ =>
    let s := fkrScan pred kvs 0 Option.none
    let r0e : Except PanicSite (KeyRangeResult K) :=
      match s.rightIdx with
      | Option.none => .ok .none
      | Option.some j =>
        match h : (c0 :: cs').get? j with
        | Option.some c => Node.find_key_range pred c
        | Option.none => .error .index
    match r0e with
    | .error p => .error p
    | .ok r0 =>
      let r2e : Except PanicSite (KeyRangeResult K) :=
        match s.matched with
        | [] => .ok r0
        | (fi, fk) :: mrest =>
          match h : (c0 :: cs').get? fi with
          | Option.none => .error .index
          | Option.some c =>
            match Node.find_key_range pred c with
            | .error p => .error p
            | .ok rc =>
              let r1 := (r0.merge_into rc).merge_into (.some fk fk 1)
              match mrest with
              | [] => .ok r1
              | _ :: _ =>
                let last := ((fi, fk) :: mrest).getLast (List.cons_ne_nil _ mrest)
                match spanCount (c0 :: cs') fi last.1 with
                | .error p => .error p
                | .ok cnt => .ok (r1.merge_into (.some fk last.2 cnt))
      match r2e with
      | .error p => .error p
      | .ok r2 =>
        match s.extra with
        | Option.none => .ok r2
        | Option.some ci =>
          match h : (c0 :: cs').get? ci with
          | Option.none => .error .index
          | Option.some c =>
            match Node.find_key_range pred c with
            | .error p => .error p
            | .ok rextra => .ok (r2.merge_into rextra)
termination_by t => sizeOf t
decreasing_by
  all_goals
    have h2 := List.sizeOf_lt_of_mem (List.get?_mem h)
    simp only [Node.mk.sizeOf_spec]
    omega

/-- `InsertResult` from src/node/insert.rs.  In Rust `insert` mutates
`self` in place; functionally, the `NotSplited` variant therefore also
carries the updated node, while on `Splited` the caller discards the old
node and uses the three returned pieces. -/
inductive InsertResult (K V : Type) where
  | Splited (new_k_v : K × V) (new_l : Node K V) (new_r : Node K V)
  | NotSplited (is_new : Bool) (node : Node K V)

/-- The split step at the end of `Node::insert`: split point
`len/2 + 1`, pop the promoted median off the left half, split the child
list at the same boundary when the node is internal. -/
def splitNode (kvs : List (K × V)) (cs : List (Node K V)) :
    Except PanicSite (InsertResult K V) :=
  let split_at := kvs.length / 2
  let split_off := split_at + 1
  let left_key_values := kvs.take split_off
  let right_key_values := kvs.drop split_off
  match left_key_values.getLast? with
  | Option.none => .error .popOther
  | Option.some root_key_value =>
    let left_kvs := left_key_values.dropLast
    if cs.isEmpty then
      .ok (.Splited root_key_value
            (new_with_key_values left_kvs [])
            (new_with_key_values right_key_values []))
    else if split_off ≤ cs.length then
      .ok (.Splited root_key_value
            (new_with_key_values left_kvs (cs.take split_off))
            (new_with_key_values right_key_values (cs.drop split_off)))
    else .error .index

/-- `Node::insert` (src/node/insert.rs). -/
def Node.insert [LinearOrder K] (cfg : BTreeConfig) (key : K) (value : V) :
    Node K V → Except PanicSite (InsertResult K V)
  | .mk kvs [] cnt =>
    match searchKey key kvs with
    | .found idx => .ok (.NotSplited false (.mk (kvs.set idx (key, value)) [] cnt))
    | .notFound idx =>
      let kvs1 := kvs.insertIdx idx (key, value)
      if cfg.node_should_split kvs1.length then splitNode kvs1 []
      else .ok (.NotSplited true (.mk kvs1 [] (cnt + 1)))
  | .mk kvs (c0 :: cs') cnt =>
    match searchKey key kvs with
    | .found idx =>
      .ok (.NotSplited false (.mk (kvs.set idx (key, value)) (c0 :: cs') cnt))
    | .notFound idx =>
      match h : (c0 :: cs').get? idx with
      | Option.none => .error .index
      | Option.some child =>
        match Node.insert cfg key value child with
        | .error p => .error p
        | .ok (.NotSplited is_new child') =>
          .ok (.NotSplited is_new
                (.mk kvs ((c0 :: cs').set idx child')
                  (if is_new then cnt + 1 else cnt)))
        | .ok (.Splited m l r) =>
          let kvs1 := kvs.insertIdx idx m
          let cs1 := (((c0 :: cs').set idx l).insertIdx (idx + 1) r)
          if cfg.node_should_split kvs1.length then splitNode kvs1 cs1
          else .ok (.NotSplited true (.mk kvs1 cs1 (cnt + 1)))
termination_by t => sizeOf t
decreasing_by
  have h2 := List.sizeOf_lt_of_mem (List.get?_mem h)
  simp only [Node.mk.sizeOf_spec]
  omega

/-- `Node::rebalance` (src/delete.rs): invoked on a node after a removal
beneath child `child_idx`; merges or rotates between that child and a
sibling when sizes require it. -/
def Node.rebalance (cfg : BTreeConfig) (t : Node K V) (child_idx : Nat) :
    Except PanicSite (Node K V) :=
  match t with
  | .mk kvs cs cnt =>
    match cs.get? child_idx with
    | Option.none => .error .index
    | Option.some child =>
      let child_is_leaf := child.is_leaf
      let last_child_idx := cs.length - 1
      let pick : Except PanicSite (Node K V × Node K V × Nat) :=
        if child_idx = last_child_idx then
          if child_idx = 0 then .error .sibling
          else
            match cs.get? (child_idx - 1) with
            | Option.some lc => .ok (lc, child, child_idx - 1)
            | Option.none => .error .sibling
        else
          match cs.get? (child_idx + 1) with
          | Option.some rc => .ok (child, rc, child_idx)
          | Option.none => .error .sibling
      match pick with
      | .error p => .error p
      | .ok (left_child, right_child, key_value_idx) =>
        if cfg.node_at_min_size left_child.key_values.length &&
            cfg.node_at_min_size right_child.key_values.length then
          match kvs.get? key_value_idx with
          | Option.none => .error .index
          | Option.some sep =>
            let new_child := new_with_key_values
              (left_child.key_values ++ sep :: right_child.key_values)
              (left_child.children ++ right_child.children)
            .ok (.mk (kvs.eraseIdx key_value_idx)
                  ((cs.set key_value_idx new_child).eraseIdx (key_value_idx + 1))
                  cnt)
        else if cfg.node_under_size left_child.key_values.length then
          match kvs.get? key_value_idx with
          | Option.none => .error .index
          | Option.some sep =>
            if right_child.key_values.length < 1 then .error .index
            else
              let new_left_key_values := left_child.key_values ++ [sep]
              let new_right_key_values := right_child.key_values.drop 1
              match right_child.key_values.get? 0 with
              | Option.none => .error .index
              | Option.some newsep =>
                if child_is_leaf then
                  .ok (.mk (kvs.set key_value_idx newsep)
                        ((cs.set key_value_idx
                            (new_with_key_values new_left_key_values [])).set
                          (key_value_idx + 1)
                          (new_with_key_values new_right_key_values []))
                        cnt)
                else
                  match right_child.children.get? 0 with
                  | Option.none => .error .index
                  | Option.some rfc =>
                    .ok (.mk (kvs.set key_value_idx newsep)
                          ((cs.set key_value_idx
                              (new_with_key_values new_left_key_values
                                (left_child.children ++ [rfc]))).set
                            (key_value_idx + 1)
                            (new_with_key_values new_right_key_values
                              (right_child.children.drop 1)))
                          cnt)
        else if cfg.node_under_size right_child.key_values.length then
          match left_child.key_values.getLast? with
          | Option.none => .error .popOther
          | Option.some new_root_key_value =>
            let new_left_key_values := left_child.key_values.dropLast
            match kvs.get? key_value_idx with
            | Option.none => .error .index
            | Option.some prev_key_value =>
              let kvs1 := kvs.set key_value_idx new_root_key_value
              let new_right_key_values := prev_key_value :: right_child.key_values
              if child_is_leaf then
                .ok (.mk kvs1
                      ((cs.set key_value_idx
                          (new_with_key_values new_left_key_values [])).set
                        (key_value_idx + 1)
                        (new_with_key_values new_right_key_values []))
                      cnt)
              else
                if left_child.children.isEmpty then .error .subUnderflow
                else
                  match left_child.children.getLast? with
                  | Option.none => .error .lastNone
                  | Option.some ll =>
                    .ok (.mk kvs1
                          ((cs.set key_value_idx
                              (new_with_key_values new_left_key_values
                                left_child.children.dropLast)).set
                            (key_value_idx + 1)
                            (new_with_key_values new_right_key_values
                              (ll :: right_child.children)))
                          cnt)
        else .ok (.mk kvs cs cnt)

/-- `Node::take_right_most` (src/delete.rs): used only while deleting a
key found at an internal separator.  As in the source, the cached `count`
is decremented only in the leaf case.  In the internal case the children
list is structurally nonempty, so `children.last_mut().unwrap()` cannot
fail and is modelled by the total `getLast`. -/
def Node.take_right_most (cfg : BTreeConfig) :
    Node K V → Except PanicSite ((K × V) × Node K V)
  | .mk kvs [] cnt =>
    match kvs.getLast? with
    | Option.none => .error .popLeaf
    | Option.some kv => .ok (kv, .mk kvs.dropLast [] (cnt - 1))
  | .mk kvs (c0 :: cs') cnt =>
    match Node.take_right_most cfg ((c0 :: cs').getLast (List.cons_ne_nil c0 cs')) with
    | .error p => .error p
    | .ok (kv, rm') =>
      match Node.rebalance cfg
          (.mk kvs ((c0 :: cs').set ((c0 :: cs').length - 1) rm') cnt)
          ((c0 :: cs').length - 1) with
      | .error p => .error p
      | .ok t' => .ok (kv, t')
termination_by t => sizeOf t
decreasing_by
  have h2 := List.sizeOf_lt_of_mem (List.getLast_mem (List.cons_ne_nil c0 cs'))
  simp only [Node.mk.sizeOf_spec]
  omega

/-- `Node::delete_by_key` (src/delete.rs).  As in the source, the cached
`count` is not decremented when the key is found at an internal
separator. -/
def Node.delete_by_key [LinearOrder K] (cfg : BTreeConfig) (key : K) :
    Node K V → Except PanicSite (Node K V × Option (K × V))
  | .mk kvs [] cnt =>
    match searchKey key kvs with
    | .found idx =>
      match kvs.get? idx with
      | Option.some kv => .ok (.mk (kvs.eraseIdx idx) [] (cnt - 1), some kv)
      | Option.none => .error .index
    | .notFound _ => .ok (.mk kvs [] cnt, none)
  | .mk kvs (c0 :: cs') cnt =>
    match searchKey key kvs with
    | .found idx =>
      match h : (c0 :: cs').get? idx with
      | Option.none => .error .index
      | Option.some child =>
        match Node.take_right_most cfg child with
        | .error p => .error p
        | .ok (lml, child') =>
          match kvs.get? idx with
          | Option.none => .error .index
          | Option.some prev_key_value =>
            match Node.rebalance cfg
                (.mk (kvs.set idx lml) ((c0 :: cs').set idx child') cnt) idx with
            | .error p => .error p
            | .ok t' => .ok (t', some prev_key_value)
    | .notFound idx =>
      match h : (c0 :: cs').get? idx with
      | Option.none => .error .index
      | Option.some child =>
        match Node.delete_by_key cfg key child with
        | .error p => .error p
        | .ok (child', Option.none) =>
          .ok (.mk kvs ((c0 :: cs').set idx child') cnt, none)
        | .ok (child', Option.some dkv) =>
          match Node.rebalance cfg
              (.mk kvs ((c0 :: cs').set idx child') (cnt - 1)) idx with
          | .error p => .error p
          | .ok t' => .ok (t', some dkv)
termination_by t => sizeOf t
decreasing_by
  all_goals
    have h2 := List.sizeOf_lt_of_mem (List.get?_mem h)
    simp only [Node.mk.sizeOf_spec]
    omega

/-- The tree handle: optional root plus configuration. -/
structure BTree (K V : Type) where
  root : Option (Node K V)
  config : BTreeConfig

/-- The empty tree with the given configuration. -/
def BTree.empty (cfg : BTreeConfig) : BTree K V := ⟨Option.none, cfg⟩

/-- Tree-level insert: root-split handling as in `BTree::insert`
(src/lib.rs / spec §4.3 Tree-level): a root split builds a new root from
the median and the two halves; inserting into an empty tree creates a
fresh leaf root. -/
def BTree.insert [LinearOrder K] (t : BTree K V) (key : K) (value : V) :
    Except PanicSite (BTree K V) :=
  match t.root with
  | Option.none => .ok ⟨some (new_with_key_values [(key, value)] []), t.config⟩
  | Option.some r =>
    match Node.insert t.config key value r with
    | .error p => .error p
    | .ok (.NotSplited _ r') => .ok ⟨some r', t.config⟩
    | .ok (.Splited m l rr) =>
      .ok ⟨some (new_with_key_values [m] [l, rr]), t.config⟩

/-- Modelled from the spec (§4.4 Tree-level, missing from src/):
after `delete_by_key` on the root, a root whose `count` reached zero
clears the tree, and a root left with no entries has its sole child
promoted. -/
def BTree.delete_by_key [LinearOrder K] (t : BTree K V) (key : K) :
    Except PanicSite (BTree K V × Option (K × V)) :=
  match t.root with
  | Option.none => .ok (t, none)
  | Option.some r =>
    match Node.delete_by_key t.config key r with
    | .error p => .error p
    | .ok (r', res) =>
      if r'.count = 0 then .ok (⟨Option.none, t.config⟩, res)
      else if r'.key_values.isEmpty then
        match r'.children with
        | [c] => .ok (⟨some c, t.config⟩, res)
        | _ => .error .index
      else .ok (⟨some r', t.config⟩, res)

/-- Tree-level `get_by_key`. -/
def BTree.get_by_key [LinearOrder K] (t : BTree K V) (key : K) :
    Except PanicSite (Option V) :=
  match t.root with
  | Option.none => .ok none
  | Option.some r => Node.get_by_key key r

/-- Tree-level `get_by_offset`. -/
def BTree.get_by_offset (t : BTree K V) (offset : Nat) :
    Except PanicSite (Option (K × V)) :=
  match t.root with
  | Option.none => .ok none
  | Option.some r => Node.get_by_offset r offset

/-- Tree-level `find_key_range`. -/
def BTree.find_key_range [LinearOrder K] (t : BTree K V)
    (pred : K → PredicateResult) : Except PanicSite (KeyRangeResult K) :=
  match t.root with
  | Option.none => .ok .none
  | Option.some r => Node.find_key_range pred r

/-- Total number of entries of a tree (the root's cached count). -/
def BTree.count (t : BTree K V) : Nat :=
  match t.root with
  | Option.none => 0
  | Option.some r => r.count

/-- Fold a list of (key, value) insertions into an (initially empty)
tree. -/
def insertAll [LinearOrder K] (cfg : BTreeConfig) (ops : List (K × V)) :
    Except PanicSite (BTree K V) :=
  ops.foldlM (fun t kv => t.insert kv.1 kv.2) (BTree.empty cfg)

/-!
Specification-side functions, used only to state the claims.
-/

/-- Numeric rank of a predicate classification: Left < Match < Right. -/
def PredicateResult.rank : PredicateResult → Nat
  | .Left => 0
  | .Match => 1
  | .Right => 2

/-- A predicate is monotonic in key order when its classification is
non-decreasing (Left, then Match, then Right) as keys increase. -/
def MonoPred [LinearOrder K] (pred : K → PredicateResult) : Prop :=
  ∀ a b : K, a ≤ b → (pred a).rank ≤ (pred b).rank

/-- The range result described by an ascending list of matching keys:
none when empty, otherwise first, last and length. -/
def krOf : List K → KeyRangeResult K
  | [] => .none
  | k :: rest => .some k ((k :: rest).getLast (List.cons_ne_nil k rest)) (k :: rest).length

/-- The keys of a subtree the predicate classifies as Match, in entry
order. -/
def matchedKeys [LinearOrder K] (pred : K → PredicateResult) (t : Node K V) : List K :=
  (t.inorder.map Prod.fst).filter fun k => pred k == PredicateResult.Match

/-- Insert (or overwrite) one binding in a sorted association list. -/
def upsertList [LinearOrder K] (key : K) (value : V) : List (K × V) → List (K × V)
  | [] => [(key, value)]
  | (k, v) :: rest =>
    if key < k then (key, value) :: (k, v) :: rest
    else if key = k then (key, value) :: rest
    else (k, v) :: upsertList key value rest

/-- Look a key up in an association list. -/
def assocGet [LinearOrder K] (key : K) (l : List (K × V)) : Option V :=
  (l.find? fun kv => kv.1 == key).map (·.2)

/-- The value of the most recent insertion with the given key in an
operation history, if any. -/
def histLookup [LinearOrder K] (key : K) (ops : List (K × V)) : Option V :=
  assocGet key ops.reverse

/-- Overwrite the value stored under `key` (if present) in an entry list,
leaving everything else unchanged. -/
def setVal [LinearOrder K] (key : K) (value : V) (l : List (K × V)) : List (K × V) :=
  l.map fun kv => if kv.1 = key then (key, value) else kv

/-- The shape of a tree: keys, cached counts and node structure, with the
values erased.  Two trees have the same skeleton iff they coincide except
possibly on stored values. -/
def Node.skel : Node K V → Node K Unit
  | .mk kvs cs cnt =>
    .mk (kvs.map fun kv => (kv.1, ())) (cs.attach.map fun c => c.val.skel) cnt
termination_by t => sizeOf t
decreasing_by
  have h := List.sizeOf_lt_of_mem c.property
  simp only [Node.mk.sizeOf_spec]
  omega

/-- The in-order tail of an interleaving from a separator onward: the
separator at the split position, then the remaining children interleaved
with the remaining separators (empty when no separator remains). -/
def interleaveSep : List (List α) → List α → List α
  | _, [] => []
  | ls, k :: ks => k :: interleave ls ks

/-- What a successful recursive `Node::insert` returns, relative to the
spec-side `upsertList` on the node's entry sequence (the induction
statement behind claim C4): either an updated node, or a promoted median
with two halves whose concatenation around it is the upserted sequence.
In both cases the structural invariants short of global sortedness are
preserved; sortedness of the result follows from the entry-sequence
equations. -/
def insertOutcome [LinearOrder K] (key : K) (value : V) (t : Node K V) :
    InsertResult K V → Prop
  | .NotSplited is_new t' =>
      t'.structOk = true ∧ t'.countOk = true ∧ t'.entriesNonempty = true ∧
      t'.inorder = upsertList key value t.inorder ∧
      (is_new = true ↔ key ∉ t.inorder.map Prod.fst)
  | .Splited m l r =>
      l.structOk = true ∧ l.countOk = true ∧ l.entriesNonempty = true ∧
      r.structOk = true ∧ r.countOk = true ∧ r.entriesNonempty = true ∧
      l.inorder ++ m :: r.inorder = upsertList key value t.inorder ∧
      key ∉ t.inorder.map Prod.fst

/-!
## Structural lemmas about the embedding
-/

/-- Induction over a node and all of its descendants. -/
theorem Node.indOn {motive : Node K V → Prop}
    (step : ∀ kvs cs cnt, (∀ c ∈ cs, motive c) → motive (.mk kvs cs cnt)) :
    ∀ t, motive t
  | .mk kvs cs cnt => step kvs cs cnt fun c hc => Node.indOn step c
termination_by t => sizeOf t
decreasing_by
  have h := List.sizeOf_lt_of_mem hc
  simp only [Node.mk.sizeOf_spec]
  omega

theorem inorder_mk (kvs : List (K × V)) (cs : List (Node K V)) (cnt : Nat) :
    (Node.mk kvs cs cnt).inorder = interleave (cs.map Node.inorder) kvs := by
  rw [Node.inorder]
  congr 1
  exact List.attach_map_val cs Node.inorder

theorem countOk_mk (kvs : List (K × V)) (cs : List (Node K V)) (cnt : Nat) :
    (Node.mk kvs cs cnt).countOk = true ↔
      cnt = kvs.length + sumCounts cs ∧ ∀ c ∈ cs, c.countOk = true := by
  rw [Node.countOk]
  simp [List.all_eq_true]

theorem structOk_mk (kvs : List (K × V)) (cs : List (Node K V)) (cnt : Nat) :
    (Node.mk kvs cs cnt).structOk = true ↔
      (cs = [] ∨ cs.length = kvs.length + 1) ∧ ∀ c ∈ cs, c.structOk = true := by
  rw [Node.structOk]
  simp [List.all_eq_true, List.isEmpty_iff]

theorem entriesNonempty_mk (kvs : List (K × V)) (cs : List (Node K V)) (cnt : Nat) :
    (Node.mk kvs cs cnt).entriesNonempty = true ↔
      kvs ≠ [] ∧ ∀ c ∈ cs, c.entriesNonempty = true := by
  rw [Node.entriesNonempty]
  simp [List.all_eq_true, List.isEmpty_iff]

theorem foldl_add_count (cs : List (Node K V)) : ∀ a : Nat,
    cs.foldl (fun a c => a + c.count) a = a + sumCounts cs := by
  induction cs with
  | nil => intro a; simp [sumCounts]
  | cons c cs ih =>
    intro a
    have h1 : sumCounts (c :: cs) = 0 + c.count + sumCounts cs := by
      show List.foldl (fun a c => a + c.count) 0 (c :: cs) = _
      rw [List.foldl_cons, ih]
    rw [List.foldl_cons, ih, h1]
    omega

theorem sumCounts_nil : sumCounts ([] : List (Node K V)) = 0 := rfl

theorem sumCounts_cons (c : Node K V) (cs : List (Node K V)) :
    sumCounts (c :: cs) = c.count + sumCounts cs := by
  show List.foldl (fun a c => a + c.count) 0 (c :: cs) = _
  rw [List.foldl_cons, foldl_add_count]
  omega

theorem sumCounts_append (cs ds : List (Node K V)) :
    sumCounts (cs ++ ds) = sumCounts cs + sumCounts ds := by
  induction cs with
  | nil => simp [sumCounts_nil]
  | cons c cs ih => simp [sumCounts_cons, ih]; omega

theorem sumCounts_eq_sum_map (cs : List (Node K V)) :
    sumCounts cs = (cs.map Node.count).sum := by
  induction cs with
  | nil => rfl
  | cons c cs ih => simp [sumCounts_cons, ih]

theorem length_interleave (ls : List (List α)) (ks : List α) :
    (interleave ls ks).length = (ls.map List.length).sum + ks.length := by
  induction ls generalizing ks with
  | nil => simp [interleave]
  | cons l ls ih =>
    cases ks with
    | nil => simp [interleave, ih]
    | cons k ks => simp [interleave, ih]; omega

theorem inorder_length (t : Node K V) (h : t.countOk = true) :
    t.inorder.length = t.count := by
  induction t using Node.indOn with
  | step kvs cs cnt ih =>
    rw [countOk_mk] at h
    rw [inorder_mk, length_interleave, Node.count]
    have hmap : (cs.map Node.inorder).map List.length = cs.map Node.count := by
      rw [List.map_map]
      exact List.map_congr_left fun c hc => ih c hc (h.2 c hc)
    rw [List.map_map] at hmap ⊢
    rw [hmap, ← sumCounts_eq_sum_map, h.1]
    omega

theorem mem_sublist_interleave (ls : List (List α)) (ks : List α) (l : List α)
    (h : l ∈ ls) : l.Sublist (interleave ls ks) := by
  induction ls generalizing ks with
  | nil => cases h
  | cons l0 ls ih =>
    rcases List.mem_cons.mp h with heq | h
    · rw [heq]
      cases ks with
      | nil => exact List.sublist_append_left l0 _
      | cons k ks => exact List.sublist_append_left l0 _
    · cases ks with
      | nil =>
        exact (ih [] h).trans (List.sublist_append_right l0 _)
      | cons k ks =>
        exact (ih ks h).trans ((List.sublist_cons_self k _).trans
          (List.sublist_append_right l0 _))

theorem sortedKeys_child [LinearOrder K] {kvs : List (K × V)} {cs : List (Node K V)}
    {cnt : Nat} (h : sortedKeys (Node.mk kvs cs cnt).inorder) :
    ∀ c ∈ cs, sortedKeys c.inorder := by
  intro c hc
  rw [inorder_mk] at h
  exact List.Pairwise.sublist
    (mem_sublist_interleave _ kvs _ (List.mem_map_of_mem Node.inorder hc)) h

theorem wf_child [LinearOrder K] {kvs : List (K × V)} {cs : List (Node K V)}
    {cnt : Nat} (h : (Node.mk kvs cs cnt).wf) : ∀ c ∈ cs, c.wf := by
  intro c hc
  obtain ⟨hs, hcnt, hne, hsort⟩ := h
  exact ⟨((structOk_mk _ _ _).mp hs).2 c hc, ((countOk_mk _ _ _).mp hcnt).2 c hc,
    ((entriesNonempty_mk _ _ _).mp hne).2 c hc, sortedKeys_child hsort c hc⟩

/-!
## Correctness of get_by_offset
-/

theorem get_by_offset_leaf (kvs : List (K × V)) (cnt i : Nat) :
    Node.get_by_offset (.mk kvs [] cnt) i =
      if cnt ≤ i then .ok none else .ok (kvs.get? i) := by
  simp only [Node.get_by_offset, List.isEmpty_nil, if_true]

theorem get_by_offset_branch (kvs : List (K × V)) (c0 : Node K V)
    (cs' : List (Node K V)) (cnt i : Nat) :
    Node.get_by_offset (.mk kvs (c0 :: cs') cnt) i =
      if cnt ≤ i then .ok none
      else gboStepInterp (c0 :: cs') (gboScan kvs (c0 :: cs') i 0) := by
  by_cases hi : cnt ≤ i
  · simp only [Node.get_by_offset, if_pos hi]
  · cases hg : gboScan kvs (c0 :: cs') i 0 with
    | intoChild idx ro =>
      simp only [Node.get_by_offset, if_neg hi, List.isEmpty_cons, hg, gboStepInterp,
        Bool.false_eq_true, if_false]
      cases hq : (c0 :: cs').get? idx <;> simp [hq]
    | foundKV kv =>
      simp only [Node.get_by_offset, if_neg hi, List.isEmpty_cons, hg, gboStepInterp,
        Bool.false_eq_true, if_false]
    | needLast ro =>
      simp only [Node.get_by_offset, if_neg hi, List.isEmpty_cons, hg, gboStepInterp,
        Bool.false_eq_true, if_false]
      cases hq : (c0 :: cs').getLast? <;> simp [hq]
    | panic p =>
      simp only [Node.get_by_offset, if_neg hi, List.isEmpty_cons, hg, gboStepInterp,
        Bool.false_eq_true, if_false]

theorem gboAux (kvs : List (K × V)) : ∀ (cs allcs : List (Node K V)) (ro j : Nat),
    cs.length = kvs.length + 1 →
    allcs.drop j = cs →
    (∀ c ∈ cs, ∀ r, Node.get_by_offset c r = .ok (c.inorder.get? r)) →
    (∀ c ∈ cs, c.inorder.length = c.count) →
    gboStepInterp allcs (gboScan kvs cs ro j) =
      .ok ((interleave (cs.map Node.inorder) kvs).get? ro) := by
  induction kvs with
  | nil =>
    intro cs allcs ro j hlen hdrop hchild hcnt
    match cs, hlen with
    | [c], _ =>
      have hlast : allcs.getLast? = some c := by
        have hsplit : allcs = allcs.take j ++ [c] := by
          conv_lhs => rw [← List.take_append_drop j allcs]
          rw [hdrop]
        rw [hsplit, List.getLast?_append_of_ne_nil _ (by simp)]
        rfl
      simp only [gboScan, gboStepInterp, hlast]
      rw [hchild c (by simp)]
      simp [interleave]
  | cons kv kvs' ih =>
    intro cs allcs ro j hlen hdrop hchild hcnt
    match cs with
    | c :: cs' =>
      have hlen' : cs'.length = kvs'.length + 1 := by simpa using hlen
      have hget : allcs.get? j = some c := by
        have h0 := List.get?_drop allcs j 0
        rw [hdrop] at h0
        simpa using h0.symm
      have hlc : c.inorder.length = c.count := hcnt c (by simp)
      by_cases hro : ro < c.count
      · simp only [gboScan, if_pos hro, gboStepInterp, hget]
        rw [hchild c (by simp)]
        simp only [List.map_cons, interleave]
        rw [List.get?_append (by omega)]
      · have hle : c.count ≤ ro := Nat.not_lt.mp hro
        by_cases hro1 : ro - c.count = 0
        · have hroeq : ro = c.count := by omega
          simp only [gboScan, if_neg hro, checkedSub, if_pos hle, hro1, if_pos rfl,
            gboStepInterp]
          simp only [List.map_cons, interleave]
          rw [List.get?_append_right (by omega), hlc, hroeq, Nat.sub_self]
          rfl
        · have hsub1 : (1 : Nat) ≤ ro - c.count := by omega
          have hrec := ih cs' allcs (ro - c.count - 1) (j + 1) hlen'
            (by rw [← List.drop_drop, hdrop]; rfl)
            (fun c hc => hchild c (by simp [hc]))
            (fun c hc => hcnt c (by simp [hc]))
          simp only [gboScan, if_neg hro, checkedSub, if_pos hle, if_neg hro1,
            if_pos hsub1]
          rw [hrec]
          simp only [List.map_cons, interleave]
          rw [List.get?_append_right (by omega), hlc]
          have : ro - c.count = (ro - c.count - 1) + 1 := by omega
          rw [this]
          rfl

theorem gbo_correct (t : Node K V) (hc : t.countOk = true) (hs : t.structOk = true) :
    ∀ i, t.get_by_offset i = .ok (t.inorder.get? i) := by
  induction t using Node.indOn with
  | step kvs cs cnt ih =>
    intro i
    have hc' := (countOk_mk kvs cs cnt).mp hc
    have hs' := (structOk_mk kvs cs cnt).mp hs
    have hilen : (Node.mk kvs cs cnt).inorder.length = cnt :=
      inorder_length _ hc
    cases cs with
    | nil =>
      rw [get_by_offset_leaf, inorder_mk]
      simp only [List.map_nil, interleave]
      by_cases hi : cnt ≤ i
      · rw [if_pos hi, List.get?_len_le (by rw [hc'.1] at hi; simpa using hi)]
      · rw [if_neg hi]
    | cons c0 cs' =>
      rw [get_by_offset_branch]
      by_cases hi : cnt ≤ i
      · rw [if_pos hi]
        rw [List.get?_len_le (by rw [hilen]; exact hi)]
      · rw [if_neg hi, inorder_mk]
        have hlen : (c0 :: cs').length = kvs.length + 1 := by
          rcases hs'.1 with h | h
          · cases h
          · exact h
        exact gboAux kvs (c0 :: cs') (c0 :: cs') i 0 hlen rfl
          (fun c hcmem r => ih c hcmem (hc'.2 c hcmem) (hs'.2 c hcmem) r)
          (fun c hcmem => inorder_length c (hc'.2 c hcmem))

/-- **C5**: on a tree satisfying the structural invariants, `get_by_offset i`
returns the entry of rank `i` of the in-order entry sequence (so the results
for `i = 0, 1, ...` enumerate all entries in strictly ascending key order),
it returns none exactly for `i ≥ count`, and the in-order sequence has
exactly `count` entries. -/
theorem c5_rank_ordering [LinearOrder K] (t : Node K V) (h : t.wf) :
    (∀ i, t.get_by_offset i = .ok (t.inorder.get? i)) ∧
    (∀ i, (t.get_by_offset i = .ok none ↔ t.count ≤ i)) ∧
    t.inorder.length = t.count ∧
    (t.inorder.map Prod.fst).Pairwise (· < ·) := by
  obtain ⟨hs, hc, hne, hsort⟩ := h
  have hmain := gbo_correct t hc hs
  have hlen := inorder_length t hc
  refine ⟨hmain, fun i => ?_, hlen, ?_⟩
  · rw [hmain i]
    constructor
    · intro hnone
      have : t.inorder.get? i = none := by
        exact Except.ok.inj hnone
      rw [← hlen]
      exact List.get?_eq_none.mp this
    · intro hle
      rw [List.get?_len_le (by omega)]
  · rw [List.pairwise_map]
    exact hsort

/-- Witness for C5 at a concrete two-level tree. -/
theorem c5_rank_ordering_witness :
    (Node.mk [((2 : Nat), (20 : Nat))]
        [Node.mk [(1, 10)] [] 1, Node.mk [(3, 30)] [] 1] 3).wf ∧
    ((∀ i, (Node.mk [((2 : Nat), (20 : Nat))]
        [Node.mk [(1, 10)] [] 1, Node.mk [(3, 30)] [] 1] 3).get_by_offset i =
          .ok ((Node.mk [((2 : Nat), (20 : Nat))]
            [Node.mk [(1, 10)] [] 1, Node.mk [(3, 30)] [] 1] 3).inorder.get? i)) ∧
      (∀ i, ((Node.mk [((2 : Nat), (20 : Nat))]
        [Node.mk [(1, 10)] [] 1, Node.mk [(3, 30)] [] 1] 3).get_by_offset i =
          .ok none ↔
        (Node.mk [((2 : Nat), (20 : Nat))]
          [Node.mk [(1, 10)] [] 1, Node.mk [(3, 30)] [] 1] 3).count ≤ i)) ∧
      (Node.mk [((2 : Nat), (20 : Nat))]
        [Node.mk [(1, 10)] [] 1, Node.mk [(3, 30)] [] 1] 3).inorder.length =
        (Node.mk [((2 : Nat), (20 : Nat))]
          [Node.mk [(1, 10)] [] 1, Node.mk [(3, 30)] [] 1] 3).count ∧
      ((Node.mk [((2 : Nat), (20 : Nat))]
        [Node.mk [(1, 10)] [] 1, Node.mk [(3, 30)] [] 1] 3).inorder.map
          Prod.fst).Pairwise (· < ·)) := by
  have hwf : (Node.mk [((2 : Nat), (20 : Nat))]
      [Node.mk [(1, 10)] [] 1, Node.mk [(3, 30)] [] 1] 3).wf := by
    refine ⟨?_, ?_, ?_, ?_⟩
    · simp [structOk_mk]
    · simp [countOk_mk, sumCounts_cons, sumCounts_nil, Node.count]
    · simp [entriesNonempty_mk]
    · simp [sortedKeys, inorder_mk, interleave]
  exact ⟨hwf, c5_rank_ordering _ hwf⟩

/-!
## Count-maintenance bugs of delete (claims C2 and C3)

When `delete_by_key` finds the key at a separator of an internal node it
does not decrement that node's cached `count` (and `take_right_most` does
not decrement the counts of the internal nodes it passes through), so the
count invariant is broken on a tree reachable by inserts followed by one
delete.
-/

/-- **C2** (refuting evaluation): from the empty tree with `max_degree = 4`,
inserting keys 1..7 and then deleting key 6 (found at a separator of the
root) succeeds, but leaves the root with cached count 7 while the root
holds 1 entry and its children 2 + 3, i.e. `count = key_values.len() + Σ
child.count` fails: the code does not decrement `count` in the
separator-hit branch of `delete_by_key`. -/
theorem c2_count_invariant_bug :
    insertAll ⟨4⟩ [((1 : Nat), (100 : Nat)), (2, 200), (3, 300), (4, 400), (5, 500),
        (6, 600), (7, 700)] =
      .ok ⟨some (.mk [(3, 300), (6, 600)]
        [.mk [(1, 100), (2, 200)] [] 2, .mk [(4, 400), (5, 500)] [] 2,
         .mk [(7, 700)] [] 1] 7), ⟨4⟩⟩ ∧
    BTree.delete_by_key (⟨some (.mk [(3, 300), (6, 600)]
        [.mk [(1, 100), (2, 200)] [] 2, .mk [(4, 400), (5, 500)] [] 2,
         .mk [(7, 700)] [] 1] 7), ⟨4⟩⟩ : BTree Nat Nat) 6 =
      .ok (⟨some (.mk [(3, 300)]
        [.mk [(1, 100), (2, 200)] [] 2, .mk [(4, 400), (5, 500), (7, 700)] [] 3] 7), ⟨4⟩⟩,
        some (6, 600)) ∧
    (Node.mk [((3 : Nat), (300 : Nat))]
      [.mk [(1, 100), (2, 200)] [] 2, .mk [(4, 400), (5, 500), (7, 700)] [] 3] 7).count = 7 ∧
    (Node.mk [((3 : Nat), (300 : Nat))]
        [.mk [(1, 100), (2, 200)] [] 2,
         .mk [(4, 400), (5, 500), (7, 700)] [] 3] 7).key_values.length +
      sumCounts (Node.mk [((3 : Nat), (300 : Nat))]
        [.mk [(1, 100), (2, 200)] [] 2,
         .mk [(4, 400), (5, 500), (7, 700)] [] 3] 7).children = 6 ∧
    (Node.mk [((3 : Nat), (300 : Nat))]
      [.mk [(1, 100), (2, 200)] [] 2,
       .mk [(4, 400), (5, 500), (7, 700)] [] 3] 7).countOk = false := by
  refine ⟨?_, ?_, rfl, ?_, ?_⟩
  · simp +decide [insertAll, BTree.insert, BTree.empty, Node.insert, searchKey, splitNode,
      new_with_key_values, sumCounts_cons, sumCounts_nil, BTreeConfig.node_should_split,
      BTreeConfig.max_key_value, List.foldlM, Except.bind, bind, pure, Except.pure]
  · simp [BTree.delete_by_key, Node.delete_by_key, searchKey, Node.take_right_most,
      Node.rebalance, new_with_key_values, sumCounts_cons, sumCounts_nil, Node.count,
      Node.key_values, Node.children, Node.is_leaf, BTreeConfig.node_at_min_size,
      BTreeConfig.node_under_size, BTreeConfig.min_key_value, BTreeConfig.min_children]
  · simp [Node.key_values, Node.children, sumCounts_cons, sumCounts_nil, Node.count]
  · rw [← Bool.not_eq_true, countOk_mk]
    simp +decide [sumCounts_cons, sumCounts_nil, Node.count]

/-- **C3** (refuting evaluation): with `max_degree = 4`, after inserting
keys 1..7, key 6 is present (`get_by_key` returns 600) and
`delete_by_key 6` returns the stored entry, but the tree's root count does
not decrease: it stays 7 instead of becoming 6, because the key was found
at an internal separator and the code never decrements `count` on that
path. -/
theorem c3_delete_count_bug :
    insertAll ⟨4⟩ [((1 : Nat), (100 : Nat)), (2, 200), (3, 300), (4, 400), (5, 500),
        (6, 600), (7, 700)] =
      .ok ⟨some (.mk [(3, 300), (6, 600)]
        [.mk [(1, 100), (2, 200)] [] 2, .mk [(4, 400), (5, 500)] [] 2,
         .mk [(7, 700)] [] 1] 7), ⟨4⟩⟩ ∧
    BTree.get_by_key (⟨some (.mk [(3, 300), (6, 600)]
        [.mk [(1, 100), (2, 200)] [] 2, .mk [(4, 400), (5, 500)] [] 2,
         .mk [(7, 700)] [] 1] 7), ⟨4⟩⟩ : BTree Nat Nat) 6 = .ok (some 600) ∧
    BTree.delete_by_key (⟨some (.mk [(3, 300), (6, 600)]
        [.mk [(1, 100), (2, 200)] [] 2, .mk [(4, 400), (5, 500)] [] 2,
         .mk [(7, 700)] [] 1] 7), ⟨4⟩⟩ : BTree Nat Nat) 6 =
      .ok (⟨some (.mk [(3, 300)]
        [.mk [(1, 100), (2, 200)] [] 2, .mk [(4, 400), (5, 500), (7, 700)] [] 3] 7), ⟨4⟩⟩,
        some (6, 600)) ∧
    BTree.count (⟨some (.mk [((3 : Nat), (300 : Nat)), (6, 600)]
        [.mk [(1, 100), (2, 200)] [] 2, .mk [(4, 400), (5, 500)] [] 2,
         .mk [(7, 700)] [] 1] 7), ⟨4⟩⟩ : BTree Nat Nat) = 7 ∧
    BTree.count (⟨some (.mk [((3 : Nat), (300 : Nat))]
        [.mk [(1, 100), (2, 200)] [] 2,
         .mk [(4, 400), (5, 500), (7, 700)] [] 3] 7), ⟨4⟩⟩ : BTree Nat Nat) = 7 := by
  refine ⟨?_, ?_, ?_, rfl, rfl⟩
  · simp +decide [insertAll, BTree.insert, BTree.empty, Node.insert, searchKey, splitNode,
      new_with_key_values, sumCounts_cons, sumCounts_nil, BTreeConfig.node_should_split,
      BTreeConfig.max_key_value, List.foldlM, Except.bind, bind, pure, Except.pure]
  · simp [BTree.get_by_key, Node.get_by_key, searchKey]
  · simp [BTree.delete_by_key, Node.delete_by_key, searchKey, Node.take_right_most,
      Node.rebalance, new_with_key_values, sumCounts_cons, sumCounts_nil, Node.count,
      Node.key_values, Node.children, Node.is_leaf, BTreeConfig.node_at_min_size,
      BTreeConfig.node_under_size, BTreeConfig.min_key_value, BTreeConfig.min_children]

/-- **C6** (refuting evaluation): with `max_degree = 3` (so
`min_key_value = 1`, `max_key_value = 2`), inserting 10, 20, ..., 110,
then 5 and 25, and deleting key 5 makes `rebalance` at the root merge two
siblings that both sit exactly at the minimum although neither is
undersized; the merged non-root node ends up with 3 entries, exceeding
`max_key_value = 2` (and with 4 children, exceeding `max_degree = 3`). -/
theorem c6_merge_oversize_bug :
    insertAll ⟨3⟩ [((10 : Nat), (10 : Nat)), (20, 20), (30, 30), (40, 40), (50, 50),
        (60, 60), (70, 70), (80, 80), (90, 90), (100, 100), (110, 110), (5, 5), (25, 25)] =
      .ok ⟨some (.mk [(40, 40), (80, 80)]
        [.mk [(20, 20)] [.mk [(5, 5), (10, 10)] [] 2, .mk [(25, 25), (30, 30)] [] 2] 5,
         .mk [(60, 60)] [.mk [(50, 50)] [] 1, .mk [(70, 70)] [] 1] 3,
         .mk [(100, 100)] [.mk [(90, 90)] [] 1, .mk [(110, 110)] [] 1] 3] 13), ⟨3⟩⟩ ∧
    BTree.delete_by_key (⟨some (.mk [(40, 40), (80, 80)]
        [.mk [(20, 20)] [.mk [(5, 5), (10, 10)] [] 2, .mk [(25, 25), (30, 30)] [] 2] 5,
         .mk [(60, 60)] [.mk [(50, 50)] [] 1, .mk [(70, 70)] [] 1] 3,
         .mk [(100, 100)] [.mk [(90, 90)] [] 1, .mk [(110, 110)] [] 1] 3] 13), ⟨3⟩⟩ :
        BTree Nat Nat) 5 =
      .ok (⟨some (.mk [(80, 80)]
        [.mk [(20, 20), (40, 40), (60, 60)]
           [.mk [(10, 10)] [] 1, .mk [(25, 25), (30, 30)] [] 2, .mk [(50, 50)] [] 1,
            .mk [(70, 70)] [] 1] 8,
         .mk [(100, 100)] [.mk [(90, 90)] [] 1, .mk [(110, 110)] [] 1] 3] 12), ⟨3⟩⟩,
        some (5, 5)) ∧
    BTreeConfig.max_key_value ⟨3⟩ <
      (Node.mk [((20 : Nat), (20 : Nat)), (40, 40), (60, 60)]
        [.mk [(10, 10)] [] 1, .mk [(25, 25), (30, 30)] [] 2, .mk [(50, 50)] [] 1,
         .mk [(70, 70)] [] 1] 8).key_values.length ∧
    BTreeConfig.max_degree ⟨3⟩ <
      (Node.mk [((20 : Nat), (20 : Nat)), (40, 40), (60, 60)]
        [.mk [(10, 10)] [] 1, .mk [(25, 25), (30, 30)] [] 2, .mk [(50, 50)] [] 1,
         .mk [(70, 70)] [] 1] 8).children.length := by
  refine ⟨?_, ?_, by decide, by decide⟩
  · simp +decide [insertAll, BTree.insert, BTree.empty, Node.insert, searchKey, splitNode,
      new_with_key_values, sumCounts_cons, sumCounts_nil, BTreeConfig.node_should_split,
      BTreeConfig.max_key_value, List.foldlM, Except.bind, bind, pure, Except.pure]
  · simp [BTree.delete_by_key, Node.delete_by_key, searchKey, Node.take_right_most,
      Node.rebalance, new_with_key_values, sumCounts_cons, sumCounts_nil, Node.count,
      Node.key_values, Node.children, Node.is_leaf, BTreeConfig.node_at_min_size,
      BTreeConfig.node_under_size, BTreeConfig.min_key_value, BTreeConfig.min_children]

/-- **C10** (counterexample): a tree whose nodes satisfy exactly the
invariants the claim lists — correct counts, every internal node with
`key_values.len() + 1` children, and every node that a `take_right_most`
descent could visit nonempty (here all non-root nodes are nonempty and no
descent occurs) — on which deleting the present key 5 still panics: the
root is an internal node with zero entries and a single child, so
`rebalance(0)` evaluates `children[child_idx - 1]` with `child_idx = 0`,
the access the claim asserts is always in bounds. -/
theorem c10_counterexample :
    (Node.mk ([] : List (Nat × Nat)) [Node.mk [(5, 500)] [] 1] 1).structOk = true ∧
    (Node.mk ([] : List (Nat × Nat)) [Node.mk [(5, 500)] [] 1] 1).countOk = true ∧
    (Node.mk [((5 : Nat), (500 : Nat))] [] 1).entriesNonempty = true ∧
    Node.delete_by_key ⟨4⟩ 5 (Node.mk ([] : List (Nat × Nat)) [Node.mk [(5, 500)] [] 1] 1) =
      .error .sibling := by
  refine ⟨?_, ?_, ?_, ?_⟩
  · simp [structOk_mk]
  · simp [countOk_mk, sumCounts_cons, sumCounts_nil, Node.count]
  · simp [entriesNonempty_mk]
  · simp [Node.delete_by_key, searchKey, Node.take_right_most, Node.rebalance,
      new_with_key_values, sumCounts_cons, sumCounts_nil, Node.count, Node.key_values,
      Node.children, Node.is_leaf, BTreeConfig.node_at_min_size, BTreeConfig.node_under_size,
      BTreeConfig.min_key_value, BTreeConfig.min_children]

/-- **C8** (counterexample): on the well-formed tree with separator
`(3, 30)`, left child `{1, 2}` and right child `{4, 5}`, deleting key 3
installs `(2, 20)` — the rightmost entry of the LEFT child (the in-order
predecessor) — as the new separator, not the leftmost entry `(4, 40)` of
the right child's subtree as the claim states. -/
theorem c8_counterexample :
    (Node.mk [((3 : Nat), (30 : Nat))]
      [Node.mk [(1, 10), (2, 20)] [] 2, Node.mk [(4, 40), (5, 50)] [] 2] 5).wf ∧
    Node.delete_by_key ⟨4⟩ 3
      (Node.mk [((3 : Nat), (30 : Nat))]
        [Node.mk [(1, 10), (2, 20)] [] 2, Node.mk [(4, 40), (5, 50)] [] 2] 5) =
      .ok (Node.mk [(2, 20)] [Node.mk [(1, 10)] [] 1, Node.mk [(4, 40), (5, 50)] [] 2] 5,
        some (3, 30)) ∧
    (Node.mk [((2 : Nat), (20 : Nat))]
      [Node.mk [(1, 10)] [] 1, Node.mk [(4, 40), (5, 50)] [] 2] 5).key_values.map
        Prod.fst = [2] ∧
    (Node.mk [((4 : Nat), (40 : Nat)), (5, 50)] [] 2).inorder.head?.map Prod.fst =
      some 4 ∧
    (2 : Nat) ≠ 4 := by
  refine ⟨⟨?_, ?_, ?_, ?_⟩, ?_, by simp [Node.key_values], ?_, by decide⟩
  · simp [structOk_mk]
  · simp [countOk_mk, sumCounts_cons, sumCounts_nil, Node.count]
  · simp [entriesNonempty_mk]
  · simp [sortedKeys, inorder_mk, interleave]
  · simp [Node.delete_by_key, searchKey, Node.take_right_most, Node.rebalance,
      new_with_key_values, sumCounts_cons, sumCounts_nil, Node.count, Node.key_values,
      Node.children, Node.is_leaf, BTreeConfig.node_at_min_size, BTreeConfig.node_under_size,
      BTreeConfig.min_key_value, BTreeConfig.min_children]
  · simp [inorder_mk, interleave]

/-!
## What take_right_most returns (claim C8, amended)
-/

theorem interleave_getLast? (ls : List (List α)) : ∀ (ks : List α) (l : List α),
    ls.length = ks.length + 1 → ls.getLast? = some l → l ≠ [] →
    (interleave ls ks).getLast? = l.getLast? := by
  induction ls with
  | nil => intro ks l hlen; simp at hlen
  | cons l0 ls ih =>
    intro ks l hlen hlast hne
    cases ls with
    | nil =>
      have hks : ks = [] := by simpa using hlen
      subst hks
      have hl : l0 = l := by simpa using hlast
      subst hl
      show (l0 ++ interleave [] []).getLast? = _
      simp [interleave]
    | cons l1 ls' =>
      cases ks with
      | nil => simp at hlen
      | cons k ks' =>
        have hlen' : (l1 :: ls').length = ks'.length + 1 := by simpa using hlen
        have hlast' : (l1 :: ls').getLast? = some l := by
          rwa [List.getLast?_cons_cons] at hlast
        have ihr := ih ks' l hlen' hlast' hne
        show (l0 ++ k :: interleave (l1 :: ls') ks').getLast? = _
        rw [List.getLast?_append_of_ne_nil _ (by simp)]
        have hne2 : interleave (l1 :: ls') ks' ≠ [] := by
          intro h0
          rw [h0] at ihr
          exact hne (List.getLast?_eq_none_iff.mp ihr.symm)
        cases hi : interleave (l1 :: ls') ks' with
        | nil => exact absurd hi hne2
        | cons a t =>
          rw [List.getLast?_cons_cons, ← hi]
          exact ihr

/-- The entry returned by `take_right_most` is the last entry of the
subtree's in-order sequence. -/
theorem take_right_most_getLast (cfg : BTreeConfig) (t : Node K V)
    (hs : t.structOk = true) (hne : t.entriesNonempty = true) :
    ∀ e t', Node.take_right_most cfg t = .ok (e, t') → t.inorder.getLast? = some e := by
  induction t using Node.indOn with
  | step kvs cs cnt ih =>
    intro e t' htake
    cases cs with
    | nil =>
      have hkvs : kvs ≠ [] := ((entriesNonempty_mk _ _ _).mp hne).1
      cases hlast : kvs.getLast? with
      | none => exact absurd (List.getLast?_eq_none_iff.mp hlast) hkvs
      | some kv =>
        simp only [Node.take_right_most, hlast] at htake
        obtain ⟨heq, -⟩ := Prod.mk.injEq .. ▸ (Except.ok.inj htake)
        rw [inorder_mk]
        simp only [List.map_nil, interleave]
        rw [hlast, heq]
    | cons c0 cs' =>
      have hstruct := (structOk_mk kvs (c0 :: cs') cnt).mp hs
      have hne' := (entriesNonempty_mk kvs (c0 :: cs') cnt).mp hne
      simp only [Node.take_right_most] at htake
      generalize hrmdef : (c0 :: cs').getLast (List.cons_ne_nil c0 cs') = rm at htake
      have hrmmem : rm ∈ c0 :: cs' := hrmdef ▸ List.getLast_mem _
      have hrm : (c0 :: cs').getLast? = some rm := by
        rw [List.getLast?_eq_getLast _ (List.cons_ne_nil c0 cs'), hrmdef]
      cases htk : Node.take_right_most cfg rm with
      | error p => simp only [htk] at htake; exact Except.noConfusion htake
      | ok pr =>
        obtain ⟨kv, rm'⟩ := pr
        simp only [htk] at htake
        cases hrb : Node.rebalance cfg
            (.mk kvs ((c0 :: cs').set ((c0 :: cs').length - 1) rm') cnt)
            ((c0 :: cs').length - 1) with
        | error p => simp only [hrb] at htake; exact Except.noConfusion htake
        | ok t'' =>
          simp only [hrb] at htake
          have hkv : kv = e := by
            have h1 := Except.ok.inj htake
            exact (Prod.mk.injEq .. ▸ h1).1
          subst hkv
          have hlast' := ih rm hrmmem (hstruct.2 rm hrmmem) (hne'.2 rm hrmmem) kv rm' htk
          rw [inorder_mk]
          have hlen : ((c0 :: cs').map Node.inorder).length = kvs.length + 1 := by
            rw [List.length_map]
            rcases hstruct.1 with h | h
            · cases h
            · exact h
          have hmaplast : ((c0 :: cs').map Node.inorder).getLast? = some rm.inorder := by
            rw [List.getLast?_map, hrm]
            rfl
          have hrmne : rm.inorder ≠ [] := by
            intro h0
            rw [h0] at hlast'
            cases hlast'
          rw [interleave_getLast? _ kvs rm.inorder hlen hmaplast hrmne]
          exact hlast'

/-- The last entry of a strictly sorted entry list bounds every entry's
key from above. -/
theorem getLast?_key_max [LinearOrder K] (l : List (K × V)) (e : K × V)
    (hsort : sortedKeys l) (hlast : l.getLast? = some e) :
    ∀ kv ∈ l, kv.1 ≤ e.1 := by
  intro kv hkv
  have hne : l ≠ [] := by rintro rfl; cases hlast
  have hsplit : l.dropLast ++ [l.getLast hne] = l := List.dropLast_concat_getLast hne
  have hge : l.getLast hne = e := by
    rw [List.getLast?_eq_getLast _ hne] at hlast
    exact Option.some.inj hlast
  rw [← hsplit] at hsort hkv
  rcases List.mem_append.mp hkv with h | h
  · have := (List.pairwise_append.mp hsort).2.2 kv h (l.getLast hne) (by simp)
    rw [hge] at this
    exact le_of_lt this
  · have : kv = e := by
      rw [hge] at h
      simpa using h
    exact this ▸ le_refl _

/-- The separator-hit branch of `delete_by_key`: the node keeps its shape
except that the separator at `idx` is replaced by the entry returned by
`take_right_most` on the child at `idx`, `rebalance idx` runs on the
result, and the old separator is returned. -/
theorem delete_found_structure [LinearOrder K] (cfg : BTreeConfig) (key : K)
    (kvs : List (K × V)) (c0 : Node K V) (cs' : List (Node K V)) (cnt idx : Nat)
    (child : Node K V) (prev e : K × V) (child' : Node K V)
    (hsearch : searchKey key kvs = .found idx)
    (hget : (c0 :: cs').get? idx = some child)
    (hkv : kvs.get? idx = some prev)
    (htake : Node.take_right_most cfg child = .ok (e, child')) :
    Node.delete_by_key cfg key (.mk kvs (c0 :: cs') cnt) =
      (Node.rebalance cfg (.mk (kvs.set idx e) ((c0 :: cs').set idx child') cnt)
        idx).map fun n => (n, some prev) := by
  simp only [Node.delete_by_key, hsearch]
  split
  · rename_i heq
    rw [hget] at heq
    exact Option.noConfusion heq
  · rename_i child2 heq
    rw [hget] at heq
    obtain rfl : child = child2 := Option.some.inj heq
    simp only [htake, hkv]
    cases hrb : Node.rebalance cfg (.mk (kvs.set idx e) ((c0 :: cs').set idx child') cnt)
        idx <;> simp [hrb, Except.map]

/-- **C8 (amended)**: when `delete_by_key` finds the key at separator
index `idx` of an internal node, the entry installed as the new separator
at `idx` (before the subsequent `rebalance idx`) is the entry obtained by
the `take_right_most` descent on the child at `idx` — the rightmost
(largest) entry of the subtree rooted at that separator's LEFT child,
i.e. the deleted key's in-order predecessor — and the old separator entry
is the value returned as the deletion result. -/
theorem c8_separator_predecessor [LinearOrder K] (cfg : BTreeConfig) :
    (∀ (t : Node K V) (e : K × V) (t' : Node K V),
        t.structOk = true → t.entriesNonempty = true →
        Node.take_right_most cfg t = .ok (e, t') →
        t.inorder.getLast? = some e ∧
          (sortedKeys t.inorder → ∀ kv ∈ t.inorder, kv.1 ≤ e.1)) ∧
    (∀ (key : K) (kvs : List (K × V)) (c0 : Node K V) (cs' : List (Node K V))
        (cnt idx : Nat) (child : Node K V) (prev e : K × V) (child' : Node K V),
        searchKey key kvs = .found idx →
        (c0 :: cs').get? idx = some child →
        kvs.get? idx = some prev →
        Node.take_right_most cfg child = .ok (e, child') →
        Node.delete_by_key cfg key (.mk kvs (c0 :: cs') cnt) =
          (Node.rebalance cfg (.mk (kvs.set idx e) ((c0 :: cs').set idx child') cnt)
            idx).map fun n => (n, some prev)) := by
  constructor
  · intro t e t' hs hne htake
    have hlast := take_right_most_getLast cfg t hs hne e t' htake
    exact ⟨hlast, fun hsort => getLast?_key_max _ _ hsort hlast⟩
  · intro key kvs c0 cs' cnt idx child prev e child' hsearch hget hkv htake
    exact delete_found_structure cfg key kvs c0 cs' cnt idx child prev e child'
      hsearch hget hkv htake

/-- Witness for the amended C8 at a concrete tree: deleting separator 3
with left child `{1, 2}` installs `(2, 20)`, the largest entry of the
left child. -/
theorem c8_separator_predecessor_witness :
    (Node.mk [((1 : Nat), (10 : Nat)), (2, 20)] [] 2).structOk = true ∧
    (Node.mk [((1 : Nat), (10 : Nat)), (2, 20)] [] 2).entriesNonempty = true ∧
    Node.take_right_most ⟨4⟩ (Node.mk [((1 : Nat), (10 : Nat)), (2, 20)] [] 2) =
      .ok ((2, 20), Node.mk [(1, 10)] [] 1) ∧
    (Node.mk [((1 : Nat), (10 : Nat)), (2, 20)] [] 2).inorder.getLast? = some (2, 20) ∧
    searchKey (3 : Nat) [((3 : Nat), (30 : Nat))] = .found 0 ∧
    ([Node.mk [((1 : Nat), (10 : Nat)), (2, 20)] [] 2,
        Node.mk [(4, 40), (5, 50)] [] 2].get? 0 =
      some (Node.mk [(1, 10), (2, 20)] [] 2)) ∧
    Node.delete_by_key ⟨4⟩ 3
      (Node.mk [((3 : Nat), (30 : Nat))]
        [Node.mk [(1, 10), (2, 20)] [] 2, Node.mk [(4, 40), (5, 50)] [] 2] 5) =
      (Node.rebalance ⟨4⟩
        (Node.mk ([((3 : Nat), (30 : Nat))].set 0 (2, 20))
          ([Node.mk [((1 : Nat), (10 : Nat)), (2, 20)] [] 2,
            Node.mk [(4, 40), (5, 50)] [] 2].set 0 (Node.mk [(1, 10)] [] 1)) 5)
        0).map fun n => (n, some (3, 30)) := by
  have hs : (Node.mk [((1 : Nat), (10 : Nat)), (2, 20)] [] 2).structOk = true := by
    simp [structOk_mk]
  have hne : (Node.mk [((1 : Nat), (10 : Nat)), (2, 20)] [] 2).entriesNonempty = true := by
    simp [entriesNonempty_mk]
  have htk : Node.take_right_most ⟨4⟩ (Node.mk [((1 : Nat), (10 : Nat)), (2, 20)] [] 2) =
      .ok ((2, 20), Node.mk [(1, 10)] [] 1) := by
    simp [Node.take_right_most]
  have hsearch : searchKey (3 : Nat) [((3 : Nat), (30 : Nat))] = .found 0 := by
    simp [searchKey]
  have hget : ([Node.mk [((1 : Nat), (10 : Nat)), (2, 20)] [] 2,
      Node.mk [(4, 40), (5, 50)] [] 2].get? 0 =
    some (Node.mk [(1, 10), (2, 20)] [] 2)) := rfl
  have hkv : [((3 : Nat), (30 : Nat))].get? 0 = some (3, 30) := rfl
  obtain ⟨A, B⟩ := c8_separator_predecessor (K := Nat) (V := Nat) ⟨4⟩
  exact ⟨hs, hne, htk, (A _ _ _ hs hne htk).1, hsearch, hget,
    B 3 [((3 : Nat), (30 : Nat))] (Node.mk [(1, 10), (2, 20)] [] 2)
      [Node.mk [(4, 40), (5, 50)] [] 2] 5 0 (Node.mk [(1, 10), (2, 20)] [] 2)
      (3, 30) (2, 20) (Node.mk [(1, 10)] [] 1) hsearch hget hkv htk⟩

/-!
## Safety of the partial operations (claim C10, amended)
-/

/-- When `rebalance` is called on a node with at least two children and a
valid child index, its sibling accesses `children[child_idx - 1]` and
`children[child_idx + 1]` are in bounds: any failure it reports comes
from another site. -/
theorem rebalance_errors (cfg : BTreeConfig) (kvs : List (K × V))
    (cs : List (Node K V)) (cnt child_idx : Nat) (e : PanicSite)
    (hlen : 2 ≤ cs.length) (hidx : child_idx < cs.length)
    (hrb : Node.rebalance cfg (.mk kvs cs cnt) child_idx = .error e) :
    e ≠ .sibling ∧ e ≠ .popLeaf := by
  cases hc : cs.get? child_idx with
  | none => exact absurd (List.get?_eq_none.mp hc) (by omega)
  | some child =>
    simp only [Node.rebalance, hc] at hrb
    by_cases hl : child_idx = cs.length - 1
    · have hn0 : ¬ child_idx = 0 := by omega
      cases hlc : cs.get? (child_idx - 1) with
      | none => exact absurd (List.get?_eq_none.mp hlc) (by omega)
      | some lc =>
        simp only [if_pos hl, if_neg hn0, hlc] at hrb
        repeat' split at hrb
        all_goals
          first
          | exact Except.noConfusion hrb
          | (injection hrb with h2; subst h2; decide)
    · cases hrc : cs.get? (child_idx + 1) with
      | none => exact absurd (List.get?_eq_none.mp hrc) (by omega)
      | some rc =>
        simp only [if_neg hl, hrc] at hrb
        repeat' split at hrb
        all_goals
          first
          | exact Except.noConfusion hrb
          | (injection hrb with h2; subst h2; decide)

/-- On a tree whose internal nodes have `key_values.len() + 1` children
and whose nodes are all nonempty, a failing `take_right_most` never fails
at the leaf `pop().unwrap()` nor at the sibling accesses of
`rebalance`. -/
theorem take_right_most_errors (cfg : BTreeConfig) (t : Node K V)
    (hs : t.structOk = true) (hne : t.entriesNonempty = true) :
    ∀ e, Node.take_right_most cfg t = .error e → e ≠ .popLeaf ∧ e ≠ .sibling := by
  induction t using Node.indOn with
  | step kvs cs cnt ih =>
    intro e herr
    cases cs with
    | nil =>
      have hkvs : kvs ≠ [] := ((entriesNonempty_mk _ _ _).mp hne).1
      cases hlast : kvs.getLast? with
      | none => exact absurd (List.getLast?_eq_none_iff.mp hlast) hkvs
      | some kv =>
        simp only [Node.take_right_most, hlast] at herr
        exact Except.noConfusion herr
    | cons c0 cs' =>
      have hstruct := (structOk_mk kvs (c0 :: cs') cnt).mp hs
      have hne' := (entriesNonempty_mk kvs (c0 :: cs') cnt).mp hne
      simp only [Node.take_right_most] at herr
      generalize hrmdef : (c0 :: cs').getLast (List.cons_ne_nil c0 cs') = rm at herr
      have hrmmem : rm ∈ c0 :: cs' := hrmdef ▸ List.getLast_mem _
      cases htk : Node.take_right_most cfg rm with
      | error p =>
        simp only [htk] at herr
        injection herr with h2
        exact h2 ▸ ih rm hrmmem (hstruct.2 rm hrmmem) (hne'.2 rm hrmmem) p htk
      | ok pr =>
        obtain ⟨kv, rm'⟩ := pr
        simp only [htk] at herr
        cases hrb : Node.rebalance cfg
            (.mk kvs ((c0 :: cs').set ((c0 :: cs').length - 1) rm') cnt)
            ((c0 :: cs').length - 1) with
        | error p =>
          simp only [hrb] at herr
          have hlen2 : 2 ≤ ((c0 :: cs').set ((c0 :: cs').length - 1) rm').length := by
            rw [List.length_set]
            have hkvs : kvs ≠ [] := hne'.1
            rcases hstruct.1 with h | h
            · cases h
            · rw [h]
              cases kvs with
              | nil => exact absurd rfl hkvs
              | cons a l => simp
          have hidx2 : (c0 :: cs').length - 1 <
              ((c0 :: cs').set ((c0 :: cs').length - 1) rm').length := by
            rw [List.length_set]
            simp
          injection herr with h2
          have h3 := rebalance_errors cfg kvs _ cnt _ p hlen2 hidx2 hrb
          exact h2 ▸ ⟨h3.2, h3.1⟩
        | ok t'' =>
          simp only [hrb] at herr
          exact Except.noConfusion herr

/-- On a tree whose internal nodes have `key_values.len() + 1` children
and whose nodes are all nonempty, a failing `delete_by_key` never fails
at the leaf `pop().unwrap()` of `take_right_most` nor at the sibling
accesses of `rebalance`. -/
theorem delete_errors [LinearOrder K] (cfg : BTreeConfig) (key : K) (t : Node K V)
    (hs : t.structOk = true) (hne : t.entriesNonempty = true) :
    ∀ e, Node.delete_by_key cfg key t = .error e → e ≠ .popLeaf ∧ e ≠ .sibling := by
  induction t using Node.indOn with
  | step kvs cs cnt ih =>
    intro e herr
    cases cs with
    | nil =>
      cases hsr : searchKey key kvs with
      | found idx =>
        simp only [Node.delete_by_key, hsr] at herr
        cases hkv : kvs.get? idx with
        | none =>
          simp only [hkv] at herr
          injection herr with h2
          exact h2 ▸ (show PanicSite.index ≠ PanicSite.popLeaf ∧
            PanicSite.index ≠ PanicSite.sibling by decide)
        | some kv =>
          simp only [hkv] at herr
          exact Except.noConfusion herr
      | notFound idx =>
        simp only [Node.delete_by_key, hsr] at herr
        exact Except.noConfusion herr
    | cons c0 cs' =>
      have hstruct := (structOk_mk kvs (c0 :: cs') cnt).mp hs
      have hne' := (entriesNonempty_mk kvs (c0 :: cs') cnt).mp hne
      have hlen : (c0 :: cs').length = kvs.length + 1 := by
        rcases hstruct.1 with h | h
        · cases h
        · exact h
      have hlen2 : 2 ≤ (c0 :: cs').length := by
        rw [hlen]
        cases kvs with
        | nil => exact absurd rfl hne'.1
        | cons a l => simp
      cases hsr : searchKey key kvs with
      | found idx =>
        simp only [Node.delete_by_key, hsr] at herr
        split at herr
        · injection herr with h2
          exact h2 ▸ (show PanicSite.index ≠ PanicSite.popLeaf ∧
            PanicSite.index ≠ PanicSite.sibling by decide)
        · rename_i child heq
          have hmem : child ∈ c0 :: cs' := List.get?_mem heq
          have hidx : idx < (c0 :: cs').length := by
            by_contra hcon
            rw [List.get?_eq_none.mpr (by omega)] at heq
            exact Option.noConfusion heq
          cases htk : Node.take_right_most cfg child with
          | error p =>
            simp only [htk] at herr
            injection herr with h2
            exact h2 ▸ take_right_most_errors cfg child (hstruct.2 child hmem)
              (hne'.2 child hmem) p htk
          | ok pr =>
            obtain ⟨lml, child'⟩ := pr
            simp only [htk] at herr
            cases hkv : kvs.get? idx with
            | none =>
              simp only [hkv] at herr
              injection herr with h2
              exact h2 ▸ (show PanicSite.index ≠ PanicSite.popLeaf ∧
                PanicSite.index ≠ PanicSite.sibling by decide)
            | some prev =>
              simp only [hkv] at herr
              cases hrb : Node.rebalance cfg
                  (.mk (kvs.set idx lml) ((c0 :: cs').set idx child') cnt) idx with
              | error p =>
                simp only [hrb] at herr
                injection herr with h2
                have h1 := rebalance_errors cfg (kvs.set idx lml) _ cnt idx p
                  (by rw [List.length_set]; exact hlen2)
                  (by rw [List.length_set]; exact hidx) hrb
                exact h2 ▸ ⟨h1.2, h1.1⟩
              | ok t' =>
                simp only [hrb] at herr
                exact Except.noConfusion herr
      | notFound idx =>
        simp only [Node.delete_by_key, hsr] at herr
        split at herr
        · injection herr with h2
          exact h2 ▸ (show PanicSite.index ≠ PanicSite.popLeaf ∧
            PanicSite.index ≠ PanicSite.sibling by decide)
        · rename_i child heq
          have hmem : child ∈ c0 :: cs' := List.get?_mem heq
          have hidx : idx < (c0 :: cs').length := by
            by_contra hcon
            rw [List.get?_eq_none.mpr (by omega)] at heq
            exact Option.noConfusion heq
          cases hdel : Node.delete_by_key cfg key child with
          | error p =>
            simp only [hdel] at herr
            injection herr with h2
            exact h2 ▸ ih child hmem (hstruct.2 child hmem) (hne'.2 child hmem) p hdel
          | ok pr =>
            obtain ⟨child', res⟩ := pr
            cases res with
            | none =>
              simp only [hdel] at herr
              exact Except.noConfusion herr
            | some dkv =>
              simp only [hdel] at herr
              cases hrb : Node.rebalance cfg
                  (.mk kvs ((c0 :: cs').set idx child') (cnt - 1)) idx with
              | error p =>
                simp only [hrb] at herr
                injection herr with h2
                have h1 := rebalance_errors cfg kvs _ (cnt - 1) idx p
                  (by rw [List.length_set]; exact hlen2)
                  (by rw [List.length_set]; exact hidx) hrb
                exact h2 ▸ ⟨h1.2, h1.1⟩
              | ok t' =>
                simp only [hrb] at herr
                exact Except.noConfusion herr

/-- **C10 (amended)**: on a tree satisfying the listed invariants
strengthened by "every node (in particular every internal node) holds at
least one entry": `get_by_offset` never fails at all (so its relative
offset subtractions never underflow and its `children.last().unwrap()`
always succeeds), and neither `take_right_most` nor `delete_by_key` can
fail at the leaf `key_values.pop().unwrap()` of `take_right_most` or at
the sibling accesses `children[child_idx - 1]` / `children[child_idx + 1]`
of `rebalance`. -/
theorem c10_partial_ops_safe [LinearOrder K] (cfg : BTreeConfig) (t : Node K V)
    (hs : t.structOk = true) (hc : t.countOk = true) (hne : t.entriesNonempty = true) :
    (∀ i, t.get_by_offset i = .ok (t.inorder.get? i)) ∧
    (∀ e, Node.take_right_most cfg t = .error e → e ≠ .popLeaf ∧ e ≠ .sibling) ∧
    (∀ (key : K) (e : PanicSite),
      Node.delete_by_key cfg key t = .error e → e ≠ .popLeaf ∧ e ≠ .sibling) :=
  ⟨gbo_correct t hc hs, take_right_most_errors cfg t hs hne,
    fun key => delete_errors cfg key t hs hne⟩

/-- Witness for the amended C10 at a concrete two-level tree. -/
theorem c10_partial_ops_safe_witness :
    ((Node.mk [((2 : Nat), (20 : Nat))]
        [Node.mk [(1, 10)] [] 1, Node.mk [(3, 30)] [] 1] 3).structOk = true ∧
      (Node.mk [((2 : Nat), (20 : Nat))]
        [Node.mk [(1, 10)] [] 1, Node.mk [(3, 30)] [] 1] 3).countOk = true ∧
      (Node.mk [((2 : Nat), (20 : Nat))]
        [Node.mk [(1, 10)] [] 1, Node.mk [(3, 30)] [] 1] 3).entriesNonempty = true) ∧
    ((∀ i, (Node.mk [((2 : Nat), (20 : Nat))]
        [Node.mk [(1, 10)] [] 1, Node.mk [(3, 30)] [] 1] 3).get_by_offset i =
          .ok ((Node.mk [((2 : Nat), (20 : Nat))]
            [Node.mk [(1, 10)] [] 1, Node.mk [(3, 30)] [] 1] 3).inorder.get? i)) ∧
      (∀ e, Node.take_right_most ⟨4⟩ (Node.mk [((2 : Nat), (20 : Nat))]
          [Node.mk [(1, 10)] [] 1, Node.mk [(3, 30)] [] 1] 3) = .error e →
        e ≠ .popLeaf ∧ e ≠ .sibling) ∧
      (∀ (key : Nat) (e : PanicSite),
        Node.delete_by_key ⟨4⟩ key (Node.mk [((2 : Nat), (20 : Nat))]
          [Node.mk [(1, 10)] [] 1, Node.mk [(3, 30)] [] 1] 3) = .error e →
        e ≠ .popLeaf ∧ e ≠ .sibling)) := by
  have hs : (Node.mk [((2 : Nat), (20 : Nat))]
      [Node.mk [(1, 10)] [] 1, Node.mk [(3, 30)] [] 1] 3).structOk = true := by
    simp [structOk_mk]
  have hc : (Node.mk [((2 : Nat), (20 : Nat))]
      [Node.mk [(1, 10)] [] 1, Node.mk [(3, 30)] [] 1] 3).countOk = true := by
    simp [countOk_mk, sumCounts_cons, sumCounts_nil, Node.count]
  have hne : (Node.mk [((2 : Nat), (20 : Nat))]
      [Node.mk [(1, 10)] [] 1, Node.mk [(3, 30)] [] 1] 3).entriesNonempty = true := by
    simp [entriesNonempty_mk]
  exact ⟨⟨hs, hc, hne⟩, c10_partial_ops_safe ⟨4⟩ _ hs hc hne⟩

/-!
## Key-order toolkit: membership and splitting of interleavings
-/

theorem mem_interleave (x : α) : ∀ (ls : List (List α)) (ks : List α),
    x ∈ interleave ls ks ↔ (∃ l ∈ ls, x ∈ l) ∨ x ∈ ks := by
  intro ls
  induction ls with
  | nil => intro ks; simp [interleave]
  | cons l0 ls ih =>
    intro ks
    cases ks with
    | nil =>
      show x ∈ l0 ++ interleave ls [] ↔ _
      rw [List.mem_append, ih]
      simp
    | cons k ks' =>
      show x ∈ l0 ++ k :: interleave ls ks' ↔ _
      rw [List.mem_append, List.mem_cons, ih]
      constructor
      · rintro (h | h | (⟨l, hl, hx⟩ | h))
        · exact Or.inl ⟨l0, by simp, h⟩
        · exact Or.inr (by simp [h])
        · exact Or.inl ⟨l, by simp [hl], hx⟩
        · exact Or.inr (by simp [h])
      · rintro (⟨l, hl, hx⟩ | h)
        · rcases List.mem_cons.mp hl with rfl | hl
          · exact Or.inl hx
          · exact Or.inr (Or.inr (Or.inl ⟨l, hl, hx⟩))
        · rcases List.mem_cons.mp h with rfl | h
          · exact Or.inr (Or.inl rfl)
          · exact Or.inr (Or.inr (Or.inr h))

theorem interleave_split : ∀ (j : Nat) (ls : List (List α)) (ks : List α) (kv : α),
    ls.length = ks.length + 1 → ks.get? j = some kv →
    interleave ls ks =
      interleave (ls.take (j + 1)) (ks.take j) ++
        kv :: interleave (ls.drop (j + 1)) (ks.drop (j + 1)) := by
  intro j
  induction j with
  | zero =>
    intro ls ks kv hlen hkv
    cases ks with
    | nil => cases hkv
    | cons k0 ks' =>
      obtain rfl : k0 = kv := Option.some.inj hkv
      cases ls with
      | nil => cases hlen
      | cons l0 ls' =>
        show l0 ++ k0 :: interleave ls' ks' = _
        simp [interleave]
  | succ j ih =>
    intro ls ks kv hlen hkv
    cases ks with
    | nil => cases hkv
    | cons k0 ks' =>
      cases ls with
      | nil => cases hlen
      | cons l0 ls' =>
        have hlen' : ls'.length = ks'.length + 1 := by simpa using hlen
        have hkv' : ks'.get? j = some kv := hkv
        have := ih ls' ks' kv hlen' hkv'
        show l0 ++ k0 :: interleave ls' ks' = _
        rw [this]
        simp [interleave, List.take, List.drop]

theorem mem_take_of_get? (l : List α) (j n : Nat) (x : α) (hj : j < n)
    (h : l.get? j = some x) : x ∈ l.take n := by
  have h2 : (l.take n).get? j = some x := by
    rw [List.get?_take hj]
    exact h
  exact List.get?_mem h2

theorem mem_drop_of_get? (l : List α) (m j : Nat) (x : α) (hj : m ≤ j)
    (h : l.get? j = some x) : x ∈ l.drop m := by
  have h2 : (l.drop m).get? (j - m) = some x := by
    rw [List.get?_drop]
    rw [show m + (j - m) = j by omega]
    exact h
  exact List.get?_mem h2

/-!
## Binary-search model lemmas
-/

theorem searchKey_found_get [LinearOrder K] (key : K) :
    ∀ (kvs : List (K × V)) (idx : Nat), searchKey key kvs = .found idx →
      ∃ v, kvs.get? idx = some (key, v) := by
  intro kvs
  induction kvs with
  | nil => intro idx h; cases h
  | cons kv rest ih =>
    intro idx h
    obtain ⟨k, v⟩ := kv
    by_cases hlt : k < key
    · simp only [searchKey, if_pos hlt] at h
      cases hs : searchKey key (V := V) rest with
      | found i =>
        rw [hs] at h
        obtain rfl : i + 1 = idx := by cases h; rfl
        obtain ⟨v', hv'⟩ := ih i hs
        exact ⟨v', hv'⟩
      | notFound i => rw [hs] at h; cases h
    · simp only [searchKey, if_neg hlt] at h
      by_cases heq : k = key
      · rw [if_pos heq] at h
        obtain rfl : 0 = idx := by cases h; rfl
        exact ⟨v, by rw [heq]; rfl⟩
      · rw [if_neg heq] at h
        cases h

theorem searchKey_notFound_le [LinearOrder K] (key : K) :
    ∀ (kvs : List (K × V)) (idx : Nat), searchKey key kvs = .notFound idx →
      idx ≤ kvs.length := by
  intro kvs
  induction kvs with
  | nil => intro idx h; cases h; simp
  | cons kv rest ih =>
    intro idx h
    obtain ⟨k, v⟩ := kv
    by_cases hlt : k < key
    · simp only [searchKey, if_pos hlt] at h
      cases hs : searchKey key (V := V) rest with
      | found i => rw [hs] at h; cases h
      | notFound i =>
        rw [hs] at h
        obtain rfl : i + 1 = idx := by cases h; rfl
        have := ih i hs
        simp
        omega
    · simp only [searchKey, if_neg hlt] at h
      by_cases heq : k = key
      · rw [if_pos heq] at h; cases h
      · rw [if_neg heq] at h
        obtain rfl : 0 = idx := by cases h; rfl
        simp

theorem searchKey_notFound_lower [LinearOrder K] (key : K) :
    ∀ (kvs : List (K × V)) (idx : Nat), searchKey key kvs = .notFound idx →
      ∀ (j : Nat) (kv : K × V), j < idx → kvs.get? j = some kv → kv.1 < key := by
  intro kvs
  induction kvs with
  | nil => intro idx h j kv hj hget; cases hget
  | cons kv0 rest ih =>
    intro idx h j kv hj hget
    obtain ⟨k, v⟩ := kv0
    by_cases hlt : k < key
    · simp only [searchKey, if_pos hlt] at h
      cases hs : searchKey key (V := V) rest with
      | found i => rw [hs] at h; cases h
      | notFound i =>
        rw [hs] at h
        obtain rfl : i + 1 = idx := by cases h; rfl
        cases j with
        | zero =>
          obtain rfl : (k, v) = kv := Option.some.inj hget
          exact hlt
        | succ j' => exact ih i hs j' kv (by omega) hget
    · simp only [searchKey, if_neg hlt] at h
      by_cases heq : k = key
      · rw [if_pos heq] at h; cases h
      · rw [if_neg heq] at h
        obtain rfl : 0 = idx := by cases h; rfl
        omega


theorem searchKey_notFound_at [LinearOrder K] (key : K) :
    ∀ (kvs : List (K × V)) (idx : Nat), searchKey key kvs = .notFound idx →
      ∀ kv : K × V, kvs.get? idx = some kv → key < kv.1 := by
  intro kvs
  induction kvs with
  | nil => intro idx h kv hget; cases hget
  | cons kv0 rest ih =>
    intro idx h kv hget
    obtain ⟨k, v⟩ := kv0
    by_cases hlt : k < key
    · simp only [searchKey, if_pos hlt] at h
      cases hs : searchKey key (V := V) rest with
      | found i => rw [hs] at h; cases h
      | notFound i =>
        rw [hs] at h
        obtain rfl : i + 1 = idx := by cases h; rfl
        exact ih i hs kv hget
    · simp only [searchKey, if_neg hlt] at h
      by_cases heq : k = key
      · rw [if_pos heq] at h; cases h
      · rw [if_neg heq] at h
        obtain rfl : 0 = idx := by cases h; rfl
        obtain rfl : (k, v) = kv := Option.some.inj hget
        exact lt_of_le_of_ne (not_lt.mp hlt) (Ne.symm heq)

/-- On a strictly sorted entry list the scan is complete: a key it reports
absent is absent. -/
theorem searchKey_notFound_not_mem [LinearOrder K] (key : K)
    (kvs : List (K × V)) (idx : Nat) (hsort : sortedKeys kvs)
    (h : searchKey key kvs = .notFound idx) : key ∉ kvs.map Prod.fst := by
  intro hmem
  obtain ⟨kv, hkvmem, hfst⟩ := List.mem_map.mp hmem
  obtain ⟨j, hj⟩ := List.get_of_mem hkvmem
  have hget : kvs.get? j.1 = some kv := by
    rw [List.get?_eq_get j.2, hj]
  rcases lt_trichotomy j.1 idx with hlt | heq | hgt
  · have h1 := searchKey_notFound_lower key kvs idx h j.1 kv hlt hget
    rw [hfst] at h1
    exact lt_irrefl key h1
  · have h1 := searchKey_notFound_at key kvs idx h kv (heq ▸ hget)
    rw [hfst] at h1
    exact lt_irrefl key h1
  · have hidxlt : idx < kvs.length := lt_of_lt_of_le hgt (Nat.le_of_lt_succ
      (Nat.lt_succ_of_lt j.2))
    cases hgeti : kvs.get? idx with
    | none => exact absurd (List.get?_eq_none.mp hgeti) (by omega)
    | some kvi =>
      have h1 := searchKey_notFound_at key kvs idx h kvi hgeti
      have h2 : kvi.1 < kv.1 := by
        have hp := (List.pairwise_iff_get.mp hsort)
          ⟨idx, hidxlt⟩ j hgt
        have : kvs.get ⟨idx, hidxlt⟩ = kvi := by
          have := List.get?_eq_get hidxlt (l := kvs)
          rw [hgeti] at this
          exact (Option.some.inj this).symm
        rw [this, hj] at hp
        exact hp
      rw [hfst] at h2
      exact absurd (lt_trans h1 h2) (lt_irrefl key)

/-!
## Ordering facts around one separator of a sorted interleaving
-/

theorem sublist_interleave_right (ks : List α) :
    ∀ ls : List (List α), ks.Sublist (interleave ls ks) := by
  induction ks with
  | nil => intro ls; simp
  | cons k ks' ih =>
    intro ls
    cases ls with
    | nil => simp [interleave]
    | cons l0 ls' =>
      show (k :: ks').Sublist (l0 ++ k :: interleave ls' ks')
      exact List.Sublist.trans ((ih ls').cons_cons k) (List.sublist_append_right l0 _)

/-- Everything placed before separator `j` in an interleaving relates to it
on the left, everything after on the right. -/
theorem interleave_sep_bounds {R : α → α → Prop} (ls : List (List α)) (ks : List α)
    (j : Nat) (kv : α) (hlen : ls.length = ks.length + 1)
    (hp : (interleave ls ks).Pairwise R) (hkv : ks.get? j = some kv) :
    (∀ (i : Nat) (l : List α), i ≤ j → ls.get? i = some l → ∀ x ∈ l, R x kv) ∧
    (∀ (i : Nat) (kvi : α), i < j → ks.get? i = some kvi → R kvi kv) ∧
    (∀ (i : Nat) (l : List α), j < i → ls.get? i = some l → ∀ x ∈ l, R kv x) ∧
    (∀ (i : Nat) (kvi : α), j < i → ks.get? i = some kvi → R kv kvi) := by
  rw [interleave_split j ls ks kv hlen hkv] at hp
  obtain ⟨hpA, hpB, hcross⟩ := List.pairwise_append.mp hp
  have hkvB := List.pairwise_cons.mp hpB
  refine ⟨?_, ?_, ?_, ?_⟩
  · intro i l hi hget x hx
    exact hcross x ((mem_interleave x _ _).mpr
      (Or.inl ⟨l, mem_take_of_get? ls i (j + 1) l (by omega) hget, hx⟩)) kv (by simp)
  · intro i kvi hi hget
    exact hcross kvi ((mem_interleave kvi _ _).mpr
      (Or.inr (mem_take_of_get? ks i j kvi hi hget))) kv (by simp)
  · intro i l hi hget x hx
    exact hkvB.1 x ((mem_interleave x _ _).mpr
      (Or.inl ⟨l, mem_drop_of_get? ls (j + 1) i l (by omega) hget, hx⟩))
  · intro i kvi hi hget
    exact hkvB.1 kvi ((mem_interleave kvi _ _).mpr
      (Or.inr (mem_drop_of_get? ks (j + 1) i kvi (by omega) hget)))

theorem interleave_map (g : α → β) : ∀ (ls : List (List α)) (ks : List α),
    (interleave ls ks).map g = interleave (ls.map (List.map g)) (ks.map g) := by
  intro ls
  induction ls with
  | nil => intro ks; simp [interleave]
  | cons l0 ls ih =>
    intro ks
    cases ks with
    | nil =>
      show (l0 ++ interleave ls []).map g = _
      rw [List.map_append, ih]
      rfl
    | cons k ks' =>
      show (l0 ++ k :: interleave ls ks').map g = _
      rw [List.map_append, List.map_cons, ih]
      rfl

theorem sorted_get?_ne [LinearOrder K] (kvs : List (K × V)) (hsort : sortedKeys kvs)
    (i j : Nat) (hne : i ≠ j) (a b : K × V) (ha : kvs.get? i = some a)
    (hb : kvs.get? j = some b) : a.1 ≠ b.1 := by
  have hi : i < kvs.length := by
    by_contra hc
    rw [List.get?_eq_none.mpr (by omega)] at ha
    exact Option.noConfusion ha
  have hj : j < kvs.length := by
    by_contra hc
    rw [List.get?_eq_none.mpr (by omega)] at hb
    exact Option.noConfusion hb
  have hga : kvs.get ⟨i, hi⟩ = a := by
    have h0 := List.get?_eq_get hi (l := kvs)
    rw [ha] at h0
    exact (Option.some.inj h0).symm
  have hgb : kvs.get ⟨j, hj⟩ = b := by
    have h0 := List.get?_eq_get hj (l := kvs)
    rw [hb] at h0
    exact (Option.some.inj h0).symm
  rcases lt_or_gt_of_ne hne with h | h
  · have hp := (List.pairwise_iff_get.mp hsort) ⟨i, hi⟩ ⟨j, hj⟩ h
    rw [hga, hgb] at hp
    exact ne_of_lt hp
  · have hp := (List.pairwise_iff_get.mp hsort) ⟨j, hj⟩ ⟨i, hi⟩ h
    rw [hga, hgb] at hp
    exact (ne_of_lt hp).symm

theorem setVal_id [LinearOrder K] (key : K) (value : V) (l : List (K × V))
    (h : key ∉ l.map Prod.fst) : setVal key value l = l := by
  unfold setVal
  conv_rhs => rw [← List.map_id l]
  apply List.map_congr_left
  intro kv hkv
  have hne : ¬ kv.1 = key := fun he => h (List.mem_map.mpr ⟨kv, hkv, he⟩)
  rw [if_neg hne]
  rfl

theorem setVal_eq_set [LinearOrder K] (key : K) (value v : V) (kvs : List (K × V))
    (idx : Nat) (hsort : sortedKeys kvs) (hget : kvs.get? idx = some (key, v)) :
    setVal key value kvs = kvs.set idx (key, value) := by
  have hidx : idx < kvs.length := by
    by_contra hc
    rw [List.get?_eq_none.mpr (by omega)] at hget
    exact Option.noConfusion hget
  apply List.ext_get?
  intro m
  show ((kvs.map fun kv => if kv.1 = key then (key, value) else kv).get? m) = _
  rw [List.get?_map]
  by_cases hm : m = idx
  · subst hm
    rw [hget, List.get?_set_eq_of_lt _ hidx]
    simp
  · rw [List.get?_set_ne _ kvs (fun he => hm he.symm)]
    cases hq : kvs.get? m with
    | none => rfl
    | some kvm =>
      have hne : kvm.1 ≠ key :=
        sorted_get?_ne kvs hsort m idx hm kvm (key, v) hq hget
      simp [hne]

/-- When the binary search reports `notFound idx` at a sorted internal
node that does contain the key, the key lives in the subtree of child
`idx`. -/
theorem key_in_child [LinearOrder K] (key : K) (kvs : List (K × V))
    (cs : List (Node K V)) (idx : Nat)
    (hlen : cs.length = kvs.length + 1)
    (hsort : sortedKeys (interleave (cs.map Node.inorder) kvs))
    (hsk : searchKey key kvs = .notFound idx)
    (hmem : key ∈ ((interleave (cs.map Node.inorder) kvs).map Prod.fst)) :
    ∃ c, cs.get? idx = some c ∧ key ∈ c.inorder.map Prod.fst := by
  have hlen2 : (cs.map Node.inorder).length = kvs.length + 1 := by
    rw [List.length_map]; exact hlen
  have hkvs_sorted : sortedKeys kvs :=
    List.Pairwise.sublist (sublist_interleave_right kvs (cs.map Node.inorder)) hsort
  obtain ⟨x, hx, hfst⟩ := List.mem_map.mp hmem
  rcases (mem_interleave x _ _).mp hx with ⟨l, hl, hxl⟩ | hxk
  · obtain ⟨jc, hjc⟩ := List.get_of_mem hl
    have hjcget : (cs.map Node.inorder).get? jc.1 = some l := by
      rw [List.get?_eq_get jc.2, hjc]
    have hidxle : idx ≤ kvs.length := searchKey_notFound_le key kvs idx hsk
    rcases lt_trichotomy jc.1 idx with hlt | heq | hgt
    · exfalso
      have hjlt : jc.1 < kvs.length := by omega
      cases hsep : kvs.get? jc.1 with
      | none => exact absurd (List.get?_eq_none.mp hsep) (by omega)
      | some kvj =>
        have hb := (interleave_sep_bounds (cs.map Node.inorder) kvs jc.1 kvj hlen2
          hsort hsep).1 jc.1 l (le_refl _) hjcget x hxl
        have h2 := searchKey_notFound_lower key kvs idx hsk jc.1 kvj hlt hsep
        rw [hfst] at hb
        exact absurd (lt_trans hb h2) (lt_irrefl key)
    · obtain ⟨c, hc, hcl⟩ : ∃ c, cs.get? idx = some c ∧ c.inorder = l := by
        rw [← heq]
        cases hcg : cs.get? jc.1 with
        | none =>
          rw [List.get?_map, hcg] at hjcget
          exact Option.noConfusion hjcget
        | some c =>
          rw [List.get?_map, hcg] at hjcget
          exact ⟨c, rfl, Option.some.inj hjcget⟩
      exact ⟨c, hc, List.mem_map.mpr ⟨x, hcl ▸ hxl, hfst⟩⟩
    · exfalso
      have hidxlt : idx < kvs.length := by
        have : jc.1 < (cs.map Node.inorder).length := jc.2
        omega
      cases hsep : kvs.get? idx with
      | none => exact absurd (List.get?_eq_none.mp hsep) (by omega)
      | some kvi =>
        have hb := (interleave_sep_bounds (cs.map Node.inorder) kvs idx kvi hlen2
          hsort hsep).2.2.1 jc.1 l hgt hjcget x hxl
        have h2 := searchKey_notFound_at key kvs idx hsk kvi hsep
        rw [hfst] at hb
        exact absurd (lt_trans h2 hb) (lt_irrefl key)
  · exact absurd (List.mem_map.mpr ⟨x, hxk, hfst⟩)
      (searchKey_notFound_not_mem key kvs idx hkvs_sorted hsk)

/-- A key stored at a separator of a sorted internal node occurs in no
child subtree. -/
theorem key_not_in_children [LinearOrder K] (key : K) (v : V) (kvs : List (K × V))
    (cs : List (Node K V)) (idx : Nat)
    (hlen : cs.length = kvs.length + 1)
    (hsort : sortedKeys (interleave (cs.map Node.inorder) kvs))
    (hget : kvs.get? idx = some (key, v)) :
    ∀ c ∈ cs, key ∉ c.inorder.map Prod.fst := by
  intro c hc hmem
  have hlen2 : (cs.map Node.inorder).length = kvs.length + 1 := by
    rw [List.length_map]; exact hlen
  obtain ⟨x, hx, hfst⟩ := List.mem_map.mp hmem
  obtain ⟨jc, hjc⟩ := List.get_of_mem hc
  have hjcget : (cs.map Node.inorder).get? jc.1 = some c.inorder := by
    rw [List.get?_map, List.get?_eq_get jc.2, hjc]
    rfl
  have hb := interleave_sep_bounds (cs.map Node.inorder) kvs idx (key, v) hlen2
    hsort hget
  rcases le_or_lt jc.1 idx with hle | hgt
  · have h1 := hb.1 jc.1 c.inorder hle hjcget x hx
    rw [hfst] at h1
    exact absurd h1 (lt_irrefl key)
  · have h1 := hb.2.2.1 jc.1 c.inorder hgt hjcget x hx
    rw [hfst] at h1
    exact absurd h1 (lt_irrefl key)

theorem set_same (l : List α) (n : Nat) (a : α) (h : l.get? n = some a) :
    l.set n a = l := by
  have hn : n < l.length := by
    by_contra hc
    rw [List.get?_eq_none.mpr (by omega)] at h
    exact Option.noConfusion h
  apply List.ext_get?
  intro m
  by_cases hm : m = n
  · subst hm
    rw [List.get?_set_eq_of_lt _ hn, h]
  · rw [List.get?_set_ne _ _ (fun he => hm he.symm)]

theorem skel_mk (kvs : List (K × V)) (cs : List (Node K V)) (cnt : Nat) :
    (Node.mk kvs cs cnt).skel =
      Node.mk (kvs.map fun kv => (kv.1, ())) (cs.map Node.skel) cnt := by
  rw [Node.skel]
  congr 1
  exact List.attach_map_val cs Node.skel

/-- A key occurring in the subtree of child `idx` of a sorted internal
node occurs in no other child's subtree. -/
theorem key_in_one_child [LinearOrder K] (key : K) (kvs : List (K × V))
    (cs : List (Node K V)) (hlen : cs.length = kvs.length + 1)
    (hsort : sortedKeys (interleave (cs.map Node.inorder) kvs))
    (idx jc : Nat) (c cj : Node K V)
    (hidx : cs.get? idx = some c) (hjc : cs.get? jc = some cj) (hne : jc ≠ idx)
    (hkey : key ∈ c.inorder.map Prod.fst) : key ∉ cj.inorder.map Prod.fst := by
  intro hmem
  have hlen2 : (cs.map Node.inorder).length = kvs.length + 1 := by
    rw [List.length_map]; exact hlen
  obtain ⟨x, hx, hfst⟩ := List.mem_map.mp hkey
  obtain ⟨y, hy, hyfst⟩ := List.mem_map.mp hmem
  have hidx2 : (cs.map Node.inorder).get? idx = some c.inorder := by
    rw [List.get?_map, hidx]; rfl
  have hjc2 : (cs.map Node.inorder).get? jc = some cj.inorder := by
    rw [List.get?_map, hjc]; rfl
  have hjclt : jc < cs.length := by
    by_contra hc2
    rw [List.get?_eq_none.mpr (by omega)] at hjc
    exact Option.noConfusion hjc
  have hidxlt : idx < cs.length := by
    by_contra hc2
    rw [List.get?_eq_none.mpr (by omega)] at hidx
    exact Option.noConfusion hidx
  rcases lt_or_gt_of_ne hne with hlt | hgt
  · -- jc < idx: use separator jc
    have hseplt : jc < kvs.length := by omega
    cases hsep : kvs.get? jc with
    | none => exact absurd (List.get?_eq_none.mp hsep) (by omega)
    | some kvj =>
      have hb := interleave_sep_bounds (cs.map Node.inorder) kvs jc kvj hlen2
        hsort hsep
      have h1 := hb.1 jc cj.inorder (le_refl _) hjc2 y hy
      have h2 := hb.2.2.1 idx c.inorder hlt hidx2 x hx
      rw [hyfst] at h1
      rw [hfst] at h2
      exact absurd (lt_trans h1 h2) (lt_irrefl key)
  · -- jc > idx: use separator jc - 1
    have hseplt : jc - 1 < kvs.length := by omega
    cases hsep : kvs.get? (jc - 1) with
    | none => exact absurd (List.get?_eq_none.mp hsep) (by omega)
    | some kvm =>
      have hb := interleave_sep_bounds (cs.map Node.inorder) kvs (jc - 1) kvm hlen2
        hsort hsep
      have h1 := hb.1 idx c.inorder (by omega) hidx2 x hx
      have h2 := hb.2.2.1 jc cj.inorder (by omega) hjc2 y hy
      rw [hfst] at h1
      rw [hyfst] at h2
      exact absurd (lt_trans h1 h2) (lt_irrefl key)

theorem setVal_interleave [LinearOrder K] (key : K) (value : V)
    (ls : List (List (K × V))) (ks : List (K × V)) :
    setVal key value (interleave ls ks) =
      interleave (ls.map (setVal key value)) (setVal key value ks) := by
  unfold setVal
  exact interleave_map _ ls ks

/-!
## Upsert leaves the tree shape unchanged (claim C7)
-/

/-- **C7**: inserting a key that is already present overwrites the stored
value in place and returns `NotSplited (is_new = false)`: no split occurs,
the result has the same skeleton as the input — same keys, same node
shapes, and the same cached `count` at every node — and its entry sequence
is the input's with only the value stored under `key` replaced. -/
theorem c7_upsert [LinearOrder K] (cfg : BTreeConfig) (key : K) (value : V)
    (t : Node K V) (h : t.wf) (hmem : key ∈ t.inorder.map Prod.fst) :
    ∃ t', Node.insert cfg key value t = .ok (.NotSplited false t') ∧
      t'.skel = t.skel ∧ t'.inorder = setVal key value t.inorder ∧
      t'.count = t.count := by
  induction t using Node.indOn with
  | step kvs cs cnt ih =>
    have hwf := h
    obtain ⟨hs, hc, hne, hsort⟩ := h
    rw [inorder_mk] at hsort hmem
    have hkvs_sorted : sortedKeys kvs :=
      List.Pairwise.sublist (sublist_interleave_right kvs _) hsort
    cases cs with
    | nil =>
      have hmem' : key ∈ kvs.map Prod.fst := by
        simpa [interleave] using hmem
      cases hsk : searchKey key kvs with
      | notFound idx =>
        exact absurd hmem' (searchKey_notFound_not_mem key kvs idx hkvs_sorted hsk)
      | found idx =>
        obtain ⟨v, hget⟩ := searchKey_found_get key kvs idx hsk
        refine ⟨.mk (kvs.set idx (key, value)) [] cnt, ?_, ?_, ?_, rfl⟩
        · simp only [Node.insert, hsk]
        · rw [skel_mk, skel_mk]
          congr 1
          rw [List.map_set]
          exact set_same _ idx _ (by rw [List.get?_map, hget]; rfl)
        · rw [inorder_mk, inorder_mk]
          simp only [List.map_nil, interleave]
          exact (setVal_eq_set key value v kvs idx hkvs_sorted hget).symm
    | cons c0 cs' =>
      have hlen : (c0 :: cs').length = kvs.length + 1 := by
        rcases ((structOk_mk kvs (c0 :: cs') cnt).mp hs).1 with h0 | h0
        · cases h0
        · exact h0
      cases hsk : searchKey key kvs with
      | found idx =>
        obtain ⟨v, hget⟩ := searchKey_found_get key kvs idx hsk
        refine ⟨.mk (kvs.set idx (key, value)) (c0 :: cs') cnt, ?_, ?_, ?_, rfl⟩
        · simp only [Node.insert, hsk]
        · rw [skel_mk, skel_mk]
          congr 1
          rw [List.map_set]
          exact set_same _ idx _ (by rw [List.get?_map, hget]; rfl)
        · rw [inorder_mk, inorder_mk, setVal_interleave]
          congr 1
          · have hmapid : ((c0 :: cs').map Node.inorder).map (setVal key value) =
                ((c0 :: cs').map Node.inorder).map id := by
              apply List.map_congr_left
              intro l hl
              obtain ⟨c, hcmem, rfl⟩ := List.mem_map.mp hl
              exact setVal_id key value c.inorder
                (key_not_in_children key v kvs (c0 :: cs') idx hlen hsort hget c hcmem)
            rw [hmapid, List.map_id]
          · exact (setVal_eq_set key value v kvs idx hkvs_sorted hget).symm
      | notFound idx =>
        obtain ⟨c, hcget, hckey⟩ := key_in_child key kvs (c0 :: cs') idx hlen hsort
          hsk hmem
        have hcw : c.wf := wf_child hwf c (List.get?_mem hcget)
        obtain ⟨c', hins, hskel, hinor, hcnt⟩ := ih c (List.get?_mem hcget) hcw hckey
        refine ⟨.mk kvs ((c0 :: cs').set idx c') cnt, ?_, ?_, ?_, rfl⟩
        · simp only [Node.insert, hsk]
          split
          · rename_i heq
            rw [hcget] at heq
            exact Option.noConfusion heq
          · rename_i child2 heq
            rw [hcget] at heq
            obtain rfl : c = child2 := Option.some.inj heq
            simp only [hins]
            simp
        · rw [skel_mk, skel_mk]
          congr 1
          rw [List.map_set]
          apply set_same
          rw [List.get?_map, hcget]
          show some c.skel = some c'.skel
          rw [hskel]
        · rw [inorder_mk, inorder_mk, setVal_interleave]
          have hkvs_id : setVal key value kvs = kvs :=
            setVal_id key value kvs (searchKey_notFound_not_mem key kvs idx
              hkvs_sorted hsk)
          rw [hkvs_id]
          have hidxlt : idx < (c0 :: cs').length := by
            by_contra hcon
            rw [List.get?_eq_none.mpr (by omega)] at hcget
            exact Option.noConfusion hcget
          congr 1
          apply List.ext_get?
          intro m
          simp only [List.get?_map]
          by_cases hm : m = idx
          · subst hm
            rw [List.get?_set_eq_of_lt _ hidxlt, hcget]
            show some c'.inorder = some (setVal key value c.inorder)
            rw [hinor]
          · rw [List.get?_set_ne _ _ (fun he => hm he.symm)]
            cases hq : (c0 :: cs').get? m with
            | none => rfl
            | some cm =>
              show some cm.inorder = some (setVal key value cm.inorder)
              rw [setVal_id key value cm.inorder
                (key_in_one_child key kvs (c0 :: cs') hlen hsort idx m c cm
                  hcget hq hm hckey)]

/-- Witness for C7: upserting key 2 (present at the root separator) of a
concrete two-level tree. -/
theorem c7_upsert_witness :
    (Node.mk [((2 : Nat), (20 : Nat))]
      [Node.mk [(1, 10)] [] 1, Node.mk [(3, 30)] [] 1] 3).wf ∧
    (2 : Nat) ∈ (Node.mk [((2 : Nat), (20 : Nat))]
      [Node.mk [(1, 10)] [] 1, Node.mk [(3, 30)] [] 1] 3).inorder.map Prod.fst ∧
    (∃ t', Node.insert ⟨4⟩ 2 99 (Node.mk [((2 : Nat), (20 : Nat))]
        [Node.mk [(1, 10)] [] 1, Node.mk [(3, 30)] [] 1] 3) =
          .ok (.NotSplited false t') ∧
      t'.skel = (Node.mk [((2 : Nat), (20 : Nat))]
        [Node.mk [(1, 10)] [] 1, Node.mk [(3, 30)] [] 1] 3).skel ∧
      t'.inorder = setVal 2 99 (Node.mk [((2 : Nat), (20 : Nat))]
        [Node.mk [(1, 10)] [] 1, Node.mk [(3, 30)] [] 1] 3).inorder ∧
      t'.count = (Node.mk [((2 : Nat), (20 : Nat))]
        [Node.mk [(1, 10)] [] 1, Node.mk [(3, 30)] [] 1] 3).count) := by
  have hwf : (Node.mk [((2 : Nat), (20 : Nat))]
      [Node.mk [(1, 10)] [] 1, Node.mk [(3, 30)] [] 1] 3).wf := by
    refine ⟨?_, ?_, ?_, ?_⟩
    · simp [structOk_mk]
    · simp [countOk_mk, sumCounts_cons, sumCounts_nil, Node.count]
    · simp [entriesNonempty_mk]
    · simp [sortedKeys, inorder_mk, interleave]
  have hmem : (2 : Nat) ∈ (Node.mk [((2 : Nat), (20 : Nat))]
      [Node.mk [(1, 10)] [] 1, Node.mk [(3, 30)] [] 1] 3).inorder.map Prod.fst := by
    simp [inorder_mk, interleave]
  exact ⟨hwf, hmem, c7_upsert ⟨4⟩ 2 99 _ hwf hmem⟩

/-!
## Upsert and association-list lemmas (toward claim C4)
-/

theorem mem_upsert [LinearOrder K] (key : K) (value : V) :
    ∀ (l : List (K × V)) (x : K × V), x ∈ upsertList key value l →
      x = (key, value) ∨ x ∈ l := by
  intro l
  induction l with
  | nil =>
    intro x hx
    simp [upsertList] at hx
    exact Or.inl hx
  | cons kv rest ih =>
    intro x hx
    obtain ⟨k, v⟩ := kv
    by_cases h1 : key < k
    · simp only [upsertList, if_pos h1] at hx
      rcases List.mem_cons.mp hx with h | h
      · exact Or.inl h
      · exact Or.inr h
    · by_cases h2 : key = k
      · simp only [upsertList, if_neg h1, if_pos h2] at hx
        rcases List.mem_cons.mp hx with h | h
        · exact Or.inl h
        · exact Or.inr (List.mem_cons_of_mem _ h)
      · simp only [upsertList, if_neg h1, if_neg h2] at hx
        rcases List.mem_cons.mp hx with h | h
        · exact Or.inr (h ▸ List.mem_cons_self _ _)
        · rcases ih x h with h3 | h3
          · exact Or.inl h3
          · exact Or.inr (List.mem_cons_of_mem _ h3)

theorem upsert_sorted [LinearOrder K] (key : K) (value : V) :
    ∀ (l : List (K × V)), sortedKeys l → sortedKeys (upsertList key value l) := by
  intro l
  induction l with
  | nil => intro _; simp [upsertList, sortedKeys]
  | cons kv rest ih =>
    intro h
    obtain ⟨k, v⟩ := kv
    rw [sortedKeys, List.pairwise_cons] at h
    obtain ⟨hhead, hrest⟩ := h
    by_cases h1 : key < k
    · simp only [upsertList, if_pos h1]
      rw [sortedKeys, List.pairwise_cons]
      refine ⟨?_, ?_⟩
      · intro x hx
        rcases List.mem_cons.mp hx with rfl | hx
        · exact h1
        · exact lt_trans h1 (hhead x hx)
      · rw [List.pairwise_cons]
        exact ⟨hhead, hrest⟩
    · by_cases h2 : key = k
      · simp only [upsertList, if_neg h1, if_pos h2]
        rw [sortedKeys, List.pairwise_cons]
        exact ⟨fun x hx => h2 ▸ hhead x hx, hrest⟩
      · simp only [upsertList, if_neg h1, if_neg h2]
        rw [sortedKeys, List.pairwise_cons]
        refine ⟨?_, ih hrest⟩
        intro x hx
        rcases mem_upsert key value rest x hx with rfl | hx
        · exact lt_of_le_of_ne (not_lt.mp h1) (Ne.symm h2)
        · exact hhead x hx

theorem upsert_length [LinearOrder K] (key : K) (value : V) :
    ∀ (l : List (K × V)), sortedKeys l →
      (upsertList key value l).length =
        if key ∈ l.map Prod.fst then l.length else l.length + 1 := by
  intro l
  induction l with
  | nil => intro _; simp [upsertList]
  | cons kv rest ih =>
    intro h
    obtain ⟨k, v⟩ := kv
    rw [sortedKeys, List.pairwise_cons] at h
    obtain ⟨hhead, hrest⟩ := h
    by_cases h1 : key < k
    · have hnot : key ∉ ((k, v) :: rest).map Prod.fst := by
        intro hmem
        rcases List.mem_map.mp hmem with ⟨x, hx, hfst⟩
        rcases List.mem_cons.mp hx with rfl | hx
        · have hk2 : k = key := hfst
          rw [hk2] at h1
          exact lt_irrefl key h1
        · have h3 := hhead x hx
          rw [hfst] at h3
          exact lt_irrefl key (lt_trans h1 h3)
      simp only [upsertList, if_pos h1]
      rw [if_neg hnot]
      simp
    · by_cases h2 : key = k
      · simp only [upsertList, if_neg h1, if_pos h2]
        rw [if_pos (List.mem_map.mpr ⟨(k, v), List.mem_cons_self _ _, h2.symm⟩)]
        simp
      · simp only [upsertList, if_neg h1, if_neg h2, List.length_cons]
        rw [ih hrest]
        simp only [List.map_cons, List.mem_cons, List.length_cons]
        by_cases hmem : key ∈ rest.map Prod.fst
        · rw [if_pos hmem, if_pos (Or.inr hmem)]
        · have hnot : ¬ (key = k ∨ key ∈ List.map Prod.fst rest) := by
            rintro (h3 | h3)
            · exact h2 h3
            · exact hmem h3
          rw [if_neg hmem, if_neg hnot]

theorem upsert_append_left [LinearOrder K] (key : K) (value : V) :
    ∀ (A rest : List (K × V)), (∀ x ∈ A, x.1 < key) →
      upsertList key value (A ++ rest) = A ++ upsertList key value rest := by
  intro A
  induction A with
  | nil => intro rest _; rfl
  | cons a A ih =>
    intro rest h
    obtain ⟨k, v⟩ := a
    have hk : k < key := h (k, v) (List.mem_cons_self _ _)
    have h1 : ¬ key < k := not_lt.mpr (le_of_lt hk)
    have h2 : ¬ key = k := by
      intro he
      rw [he] at hk
      exact lt_irrefl k hk
    show upsertList key value ((k, v) :: (A ++ rest)) = _
    simp only [upsertList, if_neg h1, if_neg h2]
    rw [ih rest (fun x hx => h x (List.mem_cons_of_mem _ hx))]
    simp

theorem upsert_append_right [LinearOrder K] (key : K) (value : V) :
    ∀ (M C : List (K × V)), (∀ x ∈ C, key < x.1) →
      upsertList key value (M ++ C) = upsertList key value M ++ C := by
  intro M
  induction M with
  | nil =>
    intro C h
    cases C with
    | nil => rfl
    | cons c C2 =>
      obtain ⟨k, v⟩ := c
      have hk : key < k := h (k, v) (List.mem_cons_self _ _)
      show upsertList key value ((k, v) :: C2) = _
      simp only [upsertList, if_pos hk]
      simp [upsertList]
  | cons m M2 ih =>
    intro C h
    obtain ⟨k, v⟩ := m
    show upsertList key value ((k, v) :: (M2 ++ C)) =
      upsertList key value ((k, v) :: M2) ++ C
    by_cases h1 : key < k
    · simp only [upsertList, if_pos h1]
      simp
    · by_cases h2 : key = k
      · simp only [upsertList, if_neg h1, if_pos h2]
        simp
      · simp only [upsertList, if_neg h1, if_neg h2]
        rw [ih C h]
        simp

theorem assocGet_cons [LinearOrder K] (key k : K) (v : V) (l : List (K × V)) :
    assocGet key ((k, v) :: l) = if k = key then some v else assocGet key l := by
  by_cases h : k = key
  · rw [if_pos h, assocGet, List.find?_cons_of_pos _ (by simp [h])]
    rfl
  · rw [if_neg h, assocGet, assocGet, List.find?_cons_of_neg _ (by simp [h])]

theorem assocGet_upsert [LinearOrder K] (key k1 : K) (v1 : V) :
    ∀ (A : List (K × V)), assocGet key (upsertList k1 v1 A) =
      if key = k1 then some v1 else assocGet key A := by
  intro A
  induction A with
  | nil =>
    show assocGet key [(k1, v1)] = _
    rw [assocGet_cons]
    by_cases h : key = k1
    · rw [if_pos h.symm, if_pos h]
    · rw [if_neg (fun he => h he.symm), if_neg h]
  | cons a A2 ih =>
    obtain ⟨k, v⟩ := a
    by_cases h1 : k1 < k
    · show assocGet key (upsertList k1 v1 ((k, v) :: A2)) = _
      simp only [upsertList, if_pos h1]
      rw [assocGet_cons]
      by_cases h : key = k1
      · rw [if_pos h.symm, if_pos h]
      · rw [if_neg (fun he => h he.symm), if_neg h]
    · by_cases h2 : k1 = k
      · show assocGet key (upsertList k1 v1 ((k, v) :: A2)) = _
        simp only [upsertList, if_neg h1, if_pos h2]
        rw [assocGet_cons]
        by_cases h : key = k1
        · rw [if_pos h.symm, if_pos h]
        · rw [if_neg (fun he => h he.symm), if_neg h, assocGet_cons,
            if_neg (fun he => h (h2.trans he).symm)]
      · show assocGet key (upsertList k1 v1 ((k, v) :: A2)) = _
        simp only [upsertList, if_neg h1, if_neg h2]
        rw [assocGet_cons]
        by_cases hk : k = key
        · have hne : ¬ key = k1 := by
            intro he
            exact h2 (he.symm.trans hk.symm)
          rw [if_pos hk, if_neg hne, assocGet_cons, if_pos hk]
        · rw [if_neg hk, ih]
          by_cases h : key = k1
          · rw [if_pos h, if_pos h]
          · rw [if_neg h, if_neg h, assocGet_cons, if_neg hk]

theorem assocGet_append [LinearOrder K] (key : K) :
    ∀ (l1 l2 : List (K × V)), assocGet key (l1 ++ l2) =
      match assocGet key l1 with
      | some v => some v
      | none => assocGet key l2 := by
  intro l1
  induction l1 with
  | nil => intro l2; rfl
  | cons a l3 ih =>
    intro l2
    obtain ⟨k, v⟩ := a
    rw [List.cons_append, assocGet_cons, assocGet_cons]
    by_cases h : k = key
    · rw [if_pos h, if_pos h]
    · rw [if_neg h, if_neg h, ih]

theorem histLookup_cons [LinearOrder K] (key : K) (kv : K × V)
    (ops : List (K × V)) :
    histLookup key (kv :: ops) =
      match histLookup key ops with
      | some v => some v
      | none => if kv.1 = key then some kv.2 else none := by
  obtain ⟨k, v⟩ := kv
  simp only [histLookup]
  rw [List.reverse_cons, assocGet_append]
  cases assocGet key ops.reverse with
  | some v2 => rfl
  | none =>
    show assocGet key [(k, v)] = _
    rw [assocGet_cons]
    by_cases h : k = key
    · rw [if_pos h, if_pos h]
    · rw [if_neg h, if_neg h]
      rfl

theorem assocGet_foldl_upsert [LinearOrder K] (key : K) :
    ∀ (ops A : List (K × V)),
      assocGet key (ops.foldl (fun acc kv => upsertList kv.1 kv.2 acc) A) =
        match histLookup key ops with
        | some v => some v
        | none => assocGet key A := by
  intro ops
  induction ops with
  | nil => intro A; rfl
  | cons kv ops2 ih =>
    intro A
    rw [List.foldl_cons, ih, histLookup_cons, assocGet_upsert]
    obtain ⟨k1, v1⟩ := kv
    cases histLookup key ops2 with
    | some v => rfl
    | none =>
      show (if key = k1 then some v1 else assocGet key A) =
        match (if k1 = key then some v1 else none) with
        | some v => some v
        | none => assocGet key A
      by_cases h : key = k1
      · rw [if_pos h, if_pos h.symm]
      · rw [if_neg h, if_neg (fun he => h he.symm)]

theorem assocGet_of_not_mem [LinearOrder K] (key : K) :
    ∀ (l : List (K × V)), key ∉ l.map Prod.fst → assocGet key l = none := by
  intro l
  induction l with
  | nil => intro _; rfl
  | cons a l2 ih =>
    intro h
    obtain ⟨k, v⟩ := a
    simp only [List.map_cons, List.mem_cons] at h
    push_neg at h
    obtain ⟨h1, h2⟩ := h
    rw [assocGet_cons, if_neg (fun he => h1 he.symm), ih h2]

theorem assocGet_of_mem [LinearOrder K] (key : K) (v : V) :
    ∀ (l : List (K × V)), sortedKeys l → (key, v) ∈ l → assocGet key l = some v := by
  intro l
  induction l with
  | nil => intro _ h; cases h
  | cons a l2 ih =>
    intro hsort hmem
    obtain ⟨k, w⟩ := a
    rw [sortedKeys, List.pairwise_cons] at hsort
    obtain ⟨hhead, hrest⟩ := hsort
    rcases List.mem_cons.mp hmem with heq | hmem2
    · injection heq with hk hv
      rw [assocGet_cons, if_pos hk.symm, hv]
    · have hk : ¬ k = key := by
        intro he
        have h3 := hhead (key, v) hmem2
        rw [he] at h3
        exact lt_irrefl key h3
      rw [assocGet_cons, if_neg hk]
      exact ih hrest hmem2

/-!
## Decomposition of an interleaving around one child
-/

theorem interleaveSep_cons (ls : List (List α)) (k : α) (ks : List α) :
    interleaveSep ls (k :: ks) = k :: interleave ls ks := rfl

theorem interleaveSep_nil (ls : List (List α)) :
    interleaveSep ls ([] : List α) = [] := rfl

theorem interleave_cons_child (r : List α) (ds : List (List α)) (ks : List α)
    (hlen : ds.length = ks.length) :
    interleave (r :: ds) ks = r ++ interleaveSep ds ks := by
  cases ks with
  | nil =>
    have h0 : ds = [] := List.length_eq_zero.mp hlen
    subst h0
    show r ++ interleave [] [] = r ++ []
    rfl
  | cons k ks2 =>
    show r ++ k :: interleave ds ks2 = r ++ interleaveSep ds (k :: ks2)
    rfl

theorem interleave_reseg : ∀ (j : Nat) (ls : List (List α)) (ks : List α)
    (l : List α), ls.length = ks.length + 1 → ls.get? j = some l →
    interleave ls ks =
      interleave (ls.take j) (ks.take j) ++ l ++
        interleaveSep (ls.drop (j + 1)) (ks.drop j) := by
  intro j
  induction j with
  | zero =>
    intro ls ks l hlen hget
    cases ls with
    | nil => cases hget
    | cons l0 ls2 =>
      obtain rfl : l0 = l := Option.some.inj hget
      cases ks with
      | nil =>
        have h0 : ls2 = [] := by
          simpa using hlen
        subst h0
        show l0 ++ interleave [] [] = interleave [] [] ++ l0 ++ interleaveSep [] []
        simp [interleave, interleaveSep]
      | cons k0 ks2 =>
        show l0 ++ k0 :: interleave ls2 ks2 =
          interleave [] [] ++ l0 ++ interleaveSep ls2 (k0 :: ks2)
        rw [interleaveSep_cons]
        simp [interleave]
  | succ j ih =>
    intro ls ks l hlen hget
    cases ls with
    | nil => cases hget
    | cons l0 ls2 =>
      cases ks with
      | nil =>
        have h0 : ls2 = [] := by
          simpa using hlen
        have hget2 : ls2.get? j = some l := hget
        rw [h0] at hget2
        simp at hget2
      | cons k0 ks2 =>
        have hlen2 : ls2.length = ks2.length + 1 := by simpa using hlen
        have hget2 : ls2.get? j = some l := hget
        show l0 ++ k0 :: interleave ls2 ks2 =
          (l0 ++ k0 :: interleave (ls2.take j) (ks2.take j)) ++ l ++
            interleaveSep (ls2.drop (j + 1)) (ks2.drop j)
        rw [ih ls2 ks2 l hlen2 hget2]
        simp

/-!
## Small `insertIdx` and `set` facts
-/

theorem insIdx_zero (a : α) (l : List α) : l.insertIdx 0 a = a :: l := rfl

theorem insIdx_succ_nil (a : α) (n : Nat) :
    ([] : List α).insertIdx (n + 1) a = [] := rfl

theorem insIdx_succ_cons (a b : α) (l : List α) (n : Nat) :
    (b :: l).insertIdx (n + 1) a = b :: l.insertIdx n a := rfl

theorem length_insIdx (a : α) :
    ∀ (n : Nat) (l : List α), n ≤ l.length →
      (l.insertIdx n a).length = l.length + 1 := by
  intro n
  induction n with
  | zero => intro l _; rw [insIdx_zero]; rfl
  | succ n ih =>
    intro l h
    cases l with
    | nil => simp at h
    | cons b l2 =>
      rw [insIdx_succ_cons, List.length_cons, List.length_cons,
        ih l2 (by simpa using h)]

theorem take_insIdx (a : α) :
    ∀ (m n : Nat) (l : List α), m ≤ n → (l.insertIdx n a).take m = l.take m := by
  intro m
  induction m with
  | zero => intro n l _; rfl
  | succ m ih =>
    intro n l h
    obtain ⟨n2, rfl⟩ : ∃ n2, n = n2 + 1 := ⟨n - 1, by omega⟩
    cases l with
    | nil => rw [insIdx_succ_nil]
    | cons b l2 =>
      rw [insIdx_succ_cons]
      show b :: (l2.insertIdx n2 a).take m = b :: l2.take m
      rw [ih n2 l2 (by omega)]

theorem drop_insIdx_self (a : α) :
    ∀ (n : Nat) (l : List α), n ≤ l.length →
      (l.insertIdx n a).drop n = a :: l.drop n := by
  intro n
  induction n with
  | zero => intro l _; rfl
  | succ n ih =>
    intro l h
    cases l with
    | nil => simp at h
    | cons b l2 =>
      rw [insIdx_succ_cons]
      show (l2.insertIdx n a).drop n = a :: l2.drop n
      exact ih l2 (by simpa using h)

theorem get?_insIdx_lt (a : α) :
    ∀ (n m : Nat) (l : List α), m < n → (l.insertIdx n a).get? m = l.get? m := by
  intro n
  induction n with
  | zero => intro m l h; omega
  | succ n ih =>
    intro m l h
    cases l with
    | nil => rw [insIdx_succ_nil]
    | cons b l2 =>
      rw [insIdx_succ_cons]
      cases m with
      | zero => rfl
      | succ m =>
        show (l2.insertIdx n a).get? m = l2.get? m
        exact ih m l2 (by omega)

theorem map_insIdx (g : α → β) (a : α) :
    ∀ (n : Nat) (l : List α),
      (l.insertIdx n a).map g = (l.map g).insertIdx n (g a) := by
  intro n
  induction n with
  | zero => intro l; rfl
  | succ n ih =>
    intro l
    cases l with
    | nil => rfl
    | cons b l2 =>
      rw [insIdx_succ_cons, List.map_cons, List.map_cons, insIdx_succ_cons, ih]

theorem mem_insIdx (a x : α) :
    ∀ (n : Nat) (l : List α), x ∈ l.insertIdx n a → x = a ∨ x ∈ l := by
  intro n
  induction n with
  | zero =>
    intro l h
    rw [insIdx_zero] at h
    rcases List.mem_cons.mp h with h | h
    · exact Or.inl h
    · exact Or.inr h
  | succ n ih =>
    intro l h
    cases l with
    | nil => rw [insIdx_succ_nil] at h; cases h
    | cons b l2 =>
      rw [insIdx_succ_cons] at h
      rcases List.mem_cons.mp h with h | h
      · exact Or.inr (h ▸ List.mem_cons_self _ _)
      · rcases ih l2 h with h | h
        · exact Or.inl h
        · exact Or.inr (List.mem_cons_of_mem _ h)

theorem sumCounts_insIdx (c : Node K V) :
    ∀ (n : Nat) (cs : List (Node K V)), n ≤ cs.length →
      sumCounts (cs.insertIdx n c) = c.count + sumCounts cs := by
  intro n
  induction n with
  | zero => intro cs _; rw [insIdx_zero, sumCounts_cons]
  | succ n ih =>
    intro cs h
    cases cs with
    | nil => simp at h
    | cons b cs2 =>
      rw [insIdx_succ_cons, sumCounts_cons, sumCounts_cons,
        ih cs2 (by simpa using h)]
      omega

theorem sumCounts_set (c : Node K V) :
    ∀ (n : Nat) (cs : List (Node K V)) (c0 : Node K V), cs.get? n = some c0 →
      sumCounts (cs.set n c) + c0.count = sumCounts cs + c.count := by
  intro n
  induction n with
  | zero =>
    intro cs c0 h
    cases cs with
    | nil => cases h
    | cons b cs2 =>
      obtain rfl : b = c0 := Option.some.inj h
      rw [List.set_cons_zero, sumCounts_cons, sumCounts_cons]
      omega
  | succ n ih =>
    intro cs c0 h
    cases cs with
    | nil => cases h
    | cons b cs2 =>
      rw [List.set_cons_succ, sumCounts_cons, sumCounts_cons]
      have h2 := ih cs2 c0 h
      omega

theorem take_set_of_le (a : α) :
    ∀ (n m : Nat) (l : List α), n ≤ m → (l.set m a).take n = l.take n := by
  intro n
  induction n with
  | zero => intro m l _; rfl
  | succ n ih =>
    intro m l h
    obtain ⟨m2, rfl⟩ : ∃ m2, m = m2 + 1 := ⟨m - 1, by omega⟩
    cases l with
    | nil => rfl
    | cons b l2 =>
      rw [List.set_cons_succ]
      show b :: (l2.set m2 a).take n = b :: l2.take n
      rw [ih m2 l2 (by omega)]

theorem drop_set_of_lt (a : α) :
    ∀ (n m : Nat) (l : List α), m < n → (l.set m a).drop n = l.drop n := by
  intro n
  induction n with
  | zero => intro m l h; omega
  | succ n ih =>
    intro m l h
    cases l with
    | nil => rfl
    | cons b l2 =>
      cases m with
      | zero =>
        rw [List.set_cons_zero]
        rfl
      | succ m =>
        rw [List.set_cons_succ]
        show (l2.set m a).drop n = l2.drop n
        exact ih m l2 (by omega)

theorem map_set (g : α → β) (a : α) :
    ∀ (n : Nat) (l : List α), (l.set n a).map g = (l.map g).set n (g a) := by
  intro n
  induction n with
  | zero =>
    intro l
    cases l with
    | nil => rfl
    | cons b l2 => rw [List.set_cons_zero, List.map_cons, List.map_cons,
        List.set_cons_zero]
  | succ n ih =>
    intro l
    cases l with
    | nil => rfl
    | cons b l2 =>
      rw [List.set_cons_succ, List.map_cons, List.map_cons, List.set_cons_succ, ih]

/-!
## Localizing an upsert to the search child of a sorted node
-/

theorem inorder_leaf (kvs : List (K × V)) (cnt : Nat) :
    (Node.mk kvs [] cnt).inorder = kvs := by
  rw [inorder_mk]
  rfl

theorem interleave_before_lt [LinearOrder K] (key : K)
    (ls : List (List (K × V))) (kvs : List (K × V)) (idx : Nat)
    (hlen : ls.length = kvs.length + 1)
    (hsort : sortedKeys (interleave ls kvs))
    (hsk : searchKey key kvs = .notFound idx) :
    ∀ x ∈ interleave (ls.take idx) (kvs.take idx), x.1 < key := by
  intro x hx
  rcases (mem_interleave x _ _).mp hx with ⟨l, hl, hxl⟩ | hxk
  · obtain ⟨i, hi⟩ := List.get_of_mem hl
    have hilt : i.1 < idx := by
      have h0 := i.2
      simp [List.length_take] at h0
      omega
    have hgl : ls.get? i.1 = some l := by
      have h0 := List.get?_eq_get i.2 (l := ls.take idx)
      rw [hi, List.get?_take hilt] at h0
      exact h0
    have hisep : i.1 < kvs.length := by
      have hle := searchKey_notFound_le key kvs idx hsk
      omega
    cases hq : kvs.get? i.1 with
    | none => exact absurd (List.get?_eq_none.mp hq) (by omega)
    | some kvi =>
      have hb := (interleave_sep_bounds ls kvs i.1 kvi hlen hsort hq).1
        i.1 l (le_refl _) hgl x hxl
      have h2 := searchKey_notFound_lower key kvs idx hsk i.1 kvi hilt hq
      exact lt_trans hb h2
  · obtain ⟨i, hi⟩ := List.get_of_mem hxk
    have hilt : i.1 < idx := by
      have h0 := i.2
      simp [List.length_take] at h0
      omega
    have hg : kvs.get? i.1 = some x := by
      have h0 := List.get?_eq_get i.2 (l := kvs.take idx)
      rw [hi, List.get?_take hilt] at h0
      exact h0
    exact searchKey_notFound_lower key kvs idx hsk i.1 x hilt hg

theorem interleave_after_gt [LinearOrder K] (key : K)
    (ls : List (List (K × V))) (kvs : List (K × V)) (idx : Nat)
    (hlen : ls.length = kvs.length + 1)
    (hsort : sortedKeys (interleave ls kvs))
    (hsk : searchKey key kvs = .notFound idx) :
    ∀ x ∈ interleaveSep (ls.drop (idx + 1)) (kvs.drop idx), key < x.1 := by
  intro x hx
  cases hdk : kvs.drop idx with
  | nil =>
    rw [hdk, interleaveSep_nil] at hx
    cases hx
  | cons kvidx rest =>
    have hgidx : kvs.get? idx = some kvidx := by
      have h0 : (kvs.drop idx).get? 0 = kvs.get? idx := by
        rw [List.get?_drop]
        rfl
      rw [hdk] at h0
      exact h0.symm ▸ rfl
    have hrest : rest = kvs.drop (idx + 1) := by
      have h0 : kvs.drop (idx + 1) = (kvs.drop idx).drop 1 := by
        rw [List.drop_drop, Nat.add_comm]
      rw [h0, hdk]
      rfl
    rw [hdk, interleaveSep_cons] at hx
    have hkey : key < kvidx.1 := searchKey_notFound_at key kvs idx hsk kvidx hgidx
    rcases List.mem_cons.mp hx with rfl | hx2
    · exact hkey
    · rcases (mem_interleave x _ _).mp hx2 with ⟨l, hl, hxl⟩ | hxk
      · obtain ⟨i, hi⟩ := List.get_of_mem hl
        have hg : ls.get? (idx + 1 + i.1) = some l := by
          have h0 := List.get?_eq_get i.2 (l := ls.drop (idx + 1))
          rw [hi, List.get?_drop] at h0
          exact h0
        have hb := (interleave_sep_bounds ls kvs idx kvidx hlen hsort hgidx).2.2.1
          (idx + 1 + i.1) l (by omega) hg x hxl
        exact lt_trans hkey hb
      · rw [hrest] at hxk
        obtain ⟨i, hi⟩ := List.get_of_mem hxk
        have hg : kvs.get? (idx + 1 + i.1) = some x := by
          have h0 := List.get?_eq_get i.2 (l := kvs.drop (idx + 1))
          rw [hi, List.get?_drop] at h0
          exact h0
        have hb := (interleave_sep_bounds ls kvs idx kvidx hlen hsort hgidx).2.2.2
          (idx + 1 + i.1) x (by omega) hg
        exact lt_trans hkey hb

theorem upsert_interleave [LinearOrder K] (key : K) (value : V)
    (ls : List (List (K × V))) (kvs : List (K × V)) (idx : Nat)
    (lidx : List (K × V))
    (hlen : ls.length = kvs.length + 1)
    (hsort : sortedKeys (interleave ls kvs))
    (hsk : searchKey key kvs = .notFound idx)
    (hget : ls.get? idx = some lidx) :
    upsertList key value (interleave ls kvs) =
      interleave (ls.take idx) (kvs.take idx) ++ upsertList key value lidx ++
        interleaveSep (ls.drop (idx + 1)) (kvs.drop idx) := by
  rw [interleave_reseg idx ls kvs lidx hlen hget, List.append_assoc,
    upsert_append_left key value _ _ (interleave_before_lt key ls kvs idx hlen
      hsort hsk),
    upsert_append_right key value _ _ (interleave_after_gt key ls kvs idx hlen
      hsort hsk),
    List.append_assoc]

/-!
## The two leaf-level rewrites of `insert` are upserts
-/

theorem insertIdx_eq_upsert [LinearOrder K] (key : K) (value : V) :
    ∀ (kvs : List (K × V)) (idx : Nat), searchKey key kvs = .notFound idx →
      kvs.insertIdx idx (key, value) = upsertList key value kvs := by
  intro kvs
  induction kvs with
  | nil =>
    intro idx h
    obtain rfl : (0 : Nat) = idx := by cases h; rfl
    rfl
  | cons kv rest ih =>
    intro idx h
    obtain ⟨k, v⟩ := kv
    by_cases hlt : k < key
    · simp only [searchKey, if_pos hlt] at h
      cases hs : searchKey key (V := V) rest with
      | found i => rw [hs] at h; cases h
      | notFound i =>
        rw [hs] at h
        obtain rfl : i + 1 = idx := by cases h; rfl
        rw [insIdx_succ_cons, ih i hs]
        have h1 : ¬ key < k := not_lt.mpr (le_of_lt hlt)
        have h2 : ¬ key = k := by
          intro he
          rw [he] at hlt
          exact lt_irrefl k hlt
        simp only [upsertList, if_neg h1, if_neg h2]
    · simp only [searchKey, if_neg hlt] at h
      by_cases heq : k = key
      · rw [if_pos heq] at h
        cases h
      · rw [if_neg heq] at h
        obtain rfl : (0 : Nat) = idx := by cases h; rfl
        rw [insIdx_zero]
        have h1 : key < k := lt_of_le_of_ne (not_lt.mp hlt) (Ne.symm heq)
        simp only [upsertList, if_pos h1]

theorem set_eq_upsert [LinearOrder K] (key : K) (value : V) :
    ∀ (kvs : List (K × V)) (idx : Nat), searchKey key kvs = .found idx →
      kvs.set idx (key, value) = upsertList key value kvs := by
  intro kvs
  induction kvs with
  | nil => intro idx h; cases h
  | cons kv rest ih =>
    intro idx h
    obtain ⟨k, v⟩ := kv
    by_cases hlt : k < key
    · simp only [searchKey, if_pos hlt] at h
      cases hs : searchKey key (V := V) rest with
      | notFound i => rw [hs] at h; cases h
      | found i =>
        rw [hs] at h
        obtain rfl : i + 1 = idx := by cases h; rfl
        rw [List.set_cons_succ, ih i hs]
        have h1 : ¬ key < k := not_lt.mpr (le_of_lt hlt)
        have h2 : ¬ key = k := by
          intro he
          rw [he] at hlt
          exact lt_irrefl k hlt
        simp only [upsertList, if_neg h1, if_neg h2]
    · simp only [searchKey, if_neg hlt] at h
      by_cases heq : k = key
      · rw [if_pos heq] at h
        obtain rfl : (0 : Nat) = idx := by cases h; rfl
        rw [List.set_cons_zero]
        have h1 : ¬ key < k := by
          rw [heq]
          exact lt_irrefl key
        simp only [upsertList, if_neg h1, if_pos heq.symm]
      · rw [if_neg heq] at h
        cases h

theorem drop_eq_get?_cons : ∀ (l : List α) (n : Nat) (a : α),
    l.get? n = some a → l.drop n = a :: l.drop (n + 1) := by
  intro l
  induction l with
  | nil => intro n a h; cases h
  | cons b l2 ih =>
    intro n a h
    cases n with
    | zero =>
      obtain rfl : b = a := Option.some.inj h
      rfl
    | succ n =>
      show l2.drop n = a :: l2.drop (n + 1)
      exact ih n a h

theorem upsert_cons_self [LinearOrder K] (key : K) (value v : V)
    (B : List (K × V)) :
    upsertList key value ((key, v) :: B) = (key, value) :: B := by
  simp [upsertList]

/-!
## Correctness of the split step
-/

theorem splitNode_spec [LinearOrder K] (kvs : List (K × V)) (cs : List (Node K V))
    (hlen3 : 3 ≤ kvs.length)
    (hcs : cs = [] ∨ cs.length = kvs.length + 1)
    (hsok : ∀ c ∈ cs, c.structOk = true)
    (hcok : ∀ c ∈ cs, c.countOk = true)
    (hcne : ∀ c ∈ cs, c.entriesNonempty = true) :
    ∃ (m : K × V) (l r : Node K V), splitNode kvs cs = .ok (.Splited m l r) ∧
      l.structOk = true ∧ l.countOk = true ∧ l.entriesNonempty = true ∧
      r.structOk = true ∧ r.countOk = true ∧ r.entriesNonempty = true ∧
      l.inorder ++ m :: r.inorder = interleave (cs.map Node.inorder) kvs := by
  have hsalt : kvs.length / 2 < kvs.length := by omega
  have hsoff : kvs.length / 2 + 1 ≤ kvs.length := by omega
  cases hq : kvs.get? (kvs.length / 2) with
  | none => exact absurd (List.get?_eq_none.mp hq) (by omega)
  | some med =>
  have htake : kvs.take (kvs.length / 2 + 1) =
      kvs.take (kvs.length / 2) ++ [med] := by
    rw [List.take_succ, ← List.get?_eq_getElem?, hq]
    rfl
  have hgl : (kvs.take (kvs.length / 2 + 1)).getLast? = some med := by
    rw [htake, List.getLast?_concat]
  have hdl : (kvs.take (kvs.length / 2 + 1)).dropLast =
      kvs.take (kvs.length / 2) := by
    rw [htake, List.dropLast_concat]
  have hlenTL : (kvs.take (kvs.length / 2)).length = kvs.length / 2 := by
    simp [List.length_take]
    omega
  have hlenTR : (kvs.drop (kvs.length / 2 + 1)).length =
      kvs.length - (kvs.length / 2 + 1) := by
    simp [List.length_drop]
  have hTLne : kvs.take (kvs.length / 2) ≠ [] := by
    intro h0
    rw [h0] at hlenTL
    simp at hlenTL
    omega
  have hTRne : kvs.drop (kvs.length / 2 + 1) ≠ [] := by
    intro h0
    rw [h0] at hlenTR
    simp at hlenTR
    omega
  have hsplit_kvs : kvs.take (kvs.length / 2) ++
      med :: kvs.drop (kvs.length / 2 + 1) = kvs := by
    have h0 := drop_eq_get?_cons kvs (kvs.length / 2) med hq
    rw [← h0, List.take_append_drop]
  rcases hcs with rfl | hclen
  · refine ⟨med, new_with_key_values (kvs.take (kvs.length / 2)) [],
      new_with_key_values (kvs.drop (kvs.length / 2 + 1)) [], ?_, ?_, ?_, ?_,
      ?_, ?_, ?_, ?_⟩
    · simp only [splitNode, hgl, hdl, List.isEmpty_nil, if_true]
    · simp [new_with_key_values, structOk_mk]
    · simp [new_with_key_values, countOk_mk, sumCounts_nil]
    · rw [new_with_key_values, entriesNonempty_mk]
      exact ⟨hTLne, fun c hc2 => absurd hc2 (List.not_mem_nil c)⟩
    · simp [new_with_key_values, structOk_mk]
    · simp [new_with_key_values, countOk_mk, sumCounts_nil]
    · rw [new_with_key_values, entriesNonempty_mk]
      exact ⟨hTRne, fun c hc2 => absurd hc2 (List.not_mem_nil c)⟩
    · rw [new_with_key_values, new_with_key_values, inorder_leaf, inorder_leaf]
      exact hsplit_kvs
  · have hcs_ne : cs ≠ [] := by
      intro h0
      rw [h0] at hclen
      simp at hclen
    have hoff_cs : kvs.length / 2 + 1 ≤ cs.length := by omega
    refine ⟨med,
      new_with_key_values (kvs.take (kvs.length / 2))
        (cs.take (kvs.length / 2 + 1)),
      new_with_key_values (kvs.drop (kvs.length / 2 + 1))
        (cs.drop (kvs.length / 2 + 1)), ?_, ?_, ?_, ?_, ?_, ?_, ?_, ?_⟩
    · simp only [splitNode, hgl, hdl]
      rw [if_neg (by simp [List.isEmpty_iff, hcs_ne]), if_pos hoff_cs]
    · rw [new_with_key_values, structOk_mk]
      refine ⟨Or.inr ?_, fun c hc2 => hsok c (List.mem_of_mem_take hc2)⟩
      rw [hlenTL]
      simp [List.length_take]
      omega
    · rw [new_with_key_values, countOk_mk]
      exact ⟨rfl, fun c hc2 => hcok c (List.mem_of_mem_take hc2)⟩
    · rw [new_with_key_values, entriesNonempty_mk]
      exact ⟨hTLne, fun c hc2 => hcne c (List.mem_of_mem_take hc2)⟩
    · rw [new_with_key_values, structOk_mk]
      refine ⟨Or.inr ?_, fun c hc2 => hsok c (List.mem_of_mem_drop hc2)⟩
      simp [List.length_drop]
      omega
    · rw [new_with_key_values, countOk_mk]
      exact ⟨rfl, fun c hc2 => hcok c (List.mem_of_mem_drop hc2)⟩
    · rw [new_with_key_values, entriesNonempty_mk]
      exact ⟨hTRne, fun c hc2 => hcne c (List.mem_of_mem_drop hc2)⟩
    · rw [new_with_key_values, new_with_key_values, inorder_mk, inorder_mk]
      have hmlen : (cs.map Node.inorder).length = kvs.length + 1 := by
        rw [List.length_map]
        exact hclen
      rw [interleave_split (kvs.length / 2) (cs.map Node.inorder) kvs med
        hmlen hq]
      rw [List.map_take, List.map_drop]

/-!
## Correctness of `Node::insert` (toward claim C4)
-/

theorem insert_spec [LinearOrder K] (cfg : BTreeConfig) (hM : 3 ≤ cfg.max_degree)
    (key : K) (value : V) :
    ∀ (t : Node K V), t.wf →
      ∃ res, Node.insert cfg key value t = .ok res ∧
        insertOutcome key value t res := by
  intro t
  induction t using Node.indOn with
  | step kvs cs cnt ih =>
    intro hwf
    have hwf2 := hwf
    obtain ⟨hs, hc, hne, hsort⟩ := hwf2
    rw [inorder_mk] at hsort
    have hkvs_sorted : sortedKeys kvs :=
      List.Pairwise.sublist (sublist_interleave_right kvs _) hsort
    have hcnt : cnt = kvs.length + sumCounts cs := ((countOk_mk _ _ _).mp hc).1
    have hkvs_ne : kvs ≠ [] := ((entriesNonempty_mk _ _ _).mp hne).1
    have hsplit_len : ∀ n : Nat, cfg.node_should_split n = true → 3 ≤ n := by
      intro n hn
      have h0 : cfg.max_key_value < n := of_decide_eq_true hn
      have h1 : cfg.max_key_value = cfg.max_degree - 1 := rfl
      omega
    cases cs with
    | nil =>
      cases hsk : searchKey key kvs with
      | found idx =>
        obtain ⟨v, hget⟩ := searchKey_found_get key kvs idx hsk
        refine ⟨.NotSplited false (.mk (kvs.set idx (key, value)) [] cnt), ?_, ?_⟩
        · simp only [Node.insert, hsk]
        · refine ⟨?_, ?_, ?_, ?_, ?_⟩
          · simp [structOk_mk]
          · rw [countOk_mk]
            refine ⟨?_, fun c hc2 => absurd hc2 (List.not_mem_nil c)⟩
            rw [List.length_set]
            exact hcnt
          · rw [entriesNonempty_mk]
            refine ⟨?_, fun c hc2 => absurd hc2 (List.not_mem_nil c)⟩
            intro h0
            apply hkvs_ne
            have h1 := congrArg List.length h0
            rw [List.length_set] at h1
            exact List.length_eq_zero.mp h1
          · rw [inorder_leaf, inorder_leaf]
            exact set_eq_upsert key value kvs idx hsk
          · exact iff_of_false (by simp) (fun h0 => h0 (by
              rw [inorder_leaf]
              exact List.mem_map.mpr ⟨(key, v), List.get?_mem hget, rfl⟩))
      | notFound idx =>
        have hidxle := searchKey_notFound_le key kvs idx hsk
        have hkvs1 : kvs.insertIdx idx (key, value) = upsertList key value kvs :=
          insertIdx_eq_upsert key value kvs idx hsk
        have hlen1 : (kvs.insertIdx idx (key, value)).length = kvs.length + 1 :=
          length_insIdx _ idx kvs hidxle
        have hnotmem : key ∉ kvs.map Prod.fst :=
          searchKey_notFound_not_mem key kvs idx hkvs_sorted hsk
        cases hsp : cfg.node_should_split (kvs.insertIdx idx (key, value)).length with
        | true =>
          obtain ⟨m, l, r, heq, hls, hlc, hln, hrs, hrc, hrn, hinor⟩ :=
            splitNode_spec (kvs.insertIdx idx (key, value)) []
              (hsplit_len _ hsp) (Or.inl rfl)
              (fun c hc2 => absurd hc2 (List.not_mem_nil c))
              (fun c hc2 => absurd hc2 (List.not_mem_nil c))
              (fun c hc2 => absurd hc2 (List.not_mem_nil c))
          refine ⟨.Splited m l r, ?_, ?_⟩
          · simp only [Node.insert, hsk, hsp]
            exact heq
          · refine ⟨hls, hlc, hln, hrs, hrc, hrn, ?_, ?_⟩
            · rw [inorder_leaf, ← hkvs1]
              exact hinor
            · rw [inorder_leaf]
              exact hnotmem
        | false =>
          refine ⟨.NotSplited true
            (.mk (kvs.insertIdx idx (key, value)) [] (cnt + 1)), ?_, ?_⟩
          · simp only [Node.insert, hsk, hsp]
            rfl
          · refine ⟨?_, ?_, ?_, ?_, ?_⟩
            · simp [structOk_mk]
            · rw [countOk_mk]
              refine ⟨?_, fun c hc2 => absurd hc2 (List.not_mem_nil c)⟩
              rw [hlen1]
              rw [sumCounts_nil] at hcnt ⊢
              omega
            · rw [entriesNonempty_mk]
              refine ⟨?_, fun c hc2 => absurd hc2 (List.not_mem_nil c)⟩
              intro h0
              have h1 := congrArg List.length h0
              rw [hlen1] at h1
              simp at h1
            · rw [inorder_leaf, inorder_leaf]
              exact hkvs1
            · exact iff_of_true rfl (by rw [inorder_leaf]; exact hnotmem)
    | cons c0 cs2 =>
      have hlen : (c0 :: cs2).length = kvs.length + 1 := by
        rcases ((structOk_mk kvs (c0 :: cs2) cnt).mp hs).1 with h0 | h0
        · cases h0
        · exact h0
      have hchildren_s := ((structOk_mk kvs (c0 :: cs2) cnt).mp hs).2
      have hchildren_c := ((countOk_mk kvs (c0 :: cs2) cnt).mp hc).2
      have hchildren_n := ((entriesNonempty_mk kvs (c0 :: cs2) cnt).mp hne).2
      have hlen2 : ((c0 :: cs2).map Node.inorder).length = kvs.length + 1 := by
        rw [List.length_map]
        exact hlen
      cases hsk : searchKey key kvs with
      | found idx =>
        obtain ⟨v, hget⟩ := searchKey_found_get key kvs idx hsk
        have hidxlt : idx < kvs.length := by
          by_contra h0
          rw [List.get?_eq_none.mpr (by omega)] at hget
          exact Option.noConfusion hget
        refine ⟨.NotSplited false
          (.mk (kvs.set idx (key, value)) (c0 :: cs2) cnt), ?_, ?_⟩
        · simp only [Node.insert, hsk]
        · refine ⟨?_, ?_, ?_, ?_, ?_⟩
          · rw [structOk_mk]
            exact ⟨Or.inr (by rw [List.length_set]; exact hlen), hchildren_s⟩
          · rw [countOk_mk]
            exact ⟨by rw [List.length_set]; exact hcnt, hchildren_c⟩
          · rw [entriesNonempty_mk]
            refine ⟨?_, hchildren_n⟩
            intro h0
            apply hkvs_ne
            have h1 := congrArg List.length h0
            rw [List.length_set] at h1
            exact List.length_eq_zero.mp h1
          · rw [inorder_mk, inorder_mk]
            have hsget : (kvs.set idx (key, value)).get? idx = some (key, value) :=
              List.get?_set_eq_of_lt _ hidxlt
            have hlen3 : ((c0 :: cs2).map Node.inorder).length =
                (kvs.set idx (key, value)).length + 1 := by
              rw [List.length_set]
              exact hlen2
            rw [interleave_split idx _ _ _ hlen3 hsget,
              interleave_split idx _ _ _ hlen2 hget,
              take_set_of_le _ idx idx kvs (le_refl idx),
              drop_set_of_lt _ (idx + 1) idx kvs (by omega)]
            have hsort2 := hsort
            rw [interleave_split idx _ _ _ hlen2 hget] at hsort2
            obtain ⟨hpA, hpB, hcross⟩ := List.pairwise_append.mp hsort2
            rw [upsert_append_left key value _ _
              (fun x hx => hcross x hx (key, v) (List.mem_cons_self _ _)),
              upsert_cons_self]
          · exact iff_of_false (by simp) (fun h0 => h0 (by
              rw [inorder_mk]
              exact List.mem_map.mpr ⟨(key, v),
                (mem_interleave _ _ _).mpr (Or.inr (List.get?_mem hget)), rfl⟩))
      | notFound idx =>
        have hidxle := searchKey_notFound_le key kvs idx hsk
        have hidxlt : idx < (c0 :: cs2).length := by rw [hlen]; omega
        cases hget : (c0 :: cs2).get? idx with
        | none => exact absurd (List.get?_eq_none.mp hget) (by omega)
        | some child =>
          have hchild_mem := List.get?_mem hget
          have hchild_wf : child.wf := wf_child hwf child hchild_mem
          obtain ⟨cres, hceq, hcout⟩ := ih child hchild_mem hchild_wf
          have hgetm : ((c0 :: cs2).map Node.inorder).get? idx =
              some child.inorder := by
            rw [List.get?_map, hget]
            rfl
          have hup := upsert_interleave key value ((c0 :: cs2).map Node.inorder)
            kvs idx child.inorder hlen2 hsort hsk hgetm
          have hmem_iff :
              key ∈ (interleave ((c0 :: cs2).map Node.inorder) kvs).map Prod.fst ↔
              key ∈ child.inorder.map Prod.fst := by
            constructor
            · intro h0
              obtain ⟨c2, hc2, hkc⟩ := key_in_child key kvs (c0 :: cs2) idx hlen
                hsort hsk h0
              rw [hget] at hc2
              obtain rfl : child = c2 := Option.some.inj hc2
              exact hkc
            · intro h0
              obtain ⟨x, hx, hfst⟩ := List.mem_map.mp h0
              exact List.mem_map.mpr ⟨x, (mem_interleave x _ _).mpr
                (Or.inl ⟨child.inorder,
                  List.mem_map_of_mem Node.inorder hchild_mem, hx⟩), hfst⟩
          have hchild_sorted : sortedKeys child.inorder :=
            @sortedKeys_child K V _ kvs (c0 :: cs2) cnt
              (by rw [inorder_mk]; exact hsort) child hchild_mem
          have hchild_cnt : child.count = child.inorder.length :=
            (inorder_length child (hchildren_c child hchild_mem)).symm
          have hupl := upsert_length key value child.inorder hchild_sorted
          cases cres with
          | NotSplited is_new child2 =>
            obtain ⟨h2s, h2c, h2n, h2i, h2new⟩ := hcout
            refine ⟨.NotSplited is_new (.mk kvs ((c0 :: cs2).set idx child2)
              (if is_new then cnt + 1 else cnt)), ?_, ?_⟩
            · simp only [Node.insert, hsk]
              split
              · rename_i heq2
                rw [hget] at heq2
                exact Option.noConfusion heq2
              · rename_i child3 heq2
                rw [hget] at heq2
                obtain rfl : child = child3 := Option.some.inj heq2
                rw [hceq]
            · refine ⟨?_, ?_, ?_, ?_, ?_⟩
              · rw [structOk_mk]
                refine ⟨Or.inr (by rw [List.length_set]; exact hlen), ?_⟩
                intro c hc2
                rcases List.mem_or_eq_of_mem_set hc2 with h0 | h0
                · exact hchildren_s c h0
                · rw [h0]
                  exact h2s
              · rw [countOk_mk]
                refine ⟨?_, ?_⟩
                · have hss := sumCounts_set child2 idx (c0 :: cs2) child hget
                  have e1 : child2.count = child2.inorder.length :=
                    (inorder_length child2 h2c).symm
                  rw [h2i] at e1
                  cases hin : is_new
                  · subst hin
                    have hmem2 : key ∈ child.inorder.map Prod.fst := by
                      by_contra h0
                      cases h2new.mpr h0
                    rw [hupl, if_pos hmem2] at e1
                    rw [show (if false = true then cnt + 1 else cnt) = cnt from rfl]
                    omega
                  · subst hin
                    rw [hupl, if_neg (h2new.mp rfl)] at e1
                    rw [show (if true = true then cnt + 1 else cnt) = cnt + 1
                      from rfl]
                    omega
                · intro c hc2
                  rcases List.mem_or_eq_of_mem_set hc2 with h0 | h0
                  · exact hchildren_c c h0
                  · rw [h0]
                    exact h2c
              · rw [entriesNonempty_mk]
                refine ⟨hkvs_ne, ?_⟩
                intro c hc2
                rcases List.mem_or_eq_of_mem_set hc2 with h0 | h0
                · exact hchildren_n c h0
                · rw [h0]
                  exact h2n
              · rw [inorder_mk, inorder_mk]
                rw [map_set Node.inorder child2 idx (c0 :: cs2), hup]
                have hlenset :
                    (((c0 :: cs2).map Node.inorder).set idx child2.inorder).length =
                    kvs.length + 1 := by
                  rw [List.length_set]
                  exact hlen2
                have hgetset :
                    (((c0 :: cs2).map Node.inorder).set idx child2.inorder).get? idx =
                    some child2.inorder :=
                  List.get?_set_eq_of_lt _ (by rw [List.length_map]; omega)
                rw [interleave_reseg idx _ kvs child2.inorder hlenset hgetset,
                  take_set_of_le _ idx idx _ (le_refl idx),
                  drop_set_of_lt _ (idx + 1) idx _ (by omega), h2i]
              · rw [inorder_mk]
                exact h2new.trans (not_congr hmem_iff).symm
          | Splited m l r =>
            obtain ⟨hls, hlc, hln, hrs, hrc, hrn, hlr, hknot⟩ := hcout
            have hlen_kvs1 : (kvs.insertIdx idx m).length = kvs.length + 1 :=
              length_insIdx _ idx kvs hidxle
            have hlen_cs1 :
                (((c0 :: cs2).set idx l).insertIdx (idx + 1) r).length =
                (c0 :: cs2).length + 1 := by
              rw [length_insIdx _ (idx + 1) _ (by rw [List.length_set]; omega),
                List.length_set]
            have hcs1_mem : ∀ c ∈ ((c0 :: cs2).set idx l).insertIdx (idx + 1) r,
                c = r ∨ c = l ∨ c ∈ (c0 :: cs2) := by
              intro c hc2
              rcases mem_insIdx r c (idx + 1) _ hc2 with h0 | h0
              · exact Or.inl h0
              · rcases List.mem_or_eq_of_mem_set h0 with h1 | h1
                · exact Or.inr (Or.inr h1)
                · exact Or.inr (Or.inl h1)
            have hcs1_s : ∀ c ∈ ((c0 :: cs2).set idx l).insertIdx (idx + 1) r,
                c.structOk = true := by
              intro c hc2
              rcases hcs1_mem c hc2 with h0 | h0 | h0
              · rw [h0]; exact hrs
              · rw [h0]; exact hls
              · exact hchildren_s c h0
            have hcs1_c : ∀ c ∈ ((c0 :: cs2).set idx l).insertIdx (idx + 1) r,
                c.countOk = true := by
              intro c hc2
              rcases hcs1_mem c hc2 with h0 | h0 | h0
              · rw [h0]; exact hrc
              · rw [h0]; exact hlc
              · exact hchildren_c c h0
            have hcs1_n : ∀ c ∈ ((c0 :: cs2).set idx l).insertIdx (idx + 1) r,
                c.entriesNonempty = true := by
              intro c hc2
              rcases hcs1_mem c hc2 with h0 | h0 | h0
              · rw [h0]; exact hrn
              · rw [h0]; exact hln
              · exact hchildren_n c h0
            have hl_cnt : l.count = l.inorder.length := (inorder_length l hlc).symm
            have hr_cnt : r.count = r.inorder.length := (inorder_length r hrc).symm
            have hlr_len : l.inorder.length + 1 + r.inorder.length =
                child.inorder.length + 1 := by
              have h0 := congrArg List.length hlr
              rw [List.length_append, List.length_cons, hupl, if_neg hknot] at h0
              omega
            have hsum1 : sumCounts (((c0 :: cs2).set idx l).insertIdx (idx + 1) r) =
                sumCounts (c0 :: cs2) := by
              rw [sumCounts_insIdx r (idx + 1) _ (by rw [List.length_set]; omega)]
              have hss := sumCounts_set l idx (c0 :: cs2) child hget
              omega
            have hsplice :
                interleave ((((c0 :: cs2).set idx l).insertIdx (idx + 1) r).map
                  Node.inorder) (kvs.insertIdx idx m) =
                upsertList key value
                  (interleave ((c0 :: cs2).map Node.inorder) kvs) := by
              rw [map_insIdx Node.inorder r (idx + 1) _,
                map_set Node.inorder l idx _]
              have hL1 : ((((c0 :: cs2).map Node.inorder).set idx
                    l.inorder).insertIdx (idx + 1) r.inorder).length =
                  (kvs.insertIdx idx m).length + 1 := by
                rw [length_insIdx _ (idx + 1) _
                    (by rw [List.length_set, List.length_map]; omega),
                  List.length_set, List.length_map, hlen_kvs1, hlen]
              have hG1 : ((((c0 :: cs2).map Node.inorder).set idx
                    l.inorder).insertIdx (idx + 1) r.inorder).get? idx =
                  some l.inorder := by
                rw [get?_insIdx_lt _ (idx + 1) idx _ (by omega)]
                exact List.get?_set_eq_of_lt _ (by rw [List.length_map]; omega)
              rw [interleave_reseg idx _ _ l.inorder hL1 hG1,
                take_insIdx _ idx (idx + 1) _ (by omega),
                take_set_of_le _ idx idx _ (le_refl idx),
                take_insIdx m idx idx kvs (le_refl idx),
                drop_insIdx_self _ (idx + 1) _
                  (by rw [List.length_set, List.length_map]; omega),
                drop_set_of_lt _ (idx + 1) idx _ (by omega),
                drop_insIdx_self m idx kvs (by omega),
                interleaveSep_cons,
                interleave_cons_child r.inorder _ _
                  (by
                    have h9 : cs2.length + 1 = kvs.length + 1 := by
                      simpa using hlen
                    simp [List.length_drop, List.length_map]
                    omega),
                hup, ← hlr]
              simp
            cases hsp : cfg.node_should_split (kvs.insertIdx idx m).length with
            | true =>
              obtain ⟨m2, l2, r2, heq, h2ls, h2lc, h2ln, h2rs, h2rc, h2rn, h2inor⟩ :=
                splitNode_spec (kvs.insertIdx idx m)
                  (((c0 :: cs2).set idx l).insertIdx (idx + 1) r)
                  (hsplit_len _ hsp)
                  (Or.inr (by rw [hlen_cs1, hlen_kvs1, hlen]))
                  hcs1_s hcs1_c hcs1_n
              refine ⟨.Splited m2 l2 r2, ?_, ?_⟩
              · simp only [Node.insert, hsk]
                split
                · rename_i heq2
                  rw [hget] at heq2
                  exact Option.noConfusion heq2
                · rename_i child3 heq2
                  rw [hget] at heq2
                  obtain rfl : child = child3 := Option.some.inj heq2
                  rw [hceq]
                  show (if cfg.node_should_split (kvs.insertIdx idx m).length = true
                      then splitNode (kvs.insertIdx idx m)
                        (((c0 :: cs2).set idx l).insertIdx (idx + 1) r)
                      else Except.ok (InsertResult.NotSplited true
                        (Node.mk (kvs.insertIdx idx m)
                          (((c0 :: cs2).set idx l).insertIdx (idx + 1) r)
                          (cnt + 1)))) = _
                  rw [hsp]
                  exact heq
              · refine ⟨h2ls, h2lc, h2ln, h2rs, h2rc, h2rn, ?_, ?_⟩
                · rw [inorder_mk]
                  exact h2inor.trans hsplice
                · rw [inorder_mk]
                  intro h0
                  exact hknot (hmem_iff.mp h0)
            | false =>
              refine ⟨.NotSplited true (.mk (kvs.insertIdx idx m)
                (((c0 :: cs2).set idx l).insertIdx (idx + 1) r) (cnt + 1)), ?_, ?_⟩
              · simp only [Node.insert, hsk]
                split
                · rename_i heq2
                  rw [hget] at heq2
                  exact Option.noConfusion heq2
                · rename_i child3 heq2
                  rw [hget] at heq2
                  obtain rfl : child = child3 := Option.some.inj heq2
                  rw [hceq]
                  show (if cfg.node_should_split (kvs.insertIdx idx m).length = true
                      then splitNode (kvs.insertIdx idx m)
                        (((c0 :: cs2).set idx l).insertIdx (idx + 1) r)
                      else Except.ok (InsertResult.NotSplited true
                        (Node.mk (kvs.insertIdx idx m)
                          (((c0 :: cs2).set idx l).insertIdx (idx + 1) r)
                          (cnt + 1)))) = _
                  rw [hsp]
                  rfl
              · refine ⟨?_, ?_, ?_, ?_, ?_⟩
                · rw [structOk_mk]
                  exact ⟨Or.inr (by rw [hlen_cs1, hlen_kvs1, hlen]), hcs1_s⟩
                · rw [countOk_mk]
                  refine ⟨?_, hcs1_c⟩
                  rw [hlen_kvs1, hsum1]
                  omega
                · rw [entriesNonempty_mk]
                  refine ⟨?_, hcs1_n⟩
                  intro h0
                  have h1 := congrArg List.length h0
                  rw [hlen_kvs1] at h1
                  simp at h1
                · rw [inorder_mk, inorder_mk]
                  exact hsplice
                · refine iff_of_true rfl ?_
                  rw [inorder_mk]
                  intro h0
                  exact hknot (hmem_iff.mp h0)

/-!
## Correctness of `Node::get_by_key` on well-formed trees
-/

theorem get_by_key_spec [LinearOrder K] (key : K) :
    ∀ (t : Node K V), t.wf →
      Node.get_by_key key t = .ok (assocGet key t.inorder) := by
  intro t
  induction t using Node.indOn with
  | step kvs cs cnt ih =>
    intro hwf
    have hwf2 := hwf
    obtain ⟨hs, hc, hne, hsort⟩ := hwf2
    rw [inorder_mk] at hsort
    have hkvs_sorted : sortedKeys kvs :=
      List.Pairwise.sublist (sublist_interleave_right kvs _) hsort
    cases cs with
    | nil =>
      cases hsk : searchKey key kvs with
      | found idx =>
        obtain ⟨v, hget⟩ := searchKey_found_get key kvs idx hsk
        simp only [Node.get_by_key, hsk]
        rw [hget, inorder_leaf,
          assocGet_of_mem key v kvs hkvs_sorted (List.get?_mem hget)]
      | notFound idx =>
        simp only [Node.get_by_key, hsk, List.isEmpty_nil, if_true]
        rw [inorder_leaf, assocGet_of_not_mem key kvs
          (searchKey_notFound_not_mem key kvs idx hkvs_sorted hsk)]
    | cons c0 cs2 =>
      have hlen : (c0 :: cs2).length = kvs.length + 1 := by
        rcases ((structOk_mk kvs (c0 :: cs2) cnt).mp hs).1 with h0 | h0
        · cases h0
        · exact h0
      cases hsk : searchKey key kvs with
      | found idx =>
        obtain ⟨v, hget⟩ := searchKey_found_get key kvs idx hsk
        simp only [Node.get_by_key, hsk]
        rw [hget, inorder_mk, assocGet_of_mem key v _ hsort
          ((mem_interleave _ _ _).mpr (Or.inr (List.get?_mem hget)))]
      | notFound idx =>
        have hidxle := searchKey_notFound_le key kvs idx hsk
        have hidxlt : idx < (c0 :: cs2).length := by rw [hlen]; omega
        simp only [Node.get_by_key, hsk]
        rw [if_neg (by simp)]
        cases hget : (c0 :: cs2).get? idx with
        | none => exact absurd (List.get?_eq_none.mp hget) (by omega)
        | some child =>
          have hchild_mem := List.get?_mem hget
          show Node.get_by_key key child =
            Except.ok (assocGet key (Node.mk kvs (c0 :: cs2) cnt).inorder)
          rw [ih child hchild_mem (wf_child hwf child hchild_mem), inorder_mk]
          congr 1
          by_cases hmem :
              key ∈ (interleave ((c0 :: cs2).map Node.inorder) kvs).map Prod.fst
          · obtain ⟨c2, hc2, hkc⟩ := key_in_child key kvs (c0 :: cs2) idx hlen
              hsort hsk hmem
            rw [hget] at hc2
            obtain rfl : child = c2 := Option.some.inj hc2
            obtain ⟨x, hx, hfst⟩ := List.mem_map.mp hkc
            obtain ⟨x1, x2⟩ := x
            have hfst2 : x1 = key := hfst
            rw [hfst2] at hx
            rw [assocGet_of_mem key x2 child.inorder
              (@sortedKeys_child K V _ kvs (c0 :: cs2) cnt
                (by rw [inorder_mk]; exact hsort) child hchild_mem) hx,
              assocGet_of_mem key x2 _ hsort ((mem_interleave _ _ _).mpr
                (Or.inl ⟨child.inorder,
                  List.mem_map_of_mem Node.inorder hchild_mem, hx⟩))]
          · have hnotchild : key ∉ child.inorder.map Prod.fst := by
              intro h0
              apply hmem
              obtain ⟨x, hx, hfst⟩ := List.mem_map.mp h0
              exact List.mem_map.mpr ⟨x, (mem_interleave x _ _).mpr
                (Or.inl ⟨child.inorder,
                  List.mem_map_of_mem Node.inorder hchild_mem, hx⟩), hfst⟩
            rw [assocGet_of_not_mem key _ hnotchild,
              assocGet_of_not_mem key _ hmem]

/-!
## Folding a sequence of tree-level inserts
-/

theorem foldl_insert_spec [LinearOrder K] (cfg : BTreeConfig)
    (hM : 3 ≤ cfg.max_degree) :
    ∀ (ops : List (K × V)) (t : BTree K V) (A : List (K × V)),
      t.config = cfg →
      ((t.root = none ∧ A = []) ∨
        (∃ r, t.root = some r ∧ r.wf ∧ r.inorder = A)) →
      ∃ t2, ops.foldlM (fun t3 kv => t3.insert kv.1 kv.2) t = .ok t2 ∧
        t2.config = cfg ∧
        ((t2.root = none ∧
            ops.foldl (fun acc kv => upsertList kv.1 kv.2 acc) A = []) ∨
         (∃ r2, t2.root = some r2 ∧ r2.wf ∧
           r2.inorder = ops.foldl (fun acc kv => upsertList kv.1 kv.2 acc) A)) := by
  intro ops
  induction ops with
  | nil =>
    intro t A hcfg hinv
    exact ⟨t, rfl, hcfg, hinv⟩
  | cons kv ops2 ih =>
    intro t A hcfg hinv
    obtain ⟨k1, v1⟩ := kv
    have hstep : ∃ r2, BTree.insert t k1 v1 = .ok ⟨some r2, cfg⟩ ∧ r2.wf ∧
        r2.inorder = upsertList k1 v1 A := by
      rcases hinv with ⟨hroot, rfl⟩ | ⟨r, hroot, hrwf, hrin⟩
      · refine ⟨new_with_key_values [(k1, v1)] [], ?_, ?_, ?_⟩
        · simp only [BTree.insert, hroot]
          rw [hcfg]
        · refine ⟨?_, ?_, ?_, ?_⟩
          · simp [new_with_key_values, structOk_mk]
          · simp [new_with_key_values, countOk_mk, sumCounts_nil]
          · simp [new_with_key_values, entriesNonempty_mk]
          · rw [new_with_key_values, inorder_leaf]
            simp [sortedKeys]
        · rw [new_with_key_values, inorder_leaf]
          rfl
      · obtain ⟨res, hres, hout⟩ := insert_spec cfg hM k1 v1 r hrwf
        cases res with
        | NotSplited is_new r2 =>
          obtain ⟨h2s, h2c, h2n, h2i, h2new⟩ := hout
          refine ⟨r2, ?_, ?_, ?_⟩
          · simp only [BTree.insert, hroot]
            rw [hcfg, hres]
          · exact ⟨h2s, h2c, h2n, by
              rw [h2i, hrin]
              exact upsert_sorted k1 v1 A (by rw [← hrin]; exact hrwf.2.2.2)⟩
          · rw [h2i, hrin]
        | Splited m l rr =>
          obtain ⟨hls, hlc, hln, hrs, hrc, hrn, hlr, hknot⟩ := hout
          have hinor : (new_with_key_values [m] [l, rr]).inorder =
              l.inorder ++ m :: rr.inorder := by
            rw [new_with_key_values, inorder_mk]
            show interleave [l.inorder, rr.inorder] [m] = _
            show l.inorder ++ m :: interleave [rr.inorder] [] = _
            simp [interleave]
          refine ⟨new_with_key_values [m] [l, rr], ?_, ?_, ?_⟩
          · simp only [BTree.insert, hroot]
            rw [hcfg, hres]
          · refine ⟨?_, ?_, ?_, ?_⟩
            · rw [new_with_key_values, structOk_mk]
              refine ⟨Or.inr rfl, ?_⟩
              intro c hc2
              rcases List.mem_cons.mp hc2 with rfl | hc2
              · exact hls
              rcases List.mem_cons.mp hc2 with rfl | hc2
              · exact hrs
              · cases hc2
            · rw [new_with_key_values, countOk_mk]
              refine ⟨rfl, ?_⟩
              intro c hc2
              rcases List.mem_cons.mp hc2 with rfl | hc2
              · exact hlc
              rcases List.mem_cons.mp hc2 with rfl | hc2
              · exact hrc
              · cases hc2
            · rw [new_with_key_values, entriesNonempty_mk]
              refine ⟨by simp, ?_⟩
              intro c hc2
              rcases List.mem_cons.mp hc2 with rfl | hc2
              · exact hln
              rcases List.mem_cons.mp hc2 with rfl | hc2
              · exact hrn
              · cases hc2
            · rw [hinor, hlr, hrin]
              exact upsert_sorted k1 v1 A (by rw [← hrin]; exact hrwf.2.2.2)
          · rw [hinor, hlr, hrin]
    obtain ⟨r2, hstep_eq, hr2wf, hr2in⟩ := hstep
    obtain ⟨t2, hfold, ht2cfg, hinv2⟩ := ih ⟨some r2, cfg⟩ (upsertList k1 v1 A)
      rfl (Or.inr ⟨r2, rfl, hr2wf, hr2in⟩)
    refine ⟨t2, ?_, ht2cfg, ?_⟩
    · show ((⟨k1, v1⟩ : K × V) :: ops2).foldlM
        (fun t3 kv => t3.insert kv.1 kv.2) t = .ok t2
      simp only [List.foldlM]
      rw [hstep_eq]
      show (Except.ok (⟨some r2, cfg⟩ : BTree K V) >>= fun t3 =>
        ops2.foldlM (fun t3 kv => t3.insert kv.1 kv.2) t3) = .ok t2
      simp only [bind, Except.bind]
      exact hfold
    · rw [List.foldl_cons]
      exact hinv2

/-!
## Claim C4: insert/get round trip
-/

/-- **C4**: starting from the empty tree with any configuration of
degree at least 3 (the spec's stated contract for a well-defined tree),
after any finite sequence of inserts no operation fails, and
`get_by_key k` returns exactly the value of the most recent insert with
key `k`, or `none` when `k` was never inserted (`histLookup` is precisely
that specification). -/
theorem c4_round_trip [LinearOrder K] (cfg : BTreeConfig)
    (hM : 3 ≤ cfg.max_degree) (ops : List (K × V)) (k : K) :
    ∃ tr, insertAll cfg ops = .ok tr ∧
      BTree.get_by_key tr k = .ok (histLookup k ops) := by
  obtain ⟨t2, hfold, ht2cfg, hinv⟩ := foldl_insert_spec cfg hM ops
    (BTree.empty cfg) [] rfl (Or.inl ⟨rfl, rfl⟩)
  refine ⟨t2, hfold, ?_⟩
  have hkey := assocGet_foldl_upsert k ops ([] : List (K × V))
  rcases hinv with ⟨hroot, hnil⟩ | ⟨r2, hroot, hwf, hin⟩
  · simp only [BTree.get_by_key, hroot]
    rw [hnil] at hkey
    cases hq : histLookup k ops with
    | none => rfl
    | some v =>
      rw [hq] at hkey
      exact Option.noConfusion hkey
  · simp only [BTree.get_by_key, hroot]
    rw [get_by_key_spec k r2 hwf, hin, hkey]
    cases histLookup k ops with
    | none => rfl
    | some v => rfl

/-- Witness for C4: degree 4, inserting key 1 twice (values 10 then 11)
with key 2 in between; the lookup of key 1 reports the latest value. -/
theorem c4_round_trip_witness :
    3 ≤ (BTreeConfig.mk 4).max_degree ∧
    (∃ tr, insertAll (K := Nat) (V := Nat) ⟨4⟩ [(1, 10), (2, 20), (1, 11)] =
        .ok tr ∧
      BTree.get_by_key tr 1 = .ok (histLookup 1 [(1, 10), (2, 20), (1, 11)])) :=
  ⟨by decide, c4_round_trip ⟨4⟩ (by decide) [(1, 10), (2, 20), (1, 11)] 1⟩

/-!
## Algebra of `KeyRangeResult::merge_into` (toward claim C1)
-/

theorem merge_none_left [LinearOrder K] (r : KeyRangeResult K) :
    (KeyRangeResult.none).merge_into r = r := by
  cases r <;> rfl

theorem merge_none_right [LinearOrder K] (r : KeyRangeResult K) :
    r.merge_into KeyRangeResult.none = r := by
  cases r <;> rfl

theorem merge_comm [LinearOrder K] (r1 r2 : KeyRangeResult K) :
    r1.merge_into r2 = r2.merge_into r1 := by
  cases r1 with
  | none => cases r2 <;> rfl
  | some s1 e1 n1 =>
    cases r2 with
    | none => rfl
    | some s2 e2 n2 =>
      show KeyRangeResult.some (min s1 s2) (max e1 e2) (n1 + n2) =
        KeyRangeResult.some (min s2 s1) (max e2 e1) (n2 + n1)
      rw [min_comm, max_comm, Nat.add_comm]

theorem merge_assoc [LinearOrder K] (r1 r2 r3 : KeyRangeResult K) :
    (r1.merge_into r2).merge_into r3 = r1.merge_into (r2.merge_into r3) := by
  cases r1 with
  | none => rw [merge_none_left, merge_none_left]
  | some s1 e1 n1 =>
    cases r2 with
    | none => rw [merge_none_right, merge_none_left]
    | some s2 e2 n2 =>
      cases r3 with
      | none => rw [merge_none_right, merge_none_right]
      | some s3 e3 n3 =>
        show KeyRangeResult.some (min (min s1 s2) s3) (max (max e1 e2) e3)
            (n1 + n2 + n3) =
          KeyRangeResult.some (min s1 (min s2 s3)) (max e1 (max e2 e3))
            (n1 + (n2 + n3))
        rw [min_assoc, max_assoc, Nat.add_assoc]

theorem getLast_eq_of_getLast? (l : List α) (h : l ≠ []) (a : α)
    (h2 : l.getLast? = some a) : l.getLast h = a := by
  rw [List.getLast?_eq_getLast l h] at h2
  exact Option.some.inj h2

theorem krOf_cons (k : K) (rest : List K) :
    krOf (k :: rest) =
      KeyRangeResult.some k ((k :: rest).getLast (List.cons_ne_nil k rest))
        (rest.length + 1) := rfl

theorem getLast?_cons_of_ne_nil (a : α) (l : List α) (h : l ≠ []) :
    (a :: l).getLast? = l.getLast? := by
  cases l with
  | nil => exact absurd rfl h
  | cons b l2 => exact List.getLast?_cons_cons

theorem krOf_merge [LinearOrder K] (X Y : List K)
    (h : ∀ x ∈ X, ∀ y ∈ Y, x ≤ y) :
    (krOf X).merge_into (krOf Y) = krOf (X ++ Y) := by
  cases X with
  | nil => rw [List.nil_append]; exact merge_none_left _
  | cons x0 X2 =>
    cases Y with
    | nil => rw [List.append_nil]; exact merge_none_right _
    | cons y0 Y2 =>
      rw [krOf_cons, krOf_cons]
      have hYne : (y0 :: Y2) ≠ [] := List.cons_ne_nil y0 Y2
      have happne : (x0 :: X2) ++ (y0 :: Y2) ≠ [] := by simp
      have hlastY : ((y0 :: Y2).getLast hYne) ∈ (y0 :: Y2) := List.getLast_mem hYne
      have hlastapp : ((x0 :: X2) ++ (y0 :: Y2)).getLast? =
          ((y0 :: Y2)).getLast? :=
        List.getLast?_append_of_ne_nil _ hYne
      have hmin : min x0 y0 = x0 :=
        min_eq_left (h x0 (List.mem_cons_self _ _) y0 (List.mem_cons_self _ _))
      have hmax : max ((x0 :: X2).getLast (List.cons_ne_nil x0 X2))
          ((y0 :: Y2).getLast hYne) = (y0 :: Y2).getLast hYne :=
        max_eq_right (h _ (List.getLast_mem _) _ hlastY)
      show KeyRangeResult.some (min x0 y0) (max _ _) (X2.length + 1 + (Y2.length + 1)) = _
      rw [hmin, hmax]
      have happ : (x0 :: X2) ++ (y0 :: Y2) = x0 :: (X2 ++ y0 :: Y2) := rfl
      rw [happ, krOf_cons]
      congr 1
      · exact (getLast_eq_of_getLast? _ _ _ (by
          rw [show x0 :: (X2 ++ y0 :: Y2) = (x0 :: X2) ++ (y0 :: Y2) from rfl,
            hlastapp, List.getLast?_eq_getLast _ hYne])).symm
      · simp
        omega

theorem krOf_cons_merge [LinearOrder K] (k klast : K) (T : List K) (nT : Nat)
    (hTne : T ≠ []) (hlast : T.getLast? = some klast) (hn : nT = T.length)
    (hk : k ≤ klast) :
    (KeyRangeResult.some k k 1).merge_into (KeyRangeResult.some k klast nT) =
      krOf (k :: T) := by
  show KeyRangeResult.some (min k k) (max k klast) (1 + nT) = _
  rw [min_self, max_eq_right hk, krOf_cons]
  congr 1
  · exact (getLast_eq_of_getLast? _ _ _ (by
      rw [getLast?_cons_of_ne_nil k T hTne, hlast])).symm
  · omega

theorem mem_interleaveSep (x : α) (ls : List (List α)) (ks : List α)
    (h : x ∈ interleaveSep ls ks) : x ∈ ks ∨ ∃ l ∈ ls, x ∈ l := by
  cases ks with
  | nil => rw [interleaveSep_nil] at h; cases h
  | cons k ks2 =>
    rw [interleaveSep_cons] at h
    rcases List.mem_cons.mp h with rfl | h2
    · exact Or.inl (List.mem_cons_self _ _)
    · rcases (mem_interleave x _ _).mp h2 with ⟨l, hl, hxl⟩ | hk
      · exact Or.inr ⟨l, hl, hxl⟩
      · exact Or.inl (List.mem_cons_of_mem _ hk)

theorem interleave_append (L1 : List (List α)) (S1 : List α) :
    ∀ (L2 : List (List α)) (S2 : List α), L1.length = S1.length →
      interleave (L1 ++ L2) (S1 ++ S2) =
        interleave L1 S1 ++ interleave L2 S2 := by
  induction L1 generalizing S1 with
  | nil =>
    intro L2 S2 hlen
    have h0 : S1 = [] := List.length_eq_zero.mp (by rw [← hlen]; rfl)
    subst h0
    rfl
  | cons l0 L1t ih =>
    intro L2 S2 hlen
    cases S1 with
    | nil => simp at hlen
    | cons s0 S1t =>
      show l0 ++ s0 :: interleave (L1t ++ L2) (S1t ++ S2) =
        (l0 ++ s0 :: interleave L1t S1t) ++ interleave L2 S2
      rw [ih S1t L2 S2 (by simpa using hlen)]
      simp

theorem interleave_eq_getLast? :
    ∀ (ls : List (List α)) (ks : List α), ls.length = ks.length → ks ≠ [] →
      (interleave ls ks).getLast? = ks.getLast? := by
  intro ls
  induction ls with
  | nil => intro ks _ _; rfl
  | cons l0 ls2 ih =>
    intro ks hlen hne
    cases ks with
    | nil => exact absurd rfl hne
    | cons k0 ks2 =>
      show (l0 ++ k0 :: interleave ls2 ks2).getLast? = (k0 :: ks2).getLast?
      rw [List.getLast?_append_of_ne_nil _ (by simp)]
      cases ks2 with
      | nil =>
        have h0 : ls2 = [] := by simpa using hlen
        subst h0
        rfl
      | cons k1 ks3 =>
        have hlen2 : ls2.length = (k1 :: ks3).length := by simpa using hlen
        have hne2 : interleave ls2 (k1 :: ks3) ≠ [] := by
          intro h0
          have h1 := congrArg List.length h0
          rw [length_interleave] at h1
          simp at h1
        rw [getLast?_cons_of_ne_nil _ _ hne2,
          ih (k1 :: ks3) hlen2 (List.cons_ne_nil _ _),
          getLast?_cons_of_ne_nil _ _ (List.cons_ne_nil _ _)]

/-!
## Classifying subtrees under a monotone predicate
-/

theorem rank_zero_left (r : PredicateResult) (h : r.rank = 0) : r = .Left := by
  cases r with
  | Left => rfl
  | Match => simp [PredicateResult.rank] at h
  | Right => simp [PredicateResult.rank] at h

theorem rank_two_right (r : PredicateResult) (h : 2 ≤ r.rank) : r = .Right := by
  cases r with
  | Left => simp [PredicateResult.rank] at h
  | Match => simp [PredicateResult.rank] at h
  | Right => rfl

theorem rank_one_match (r : PredicateResult) (h1 : 1 ≤ r.rank) (h2 : r.rank ≤ 1) :
    r = .Match := by
  cases r with
  | Left => simp [PredicateResult.rank] at h1
  | Match => rfl
  | Right => simp [PredicateResult.rank] at h2

theorem matched_nil_of_lt [LinearOrder K] (pred : K → PredicateResult)
    (hmono : MonoPred pred) (c : Node K V) (kb : K)
    (hub : ∀ x ∈ c.inorder, x.1 < kb) (hL : pred kb = .Left) :
    matchedKeys pred c = [] := by
  rw [matchedKeys, List.filter_eq_nil]
  intro k hk
  obtain ⟨x, hx, hfst⟩ := List.mem_map.mp hk
  have h1 := hmono x.1 kb (le_of_lt (hub x hx))
  rw [hL] at h1
  have h2 : pred x.1 = .Left := rank_zero_left _ (Nat.le_zero.mp h1)
  rw [← hfst, h2]
  simp

theorem matched_nil_of_gt [LinearOrder K] (pred : K → PredicateResult)
    (hmono : MonoPred pred) (c : Node K V) (kb : K)
    (hlb : ∀ x ∈ c.inorder, kb < x.1) (hR : pred kb = .Right) :
    matchedKeys pred c = [] := by
  rw [matchedKeys, List.filter_eq_nil]
  intro k hk
  obtain ⟨x, hx, hfst⟩ := List.mem_map.mp hk
  have h1 := hmono kb x.1 (le_of_lt (hlb x hx))
  rw [hR] at h1
  have h2 : pred x.1 = .Right := rank_two_right _ h1
  rw [← hfst, h2]
  simp

theorem all_match_of_between [LinearOrder K] (pred : K → PredicateResult)
    (hmono : MonoPred pred) (c : Node K V) (klo khi : K)
    (hlb : ∀ x ∈ c.inorder, klo < x.1) (hub : ∀ x ∈ c.inorder, x.1 < khi)
    (hlo : pred klo = .Match) (hhi : pred khi = .Match) :
    ∀ x ∈ c.inorder, pred x.1 = .Match := by
  intro x hx
  have h1 := hmono klo x.1 (le_of_lt (hlb x hx))
  rw [hlo] at h1
  have h2 := hmono x.1 khi (le_of_lt (hub x hx))
  rw [hhi] at h2
  exact rank_one_match _ h1 h2

theorem matched_all_of_between [LinearOrder K] (pred : K → PredicateResult)
    (hmono : MonoPred pred) (c : Node K V) (klo khi : K)
    (hlb : ∀ x ∈ c.inorder, klo < x.1) (hub : ∀ x ∈ c.inorder, x.1 < khi)
    (hlo : pred klo = .Match) (hhi : pred khi = .Match) :
    matchedKeys pred c = c.inorder.map Prod.fst := by
  rw [matchedKeys, List.filter_eq_self]
  intro k hk
  obtain ⟨x, hx, hfst⟩ := List.mem_map.mp hk
  rw [← hfst, all_match_of_between pred hmono c klo khi hlb hub hlo hhi x hx]
  rfl

theorem pred_decomp [LinearOrder K] (pred : K → PredicateResult)
    (hmono : MonoPred pred) :
    ∀ (kvs : List (K × V)), sortedKeys kvs →
      ∃ KL KM KR, kvs = KL ++ KM ++ KR ∧
        (∀ kv ∈ KL, pred kv.1 = .Left) ∧
        (∀ kv ∈ KM, pred kv.1 = .Match) ∧
        (∀ kv ∈ KR, pred kv.1 = .Right) := by
  intro kvs
  induction kvs with
  | nil =>
    intro _
    exact ⟨[], [], [], rfl, by simp, by simp, by simp⟩
  | cons kv rest ih =>
    intro hsort
    rw [sortedKeys, List.pairwise_cons] at hsort
    obtain ⟨hhead, hrest⟩ := hsort
    obtain ⟨KL, KM, KR, hdec, hKL, hKM, hKR⟩ := ih hrest
    cases hp : pred kv.1 with
    | Left =>
      refine ⟨kv :: KL, KM, KR, by rw [hdec]; rfl, ?_, hKM, hKR⟩
      intro x hx
      rcases List.mem_cons.mp hx with rfl | hx
      · exact hp
      · exact hKL x hx
    | Match =>
      have hKLnil : KL = [] := by
        cases hKLe : KL with
        | nil => rfl
        | cons y KL2 =>
          exfalso
          have hy : y ∈ rest := by
            rw [hdec, hKLe]
            simp
          have h1 := hmono kv.1 y.1 (le_of_lt (hhead y hy))
          rw [hp, hKL y (by rw [hKLe]; exact List.mem_cons_self _ _)] at h1
          simp [PredicateResult.rank] at h1
      refine ⟨[], kv :: KM, KR, by rw [hdec, hKLnil]; rfl, by simp, ?_, hKR⟩
      intro x hx
      rcases List.mem_cons.mp hx with rfl | hx
      · exact hp
      · exact hKM x hx
    | Right =>
      have hKLnil : KL = [] := by
        cases hKLe : KL with
        | nil => rfl
        | cons y KL2 =>
          exfalso
          have hy : y ∈ rest := by
            rw [hdec, hKLe]
            simp
          have h1 := hmono kv.1 y.1 (le_of_lt (hhead y hy))
          rw [hp, hKL y (by rw [hKLe]; exact List.mem_cons_self _ _)] at h1
          simp [PredicateResult.rank] at h1
      have hKMnil : KM = [] := by
        cases hKMe : KM with
        | nil => rfl
        | cons y KM2 =>
          exfalso
          have hy : y ∈ rest := by
            rw [hdec, hKLnil, hKMe]
            simp
          have h1 := hmono kv.1 y.1 (le_of_lt (hhead y hy))
          rw [hp, hKM y (by rw [hKMe]; exact List.mem_cons_self _ _)] at h1
          simp [PredicateResult.rank] at h1
      refine ⟨[], [], kv :: KR, by rw [hdec, hKLnil, hKMnil]; rfl, by simp,
        by simp, ?_⟩
      intro x hx
      rcases List.mem_cons.mp hx with rfl | hx
      · exact hp
      · exact hKR x hx

/-!
## Characterizing the branch scan of `find_key_range`
-/

theorem fkrScan_left [LinearOrder K] (pred : K → PredicateResult) :
    ∀ (KL rest : List (K × V)) (i0 : Nat) (e0 : Option Nat),
      (∀ kv ∈ KL, pred kv.1 = .Left) →
      fkrScan pred (KL ++ rest) i0 e0 =
        fkrScan pred rest (i0 + KL.length)
          (if KL.length = 0 then e0 else Option.some (i0 + KL.length)) := by
  intro KL
  induction KL with
  | nil => intro rest i0 e0 _; simp
  | cons kv KL2 ih =>
    intro rest i0 e0 hKL
    obtain ⟨k, v⟩ := kv
    have hp : pred k = .Left := hKL (k, v) (List.mem_cons_self _ _)
    show fkrScan pred ((k, v) :: (KL2 ++ rest)) i0 e0 = _
    simp only [fkrScan, hp]
    rw [ih rest (i0 + 1) (Option.some (i0 + 1))
      (fun x hx => hKL x (List.mem_cons_of_mem _ hx))]
    simp only [List.length_cons]
    have hinner : (if KL2.length = 0 then Option.some (i0 + 1)
        else Option.some (i0 + 1 + KL2.length)) =
        Option.some (i0 + (KL2.length + 1)) := by
      cases hKL2 : KL2.length with
      | zero => simp
      | succ n2 =>
        rw [if_neg (show ¬(n2 + 1 = 0) from by omega)]
        congr 1
        omega
    rw [hinner,
      show i0 + 1 + KL2.length = i0 + (KL2.length + 1) from by omega,
      if_neg (show ¬(KL2.length + 1 = 0) from by omega)]

theorem fkrScan_match [LinearOrder K] (pred : K → PredicateResult) :
    ∀ (KM rest : List (K × V)) (i0 : Nat) (e0 : Option Nat),
      (∀ kv ∈ KM, pred kv.1 = .Match) →
      fkrScan pred (KM ++ rest) i0 e0 =
        ⟨(List.range' i0 KM.length).zip (KM.map Prod.fst) ++
            (fkrScan pred rest (i0 + KM.length)
              (if KM.length = 0 then e0
               else Option.some (i0 + KM.length))).matched,
          (fkrScan pred rest (i0 + KM.length)
            (if KM.length = 0 then e0
             else Option.some (i0 + KM.length))).extra,
          (fkrScan pred rest (i0 + KM.length)
            (if KM.length = 0 then e0
             else Option.some (i0 + KM.length))).rightIdx⟩ := by
  intro KM
  induction KM with
  | nil => intro rest i0 e0 _; simp
  | cons kv KM2 ih =>
    intro rest i0 e0 hKM
    obtain ⟨k, v⟩ := kv
    have hp : pred k = .Match := hKM (k, v) (List.mem_cons_self _ _)
    show fkrScan pred ((k, v) :: (KM2 ++ rest)) i0 e0 = _
    simp only [fkrScan, hp]
    rw [ih rest (i0 + 1) (Option.some (i0 + 1))
      (fun x hx => hKM x (List.mem_cons_of_mem _ hx))]
    simp only [List.length_cons, List.map_cons]
    have harith : i0 + 1 + KM2.length = i0 + (KM2.length + 1) := by omega
    have hinner : (if KM2.length = 0 then Option.some (i0 + 1)
        else Option.some (i0 + 1 + KM2.length)) =
        Option.some (i0 + (KM2.length + 1)) := by
      cases hKM2 : KM2.length with
      | zero => simp
      | succ n2 =>
        rw [if_neg (show ¬(n2 + 1 = 0) from by omega)]
        congr 1
        omega
    rw [hinner, harith, if_neg (show ¬(KM2.length + 1 = 0) from by omega),
      show List.range' i0 (KM2.length + 1) =
        i0 :: List.range' (i0 + 1) KM2.length from rfl]
    rfl

theorem fkrScan_right_cons [LinearOrder K] (pred : K → PredicateResult)
    (kv : K × V) (KR2 : List (K × V)) (i0 : Nat) (e0 : Option Nat)
    (hp : pred kv.1 = .Right) :
    fkrScan pred (kv :: KR2) i0 e0 = ⟨[], Option.none, Option.some i0⟩ := by
  obtain ⟨k, v⟩ := kv
  have hp2 : pred k = .Right := hp
  simp only [fkrScan, hp2]

theorem fkrScan_nil [LinearOrder K] (pred : K → PredicateResult)
    (i0 : Nat) (e0 : Option Nat) :
    fkrScan pred ([] : List (K × V)) i0 e0 = ⟨[], e0, Option.none⟩ := rfl

/-!
## The separator-span aggregation of `find_key_range`
-/

theorem spanCount_go (cs : List (Node K V)) :
    ∀ (CM : List (Node K V)) (i0 : Nat) (acc : Nat),
      (∀ (j : Nat) (c : Node K V), CM.get? j = some c →
        cs.get? (i0 + j) = some c) →
      (List.range' i0 CM.length).foldlM
        (fun acc2 idx =>
          match cs.get? idx with
          | Option.some c => Except.ok (acc2 + c.count + 1)
          | Option.none => Except.error PanicSite.index) acc =
      Except.ok (acc + sumCounts CM + CM.length) := by
  intro CM
  induction CM with
  | nil =>
    intro i0 acc _
    rfl
  | cons c CM2 ih =>
    intro i0 acc h
    have h0 : cs.get? i0 = some c := by
      have h1 := h 0 c rfl
      rwa [Nat.add_zero] at h1
    simp only [List.length_cons]
    rw [show List.range' i0 (CM2.length + 1) =
      i0 :: List.range' (i0 + 1) CM2.length from rfl]
    simp only [List.foldlM, h0, bind, Except.bind]
    rw [ih (i0 + 1) (acc + c.count + 1) (fun j c2 hj => by
      have h2 := h (j + 1) c2 hj
      rwa [show i0 + (j + 1) = i0 + 1 + j from by omega] at h2)]
    rw [sumCounts_cons]
    congr 1
    omega

theorem spanCount_eq (cs : List (Node K V)) (first : Nat) (CM : List (Node K V))
    (h : ∀ (j : Nat) (c : Node K V), CM.get? j = some c →
      cs.get? (first + 1 + j) = some c) :
    spanCount cs first (first + CM.length) = .ok (sumCounts CM + CM.length) := by
  rw [spanCount, show first + CM.length - first = CM.length from by omega]
  have h2 := spanCount_go cs CM (first + 1) 0 h
  rw [h2]
  congr 1
  omega

/-!
## The leaf case of `find_key_range`
-/

theorem filter_fst_map (q : K → Bool) :
    ∀ (kvs : List (K × V)),
      (kvs.filter fun kv => q kv.1).map Prod.fst =
        (kvs.map Prod.fst).filter q := by
  intro kvs
  induction kvs with
  | nil => rfl
  | cons kv rest ih =>
    obtain ⟨k, v⟩ := kv
    cases hq : q k with
    | true => simp [List.filter_cons, hq, ih]
    | false => simp [List.filter_cons, hq, ih]

theorem getLast?_map_fst :
    ∀ (g : α → β) (l : List α), (l.map g).getLast? = l.getLast?.map g := by
  intro g l
  induction l with
  | nil => rfl
  | cons a l2 ih =>
    cases l2 with
    | nil => rfl
    | cons b l3 =>
      show ((g a) :: (g b) :: l3.map g).getLast? = Option.map g ((a :: b :: l3).getLast?)
      rw [List.getLast?_cons_cons,
        show (a :: b :: l3).getLast? = (b :: l3).getLast?
          from List.getLast?_cons_cons]
      exact ih

theorem leafFkr_eq_krOf [LinearOrder K] (pred : K → PredicateResult)
    (kvs : List (K × V)) :
    leafFkr pred kvs =
      krOf ((kvs.map Prod.fst).filter
        fun k => pred k == PredicateResult.Match) := by
  rw [leafFkr, ← filter_fst_map]
  cases hF : kvs.filter (fun kv => pred kv.1 == PredicateResult.Match) with
  | nil => rfl
  | cons m rest =>
    show KeyRangeResult.some m.1
        ((m :: rest).getLast (List.cons_ne_nil m rest)).1 (m :: rest).length =
      krOf ((m :: rest).map Prod.fst)
    rw [show (m :: rest).map Prod.fst = m.1 :: rest.map Prod.fst from rfl,
      krOf_cons]
    have hlast : (m.1 :: rest.map Prod.fst).getLast
        (List.cons_ne_nil m.1 (rest.map Prod.fst)) =
        ((m :: rest).getLast (List.cons_ne_nil m rest)).1 := by
      refine getLast_eq_of_getLast? _ _ _ ?_
      rw [show m.1 :: rest.map Prod.fst = (m :: rest).map Prod.fst from rfl,
        getLast?_map_fst, List.getLast?_eq_getLast _ (List.cons_ne_nil m rest)]
      rfl
    rw [hlast]
    simp

theorem get?_of_mem_take (l : List α) (n : Nat) (x : α) (h : x ∈ l.take n) :
    ∃ i, i < n ∧ l.get? i = some x := by
  obtain ⟨i, hi⟩ := List.get_of_mem h
  have hilt : i.1 < n := by
    have h0 := i.2
    simp [List.length_take] at h0
    omega
  refine ⟨i.1, hilt, ?_⟩
  have h0 := List.get?_eq_get i.2 (l := l.take n)
  rw [hi, List.get?_take hilt] at h0
  exact h0

theorem get?_of_mem_drop (l : List α) (n : Nat) (x : α) (h : x ∈ l.drop n) :
    ∃ i, n ≤ i ∧ l.get? i = some x := by
  obtain ⟨i, hi⟩ := List.get_of_mem h
  refine ⟨n + i.1, by omega, ?_⟩
  have h0 := List.get?_eq_get i.2 (l := l.drop n)
  rw [hi, List.get?_drop] at h0
  exact h0
theorem get?_length_sub_one : ∀ (l : List α), l.get? (l.length - 1) = l.getLast? := by
  intro l
  induction l with
  | nil => rfl
  | cons a l2 ih =>
    cases l2 with
    | nil => rfl
    | cons b l3 =>
      show (b :: l3).get? ((b :: l3).length - 1 + 1 - 1) = _
      rw [show (b :: l3).length - 1 + 1 - 1 = (b :: l3).length - 1 from by omega,
        ih, List.getLast?_cons_cons]

theorem zip_range_getLast? [LinearOrder K] :
    ∀ (ks : List K) (s : Nat) (klast : K), ks.getLast? = some klast →
      ((List.range' s ks.length).zip ks).getLast? =
        some (s + ks.length - 1, klast) := by
  intro ks
  induction ks with
  | nil => intro s klast h0; cases h0
  | cons k0 ks2 ih =>
    intro s klast h0
    cases ks2 with
    | nil =>
      obtain rfl : k0 = klast := by simpa using h0
      show ((List.range' s 1).zip [k0]).getLast? = _
      simp
    | cons k1 ks3 =>
      have h2 : (k1 :: ks3).getLast? = some klast := by
        rwa [List.getLast?_cons_cons] at h0
      show (((s :: List.range' (s + 1) (k1 :: ks3).length)).zip
        (k0 :: k1 :: ks3)).getLast? = _
      rw [show ((s :: List.range' (s + 1) (k1 :: ks3).length)).zip
          (k0 :: k1 :: ks3) = (s, k0) ::
          (List.range' (s + 1) (k1 :: ks3).length).zip (k1 :: ks3) from rfl]
      have hne2 : (List.range' (s + 1) (k1 :: ks3).length).zip (k1 :: ks3) ≠ [] := by
        intro hq
        have h3 := congrArg List.length hq
        simp [List.length_zip, List.length_range'] at h3
      rw [getLast?_cons_of_ne_nil _ _ hne2, ih (s + 1) klast h2]
      congr 1
      show ((s + 1) + (ks3.length + 1) - 1, klast) = (s + (ks3.length + 1 + 1) - 1, klast)
      congr 1
      omega

theorem c1_range_shortcut [LinearOrder K] (pred : K → PredicateResult)
    (hmono : MonoPred pred) (t : Node K V) (h : t.wf) :
    Node.find_key_range pred t = .ok (krOf (matchedKeys pred t)) := by
  induction t using Node.indOn with
  | step kvs cs cnt ih =>
    have hwf := h
    obtain ⟨hs, hc, hne, hsort⟩ := h
    rw [inorder_mk] at hsort
    have hkvs_sorted : sortedKeys kvs :=
      List.Pairwise.sublist (sublist_interleave_right kvs _) hsort
    cases cs with
    | nil =>
      simp only [Node.find_key_range]
      rw [leafFkr_eq_krOf, matchedKeys, inorder_leaf]
    | cons c0 cs2 =>
      have hlen : (c0 :: cs2).length = kvs.length + 1 := by
        rcases ((structOk_mk kvs (c0 :: cs2) cnt).mp hs).1 with h0 | h0
        · cases h0
        · exact h0
      have hkvs_ne : kvs ≠ [] := ((entriesNonempty_mk _ _ _).mp hne).1
      have hlen2 : ((c0 :: cs2).map Node.inorder).length = kvs.length + 1 := by
        rw [List.length_map]; exact hlen
      have hccount := ((countOk_mk kvs (c0 :: cs2) cnt).mp hc).2
      obtain ⟨KL, KM, KR, hdec, hKL, hKM, hKR⟩ :=
        pred_decomp pred hmono kvs hkvs_sorted
      have hlensum : KL.length + KM.length + KR.length = kvs.length := by
        rw [hdec]
        simp [List.length_append]
        omega
      have hdec2 : kvs = KL ++ (KM ++ KR) := by
        rw [hdec, List.append_assoc]
      have hsepKL : ∀ j, j < KL.length → kvs.get? j = KL.get? j := by
        intro j hj
        rw [hdec2, List.get?_append hj]
      have hsepKM : ∀ j, j < KM.length →
          kvs.get? (KL.length + j) = KM.get? j := by
        intro j hj
        rw [hdec2, List.get?_append_right (by omega),
          show KL.length + j - KL.length = j from by omega,
          List.get?_append hj]
      have hsepKR : ∀ j, kvs.get? (KL.length + KM.length + j) = KR.get? j := by
        intro j
        rw [hdec2, List.get?_append_right (by omega),
          show KL.length + KM.length + j - KL.length = KM.length + j from by omega,
          List.get?_append_right (by omega),
          show KM.length + j - KM.length = j from by omega]
      have hmkc : ∀ c : Node K V, matchedKeys pred c =
          (c.inorder.filter fun x => pred x.1 == PredicateResult.Match).map
            Prod.fst := by
        intro c
        rw [matchedKeys, ← filter_fst_map]
      -- the target side, in terms of the filtered entry sequence
      have hroot : krOf (matchedKeys pred (Node.mk kvs (c0 :: cs2) cnt)) =
          krOf ((((interleave ((c0 :: cs2).map Node.inorder) kvs)).filter
            fun x => pred x.1 == PredicateResult.Match).map Prod.fst) := by
        rw [hmkc, inorder_mk]
      -- the left segment contributes no matches
      have hLeftNil : (((interleave
          (((c0 :: cs2).map Node.inorder).take KL.length) KL)).filter
          fun x => pred x.1 == PredicateResult.Match) = [] := by
        rw [List.filter_eq_nil]
        intro x hx
        rcases (mem_interleave x _ _).mp hx with ⟨l, hl, hxl⟩ | hxk
        · obtain ⟨i, hia, hgl⟩ := get?_of_mem_take _ _ _ hl
          have hisep : i < kvs.length := by omega
          cases hq : kvs.get? i with
          | none => exact absurd (List.get?_eq_none.mp hq) (by omega)
          | some kvi =>
            have hb := (interleave_sep_bounds _ kvs i kvi hlen2 hsort hq).1
              i l (le_refl _) hgl x hxl
            have hkvi : kvi ∈ KL := by
              have h3 := hsepKL i hia
              rw [h3] at hq
              exact List.get?_mem hq
            have h1 := hmono x.1 kvi.1 (le_of_lt hb)
            rw [hKL kvi hkvi] at h1
            have h2 : pred x.1 = .Left := rank_zero_left _ (Nat.le_zero.mp h1)
            simp [h2]
        · simp [hKL x hxk]
      -- the whole-sequence decomposition at the first non-Left child
      have hdecls : (c0 :: cs2).map Node.inorder =
          (((c0 :: cs2).map Node.inorder).take KL.length) ++
          (((c0 :: cs2).map Node.inorder).drop KL.length) :=
        (List.take_append_drop _ _).symm
      have htklen : ((((c0 :: cs2).map Node.inorder)).take KL.length).length =
          KL.length := by
        have h9 : cs2.length + 1 = kvs.length + 1 := by simpa using hlen
        simp [List.length_take, List.length_map]
        omega
      have hpos : 0 < kvs.length := List.length_pos.mpr hkvs_ne
      have hchild : ∀ i, i < kvs.length + 1 →
          ∃ c, (c0 :: cs2).get? i = some c := by
        intro i hi
        cases hq : (c0 :: cs2).get? i with
        | none => exact absurd (List.get?_eq_none.mp hq) (by omega)
        | some c => exact ⟨c, rfl⟩
      obtain ⟨cA, hAget⟩ := hchild KL.length (by omega)
      have hAgetls : ((c0 :: cs2).map Node.inorder).get? KL.length =
          some cA.inorder := by
        rw [List.get?_map, hAget]
        rfl
      have hihA := ih cA (List.get?_mem hAget)
        (wf_child hwf cA (List.get?_mem hAget))
      cases KR with
      | nil =>
        cases KM with
        | nil =>
          -- all separators are Left: the scan finds nothing, the extra child
          -- is the last child, everything else is unmatched
          have ha : KL.length = kvs.length := by simpa using hlensum
          have hscan : fkrScan pred kvs 0 Option.none =
              ⟨[], Option.some KL.length, Option.none⟩ := by
            conv_lhs => rw [hdec2]
            rw [fkrScan_left pred KL ([] ++ []) 0 Option.none hKL]
            simp only [List.nil_append, fkrScan_nil]
            rw [if_neg (show ¬(KL.length = 0) from by omega)]
            simp
          have hdropnil : ((c0 :: cs2).map Node.inorder).drop (KL.length + 1) =
              [] := by
            refine List.drop_eq_nil_of_le ?_
            rw [List.length_map, hlen]
            omega
          have hMfull : ((interleave ((c0 :: cs2).map Node.inorder) kvs).filter
              fun x => pred x.1 == PredicateResult.Match) =
              cA.inorder.filter fun x => pred x.1 == PredicateResult.Match := by
            conv_lhs => rw [hdecls, hdec2]
            rw [interleave_append _ _ _ _ htklen, List.filter_append, hLeftNil,
              List.nil_append,
              drop_eq_get?_cons _ _ _ hAgetls, hdropnil]
            rw [show interleave [cA.inorder] ([] ++ []) = cA.inorder ++ [] from
              rfl]
            rw [List.append_nil]
          simp only [Node.find_key_range, hscan]
          split
          · rename_i heq
            rw [hAget] at heq
            exact Option.noConfusion heq
          · rename_i cA2 heq
            rw [hAget] at heq
            obtain rfl : cA = cA2 := Option.some.inj heq
            rw [hihA]
            show Except.ok (KeyRangeResult.none.merge_into
              (krOf (matchedKeys pred cA))) = _
            rw [merge_none_left, hroot, hMfull, ← hmkc cA]
        | cons km0 KM2 =>
          -- at least one Match separator, no Right separator
          have hsepM0 : kvs.get? KL.length = some km0 := by
            have h3 := hsepKM 0 (by simp)
            rwa [Nat.add_zero] at h3
          have hm0match : pred km0.1 = .Match :=
            hKM km0 (List.mem_cons_self _ _)
          have hq0 : (pred km0.1 == PredicateResult.Match) = true := by
            rw [hm0match]
            rfl
          have hblen : KL.length + (KM2.length + 1) = kvs.length := by
            simpa using hlensum
          obtain ⟨cB, hBget⟩ := hchild (KL.length + (KM2.length + 1)) (by omega)
          have hBgetls : ((c0 :: cs2).map Node.inorder).get?
              (KL.length + (KM2.length + 1)) = some cB.inorder := by
            rw [List.get?_map, hBget]
            rfl
          have hihB := ih cB (List.get?_mem hBget)
            (wf_child hwf cB (List.get?_mem hBget))
          have hAup : ∀ x ∈ cA.inorder, x.1 < km0.1 :=
            (interleave_sep_bounds _ kvs KL.length km0 hlen2 hsort hsepM0).1
              KL.length cA.inorder (le_refl _) hAgetls
          have hAkeys : ∀ k2 ∈ matchedKeys pred cA, k2 < km0.1 := by
            intro k2 hk2
            rw [hmkc] at hk2
            obtain ⟨x, hx, hfst⟩ := List.mem_map.mp hk2
            exact hfst ▸ hAup x (List.mem_of_mem_filter hx)
          have hklaste : kvs.get? (KL.length + KM2.length) =
              some ((km0 :: KM2).getLast (List.cons_ne_nil km0 KM2)) := by
            have h3 := hsepKM KM2.length (by simp)
            rw [h3, show KM2.length = (km0 :: KM2).length - 1 from by simp,
              get?_length_sub_one,
              List.getLast?_eq_getLast _ (List.cons_ne_nil km0 KM2)]
          have hklastmatch : pred ((km0 :: KM2).getLast
              (List.cons_ne_nil km0 KM2)).1 = .Match :=
            hKM _ (List.getLast_mem _)
          have hBlo : ∀ x ∈ cB.inorder,
              ((km0 :: KM2).getLast (List.cons_ne_nil km0 KM2)).1 < x.1 := by
            have h3 := (interleave_sep_bounds _ kvs (KL.length + KM2.length)
              ((km0 :: KM2).getLast (List.cons_ne_nil km0 KM2)) hlen2 hsort
              hklaste).2.2.1 (KL.length + (KM2.length + 1)) cB.inorder
              (by omega) hBgetls
            exact h3
          have hBkeys : ∀ k2 ∈ matchedKeys pred cB,
              ((km0 :: KM2).getLast (List.cons_ne_nil km0 KM2)).1 < k2 := by
            intro k2 hk2
            rw [hmkc] at hk2
            obtain ⟨x, hx, hfst⟩ := List.mem_map.mp hk2
            exact hfst ▸ hBlo x (List.mem_of_mem_filter hx)
          cases KM2 with
          | nil =>
            -- exactly one Match separator, no Right separator
            have hblen1 : KL.length + 1 = kvs.length := by simpa using hblen
            have hBget1 : (c0 :: cs2).get? (KL.length + 1) = some cB := by
              simpa using hBget
            have hBgetls1 : ((c0 :: cs2).map Node.inorder).get?
                (KL.length + 1) = some cB.inorder := by
              simpa using hBgetls
            have hscan : fkrScan pred kvs 0 Option.none =
                ⟨[(KL.length, km0.1)], Option.some (KL.length + 1),
                  Option.none⟩ := by
              conv_lhs => rw [hdec2]
              rw [fkrScan_left pred KL ((km0 :: []) ++ []) 0 Option.none hKL,
                fkrScan_match pred (km0 :: []) [] _ _ hKM, fkrScan_nil]
              simp
            have hdropB : ((c0 :: cs2).map Node.inorder).drop (KL.length + 1) =
                [cB.inorder] := by
              rw [drop_eq_get?_cons _ _ _ hBgetls1]
              rw [List.drop_eq_nil_of_le (by rw [List.length_map, hlen]; omega)]
            have hMfull : ((interleave ((c0 :: cs2).map Node.inorder)
                kvs).filter fun x => pred x.1 == PredicateResult.Match) =
                (cA.inorder.filter fun x => pred x.1 == PredicateResult.Match) ++
                km0 :: (cB.inorder.filter
                  fun x => pred x.1 == PredicateResult.Match) := by
              conv_lhs => rw [hdecls, hdec2]
              rw [interleave_append _ _ _ _ htklen, List.filter_append,
                hLeftNil, List.nil_append,
                drop_eq_get?_cons _ _ _ hAgetls, hdropB]
              rw [show interleave (cA.inorder :: [cB.inorder])
                  ((km0 :: []) ++ []) =
                  cA.inorder ++ km0 :: (cB.inorder ++ []) from rfl]
              have hq0e : (fun x : K × V =>
                  pred x.1 == PredicateResult.Match) km0 = true := hq0
              rw [List.append_nil, List.filter_append,
                List.filter_cons_of_pos
                  (p := fun x : K × V => pred x.1 == PredicateResult.Match)
                  (a := km0) hq0e]
            simp only [Node.find_key_range, hscan]
            split
            · rename_i p heq
              split at heq
              · rename_i heq2
                rw [hAget] at heq2
                exact Option.noConfusion heq2
              · rename_i c heq2
                rw [hAget] at heq2
                obtain rfl : cA = c := Option.some.inj heq2
                rw [hihA] at heq
                have heq3 : Except.ok ((KeyRangeResult.none.merge_into
                    (krOf (matchedKeys pred cA))).merge_into
                    (KeyRangeResult.some km0.1 km0.1 1)) =
                    Except.error p := heq
                exact Except.noConfusion heq3
            · rename_i r2 heq
              split at heq
              · rename_i heq2
                rw [hAget] at heq2
                exact Option.noConfusion heq2
              · rename_i c heq2
                rw [hAget] at heq2
                obtain rfl : cA = c := Option.some.inj heq2
                rw [hihA] at heq
                have heq3 : Except.ok ((KeyRangeResult.none.merge_into
                    (krOf (matchedKeys pred cA))).merge_into
                    (KeyRangeResult.some km0.1 km0.1 1)) =
                    Except.ok r2 := heq
                obtain rfl : (KeyRangeResult.none.merge_into
                    (krOf (matchedKeys pred cA))).merge_into
                    (KeyRangeResult.some km0.1 km0.1 1) = r2 :=
                  Except.ok.inj heq3
                split
                · rename_i heq4
                  rw [hBget1] at heq4
                  exact Option.noConfusion heq4
                · rename_i c2 heq4
                  rw [hBget1] at heq4
                  obtain rfl : cB = c2 := Option.some.inj heq4
                  rw [hihB]
                  show Except.ok (((KeyRangeResult.none.merge_into
                    (krOf (matchedKeys pred cA))).merge_into
                    (KeyRangeResult.some km0.1 km0.1 1)).merge_into
                    (krOf (matchedKeys pred cB))) = _
                  rw [merge_none_left,
                    show KeyRangeResult.some km0.1 km0.1 1 = krOf [km0.1]
                      from rfl,
                    krOf_merge _ _ (fun x hx y hy => by
                      rcases List.mem_singleton.mp hy with rfl
                      exact le_of_lt (hAkeys x hx)),
                    krOf_merge _ _ (fun x hx y hy => by
                      rcases List.mem_append.mp hx with hx2 | hx2
                      · exact le_of_lt (lt_trans (hAkeys x hx2)
                          (by simpa using hBkeys y hy))
                      · rcases List.mem_singleton.mp hx2 with rfl
                        exact le_of_lt (by simpa using hBkeys y hy))]
                  rw [hroot, hMfull]
                  congr 1
                  rw [List.map_append, List.map_cons, ← hmkc cA, ← hmkc cB]
                  rw [show (matchedKeys pred cA ++ [km0.1]) ++
                      matchedKeys pred cB =
                      matchedKeys pred cA ++ ([km0.1] ++ matchedKeys pred cB)
                      from by rw [List.append_assoc]]
                  rfl
          | cons km1 KM3 =>
            -- two or more Match separators, no Right separator: the span branch runs
            have h9a : cs2.length + 1 = kvs.length + 1 := by simpa using hlen
            have hblen1 : KL.length + (KM3.length + 2) = kvs.length := by simpa using hblen
            have hBget1 : (c0 :: cs2).get? (KL.length + (KM3.length + 2)) = some cB := by
              simpa using hBget
            have hBgetls1 : ((c0 :: cs2).map Node.inorder).get?
                (KL.length + (KM3.length + 2)) = some cB.inorder := by
              simpa using hBgetls
            have hCMlen : (((c0 :: cs2).drop (KL.length + 1)).take (KM3.length + 1)).length = KM3.length + 1 := by
              rw [List.length_take, List.length_drop]
              simp only [List.length_cons]
              omega
            have hCMget : ∀ (j : Nat) (c : Node K V), (((c0 :: cs2).drop (KL.length + 1)).take (KM3.length + 1)).get? j = some c →
                (c0 :: cs2).get? (KL.length + 1 + j) = some c := by
              intro j c hj
              have hjl : j < (((c0 :: cs2).drop (KL.length + 1)).take (KM3.length + 1)).length := by
                by_contra hq
                rw [List.get?_eq_none.mpr (Nat.le_of_not_lt hq)] at hj
                exact Option.noConfusion hj
              have hjlt : j < KM3.length + 1 := by rwa [hCMlen] at hjl
              rw [List.get?_take hjlt, List.get?_drop] at hj
              exact hj
            have hCMmem : ∀ c ∈ (((c0 :: cs2).drop (KL.length + 1)).take (KM3.length + 1)), c ∈ (c0 :: cs2) := fun c hc =>
              List.mem_of_mem_drop (List.mem_of_mem_take hc)
            have hCMmaplen : ((((c0 :: cs2).drop (KL.length + 1)).take (KM3.length + 1)).map Node.inorder).length = (km1 :: KM3).length := by
              rw [List.length_map, hCMlen, List.length_cons]
            have hscan : fkrScan pred kvs 0 Option.none =
                ⟨((KL.length, km0.1) :: (KL.length + 1, km1.1) :: (List.range' (KL.length + 1 + 1) KM3.length).zip (KM3.map Prod.fst)), Option.some (KL.length + (KM3.length + 2)), Option.none⟩ := by
              conv_lhs => rw [hdec2]
              rw [fkrScan_left pred KL ((km0 :: km1 :: KM3) ++ []) 0 Option.none hKL,
                fkrScan_match pred (km0 :: km1 :: KM3) [] _ _ hKM, fkrScan_nil]
              simp [List.range']
            have hZeq : ((KL.length, km0.1) :: (KL.length + 1, km1.1) :: (List.range' (KL.length + 1 + 1) KM3.length).zip (KM3.map Prod.fst)) =
                (List.range' KL.length ((km0.1 :: km1.1 :: KM3.map Prod.fst).length)).zip
                  (km0.1 :: km1.1 :: KM3.map Prod.fst) := by
              rw [show (km0.1 :: km1.1 :: KM3.map Prod.fst).length = KM3.length + 1 + 1 from by
                simp only [List.length_cons, List.length_map]]
              rfl
            have hks : (km0.1 :: km1.1 :: KM3.map Prod.fst).getLast? = some (((km0 :: km1 :: KM3).getLast (List.cons_ne_nil km0 (km1 :: KM3))).1) := by
              rw [show km0.1 :: km1.1 :: KM3.map Prod.fst =
                  (km0 :: km1 :: KM3).map Prod.fst from rfl,
                getLast?_map_fst,
                List.getLast?_eq_getLast _ (List.cons_ne_nil km0 (km1 :: KM3))]
              rfl
            have hZlast : (((KL.length, km0.1) :: (KL.length + 1, km1.1) :: (List.range' (KL.length + 1 + 1) KM3.length).zip (KM3.map Prod.fst))).getLast? = some (KL.length + KM3.length + 1, ((km0 :: km1 :: KM3).getLast (List.cons_ne_nil km0 (km1 :: KM3))).1) := by
              rw [hZeq, zip_range_getLast? _ _ _ hks,
                show KL.length + (km0.1 :: km1.1 :: KM3.map Prod.fst).length - 1 =
                  KL.length + KM3.length + 1 from by
                  simp only [List.length_cons, List.length_map]; omega]
            have hlastval : (((KL.length, km0.1) :: (KL.length + 1, km1.1) :: (List.range' (KL.length + 1 + 1) KM3.length).zip (KM3.map Prod.fst))).getLast (List.cons_ne_nil _ _) =
                (KL.length + KM3.length + 1, ((km0 :: km1 :: KM3).getLast (List.cons_ne_nil km0 (km1 :: KM3))).1) :=
              getLast_eq_of_getLast? _ _ _ hZlast
            have hlast1 : ((((KL.length, km0.1) :: (KL.length + 1, km1.1) :: (List.range' (KL.length + 1 + 1) KM3.length).zip (KM3.map Prod.fst))).getLast (List.cons_ne_nil _ _)).1 =
                KL.length + KM3.length + 1 := congrArg Prod.fst hlastval
            have hlast2 : ((((KL.length, km0.1) :: (KL.length + 1, km1.1) :: (List.range' (KL.length + 1 + 1) KM3.length).zip (KM3.map Prod.fst))).getLast (List.cons_ne_nil _ _)).2 =
                ((km0 :: km1 :: KM3).getLast (List.cons_ne_nil km0 (km1 :: KM3))).1 := congrArg Prod.snd hlastval
            have hspan0 := spanCount_eq (c0 :: cs2) KL.length (((c0 :: cs2).drop (KL.length + 1)).take (KM3.length + 1)) hCMget
            rw [hCMlen] at hspan0
            have hspan : spanCount (c0 :: cs2) KL.length (KL.length + KM3.length + 1) =
                .ok (sumCounts (((c0 :: cs2).drop (KL.length + 1)).take (KM3.length + 1)) + (KM3.length + 1)) := by
              rwa [show KL.length + (KM3.length + 1) = KL.length + KM3.length + 1 from by
                omega] at hspan0
            have hklastval : (km1 :: KM3).getLast? = some ((km0 :: km1 :: KM3).getLast (List.cons_ne_nil km0 (km1 :: KM3))) := by
              have h1 := List.getLast?_eq_getLast (km0 :: km1 :: KM3)
                (List.cons_ne_nil km0 (km1 :: KM3))
              rw [List.getLast?_cons_cons] at h1
              exact h1
            have hTklast : ((interleave ((((c0 :: cs2).drop (KL.length + 1)).take (KM3.length + 1)).map Node.inorder) (km1 :: KM3)).map Prod.fst).getLast? = some (((km0 :: km1 :: KM3).getLast (List.cons_ne_nil km0 (km1 :: KM3))).1) := by
              rw [getLast?_map_fst,
                interleave_eq_getLast? _ _ hCMmaplen (List.cons_ne_nil km1 KM3), hklastval]
              rfl
            have hkm0klast : km0.1 < ((km0 :: km1 :: KM3).getLast (List.cons_ne_nil km0 (km1 :: KM3))).1 :=
              (interleave_sep_bounds _ kvs (KL.length + (km1 :: KM3).length) ((km0 :: km1 :: KM3).getLast (List.cons_ne_nil km0 (km1 :: KM3)))
                hlen2 hsort hklaste).2.1 KL.length km0
                (by simp only [List.length_cons]; omega) hsepM0
            have hTfull : ∀ x ∈ (interleave ((((c0 :: cs2).drop (KL.length + 1)).take (KM3.length + 1)).map Node.inorder) (km1 :: KM3)), pred x.1 = PredicateResult.Match := by
              intro x hx
              rcases (mem_interleave x _ _).mp hx with ⟨l, hl, hxl⟩ | hxk
              · obtain ⟨c, hcmem, rfl⟩ := List.mem_map.mp hl
                obtain ⟨i, hi⟩ := List.get_of_mem hcmem
                have hget : (((c0 :: cs2).drop (KL.length + 1)).take (KM3.length + 1)).get? i.1 = some c := by
                  rw [List.get?_eq_get i.2, hi]
                have hilt : i.1 < KM3.length + 1 := by
                  have h5 := i.2
                  simp only [List.length_take, List.length_drop,
                    List.length_cons] at h5
                  omega
                have hcs := hCMget i.1 c hget
                have hcsls : ((c0 :: cs2).map Node.inorder).get? (KL.length + 1 + i.1) =
                    some c.inorder := by
                  rw [List.get?_map, hcs]
                  rfl
                have hkmi : ∃ kmi, kvs.get? (KL.length + i.1) = some kmi ∧
                    kmi ∈ (km0 :: km1 :: KM3) := by
                  have h3 := hsepKM i.1 (by simp only [List.length_cons]; omega)
                  cases hq : (km0 :: km1 :: KM3).get? i.1 with
                  | none =>
                    rw [List.get?_eq_none] at hq
                    simp only [List.length_cons] at hq
                    omega
                  | some kmi => exact ⟨kmi, by rw [h3, hq], List.get?_mem hq⟩
                obtain ⟨kmi, hkig, hkim⟩ := hkmi
                have hlow := (interleave_sep_bounds _ kvs (KL.length + i.1) kmi hlen2 hsort
                  hkig).2.2.1 (KL.length + 1 + i.1) c.inorder (by omega) hcsls x hxl
                have hkmi1 : ∃ kmj, kvs.get? (KL.length + (i.1 + 1)) = some kmj ∧
                    kmj ∈ (km0 :: km1 :: KM3) := by
                  have h3 := hsepKM (i.1 + 1) (by simp only [List.length_cons]; omega)
                  cases hq : (km0 :: km1 :: KM3).get? (i.1 + 1) with
                  | none =>
                    rw [List.get?_eq_none] at hq
                    simp only [List.length_cons] at hq
                    omega
                  | some kmj => exact ⟨kmj, by rw [h3, hq], List.get?_mem hq⟩
                obtain ⟨kmj, hkjg, hkjm⟩ := hkmi1
                have hup := (interleave_sep_bounds _ kvs (KL.length + (i.1 + 1)) kmj hlen2
                  hsort hkjg).1 (KL.length + 1 + i.1) c.inorder (by omega) hcsls x hxl
                have h1 := hmono kmi.1 x.1 (le_of_lt hlow)
                rw [hKM kmi hkim] at h1
                have h2 := hmono x.1 kmj.1 (le_of_lt hup)
                rw [hKM kmj hkjm] at h2
                exact rank_one_match _ h1 h2
              · exact hKM x (List.mem_cons_of_mem km0 hxk)
            have hTk_lo : ∀ x ∈ (interleave ((((c0 :: cs2).drop (KL.length + 1)).take (KM3.length + 1)).map Node.inorder) (km1 :: KM3)), km0.1 < x.1 := by
              intro x hx
              rcases (mem_interleave x _ _).mp hx with ⟨l, hl, hxl⟩ | hxk
              · obtain ⟨c, hcmem, rfl⟩ := List.mem_map.mp hl
                obtain ⟨i, hi⟩ := List.get_of_mem hcmem
                have hget : (((c0 :: cs2).drop (KL.length + 1)).take (KM3.length + 1)).get? i.1 = some c := by
                  rw [List.get?_eq_get i.2, hi]
                have hcs := hCMget i.1 c hget
                have hcsls : ((c0 :: cs2).map Node.inorder).get? (KL.length + 1 + i.1) =
                    some c.inorder := by
                  rw [List.get?_map, hcs]
                  rfl
                exact (interleave_sep_bounds _ kvs KL.length km0 hlen2 hsort
                  hsepM0).2.2.1 (KL.length + 1 + i.1) c.inorder (by omega) hcsls x hxl
              · obtain ⟨i, hi⟩ := List.get_of_mem hxk
                have hgk : (km1 :: KM3).get? i.1 = some x := by
                  rw [List.get?_eq_get i.2, hi]
                have hilt2 : i.1 < KM3.length + 1 := by
                  have h5 := i.2
                  simp only [List.length_cons] at h5
                  exact h5
                have h3 := hsepKM (i.1 + 1) (by simp only [List.length_cons]; omega)
                have hgk2 : kvs.get? (KL.length + (i.1 + 1)) = some x := by
                  rw [h3]
                  exact hgk
                exact (interleave_sep_bounds _ kvs KL.length km0 hlen2 hsort
                  hsepM0).2.2.2 (KL.length + (i.1 + 1)) x (by omega) hgk2
            have hTk_hi : ∀ x ∈ (interleave ((((c0 :: cs2).drop (KL.length + 1)).take (KM3.length + 1)).map Node.inorder) (km1 :: KM3)), x.1 ≤ ((km0 :: km1 :: KM3).getLast (List.cons_ne_nil km0 (km1 :: KM3))).1 := by
              intro x hx
              rcases (mem_interleave x _ _).mp hx with ⟨l, hl, hxl⟩ | hxk
              · obtain ⟨c, hcmem, rfl⟩ := List.mem_map.mp hl
                obtain ⟨i, hi⟩ := List.get_of_mem hcmem
                have hget : (((c0 :: cs2).drop (KL.length + 1)).take (KM3.length + 1)).get? i.1 = some c := by
                  rw [List.get?_eq_get i.2, hi]
                have hilt : i.1 < KM3.length + 1 := by
                  have h5 := i.2
                  simp only [List.length_take, List.length_drop,
                    List.length_cons] at h5
                  omega
                have hcs := hCMget i.1 c hget
                have hcsls : ((c0 :: cs2).map Node.inorder).get? (KL.length + 1 + i.1) =
                    some c.inorder := by
                  rw [List.get?_map, hcs]
                  rfl
                exact le_of_lt ((interleave_sep_bounds _ kvs (KL.length + (km1 :: KM3).length)
                  ((km0 :: km1 :: KM3).getLast (List.cons_ne_nil km0 (km1 :: KM3))) hlen2 hsort hklaste).1 (KL.length + 1 + i.1) c.inorder
                  (by simp only [List.length_cons]; omega) hcsls x hxl)
              · obtain ⟨i, hi⟩ := List.get_of_mem hxk
                have hgk : (km1 :: KM3).get? i.1 = some x := by
                  rw [List.get?_eq_get i.2, hi]
                have hilt2 : i.1 < KM3.length + 1 := by
                  have h5 := i.2
                  simp only [List.length_cons] at h5
                  exact h5
                have h3 := hsepKM (i.1 + 1) (by simp only [List.length_cons]; omega)
                have hgk2 : kvs.get? (KL.length + (i.1 + 1)) = some x := by
                  rw [h3]
                  exact hgk
                rcases Nat.lt_or_ge i.1 KM3.length with hltl | hgel
                · exact le_of_lt ((interleave_sep_bounds _ kvs
                    (KL.length + (km1 :: KM3).length) ((km0 :: km1 :: KM3).getLast (List.cons_ne_nil km0 (km1 :: KM3))) hlen2 hsort hklaste).2.1
                    (KL.length + (i.1 + 1)) x (by simp only [List.length_cons]; omega) hgk2)
                · have hgk3 : kvs.get? (KL.length + (km1 :: KM3).length) = some x := by
                    rw [show KL.length + (km1 :: KM3).length = KL.length + (i.1 + 1) from by
                      simp only [List.length_cons]; omega]
                    exact hgk2
                  have h5 : x = ((km0 :: km1 :: KM3).getLast (List.cons_ne_nil km0 (km1 :: KM3))) := Option.some.inj (hgk3.symm.trans hklaste)
                  rw [h5]
            have hTElen : (interleave ((((c0 :: cs2).drop (KL.length + 1)).take (KM3.length + 1)).map Node.inorder) (km1 :: KM3)).length = sumCounts (((c0 :: cs2).drop (KL.length + 1)).take (KM3.length + 1)) + (KM3.length + 1) := by
              rw [length_interleave, List.map_map]
              rw [show ((((c0 :: cs2).drop (KL.length + 1)).take (KM3.length + 1)).map (List.length ∘ Node.inorder)) = (((c0 :: cs2).drop (KL.length + 1)).take (KM3.length + 1)).map Node.count from
                List.map_congr_left fun c hc => inorder_length c (hccount c (hCMmem c hc))]
              rw [← sumCounts_eq_sum_map, List.length_cons]
            have hTEne : (interleave ((((c0 :: cs2).drop (KL.length + 1)).take (KM3.length + 1)).map Node.inorder) (km1 :: KM3)) ≠ [] := by
              intro h0
              have h1 := congrArg List.length h0
              rw [hTElen] at h1
              simp only [List.length_nil] at h1
              omega
            have hTkne : (interleave ((((c0 :: cs2).drop (KL.length + 1)).take (KM3.length + 1)).map Node.inorder) (km1 :: KM3)).map Prod.fst ≠ [] := by
              intro h0
              exact hTEne (List.map_eq_nil.mp h0)
            have hTklen : sumCounts (((c0 :: cs2).drop (KL.length + 1)).take (KM3.length + 1)) + (KM3.length + 1) = ((interleave ((((c0 :: cs2).drop (KL.length + 1)).take (KM3.length + 1)).map Node.inorder) (km1 :: KM3)).map Prod.fst).length := by
              rw [List.length_map, hTElen]
            have hCMmap : (((c0 :: cs2).map Node.inorder).drop (KL.length + 1)).take
                (KM3.length + 1) = (((c0 :: cs2).drop (KL.length + 1)).take (KM3.length + 1)).map Node.inorder := by
              rw [List.map_take, List.map_drop]
            have hDsplit : ((c0 :: cs2).map Node.inorder).drop (KL.length + 1) =
                (((c0 :: cs2).drop (KL.length + 1)).take (KM3.length + 1)).map Node.inorder ++ [cB.inorder] := by
              conv_lhs => rw [← List.take_append_drop (KM3.length + 1)
                (((c0 :: cs2).map Node.inorder).drop (KL.length + 1))]
              rw [hCMmap]
              congr 1
              rw [List.drop_drop,
                show KL.length + 1 + (KM3.length + 1) = KL.length + (KM3.length + 2) from by
                  omega,
                drop_eq_get?_cons _ _ _ hBgetls1,
                List.drop_eq_nil_of_le (by rw [List.length_map, List.length_cons]; omega)]
            have hq0e : (fun x : K × V => pred x.1 == PredicateResult.Match) km0 = true := hq0
            have hTEfilter : ((interleave ((((c0 :: cs2).drop (KL.length + 1)).take (KM3.length + 1)).map Node.inorder) (km1 :: KM3)).filter fun x => pred x.1 == PredicateResult.Match) =
                (interleave ((((c0 :: cs2).drop (KL.length + 1)).take (KM3.length + 1)).map Node.inorder) (km1 :: KM3)) := by
              rw [List.filter_eq_self]
              intro x hx
              simp [hTfull x hx]
            have hMfull : ((interleave ((c0 :: cs2).map Node.inorder) kvs).filter
                fun x => pred x.1 == PredicateResult.Match) =
                (cA.inorder.filter fun x => pred x.1 == PredicateResult.Match) ++
                km0 :: ((interleave ((((c0 :: cs2).drop (KL.length + 1)).take (KM3.length + 1)).map Node.inorder) (km1 :: KM3)) ++ (cB.inorder.filter
                  fun x => pred x.1 == PredicateResult.Match)) := by
              conv_lhs => rw [hdecls, hdec2]
              rw [interleave_append _ _ _ _ htklen, List.filter_append, hLeftNil,
                List.nil_append, drop_eq_get?_cons _ _ _ hAgetls]
              rw [show (km0 :: km1 :: KM3) ++ ([] : List (K × V)) = km0 :: km1 :: KM3 from by
                simp]
              rw [show interleave
                  (cA.inorder :: ((c0 :: cs2).map Node.inorder).drop (KL.length + 1))
                  (km0 :: km1 :: KM3) =
                  cA.inorder ++ km0 :: interleave
                    (((c0 :: cs2).map Node.inorder).drop (KL.length + 1)) (km1 :: KM3)
                  from rfl]
              rw [hDsplit]
              conv_lhs => rw [show (km1 :: KM3) = (km1 :: KM3) ++ ([] : List (K × V)) from by
                simp]
              rw [interleave_append _ _ _ _ hCMmaplen,
                show interleave [cB.inorder] ([] : List (K × V)) =
                  cB.inorder ++ interleave [] [] from rfl,
                show interleave ([] : List (List (K × V))) [] = [] from rfl,
                List.append_nil]
              rw [List.filter_append, List.filter_cons_of_pos
                (p := fun x : K × V => pred x.1 == PredicateResult.Match) (a := km0) hq0e,
                List.filter_append, hTEfilter]
            simp only [Node.find_key_range, hscan]
            split
            · rename_i p heq
              split at heq
              · rename_i heq2
                rw [hAget] at heq2
                exact Option.noConfusion heq2
              · rename_i c heq2
                rw [hAget] at heq2
                obtain rfl : cA = c := Option.some.inj heq2
                rw [hihA] at heq
                have heq3 : (match spanCount (c0 :: cs2) KL.length
                    ((((KL.length, km0.1) :: (KL.length + 1, km1.1) :: (List.range' (KL.length + 1 + 1) KM3.length).zip (KM3.map Prod.fst))).getLast (List.cons_ne_nil _ _)).1 with
                    | Except.error p2 => Except.error p2
                    | Except.ok cnt2 => Except.ok
                        (((KeyRangeResult.none.merge_into
                          (krOf (matchedKeys pred cA))).merge_into
                          (KeyRangeResult.some km0.1 km0.1 1)).merge_into
                          (KeyRangeResult.some km0.1
                            ((((KL.length, km0.1) :: (KL.length + 1, km1.1) :: (List.range' (KL.length + 1 + 1) KM3.length).zip (KM3.map Prod.fst))).getLast (List.cons_ne_nil _ _)).2 cnt2))) =
                    Except.error p := heq
                split at heq3
                · rename_i p2 hsp
                  rw [hlast1] at hsp
                  rw [hspan] at hsp
                  exact Except.noConfusion hsp
                · rename_i cnt2 hsp
                  exact Except.noConfusion heq3
            · rename_i r2 heq
              split at heq
              · rename_i heq2
                rw [hAget] at heq2
                exact Option.noConfusion heq2
              · rename_i c heq2
                rw [hAget] at heq2
                obtain rfl : cA = c := Option.some.inj heq2
                rw [hihA] at heq
                have heq3 : (match spanCount (c0 :: cs2) KL.length
                    ((((KL.length, km0.1) :: (KL.length + 1, km1.1) :: (List.range' (KL.length + 1 + 1) KM3.length).zip (KM3.map Prod.fst))).getLast (List.cons_ne_nil _ _)).1 with
                    | Except.error p2 => Except.error p2
                    | Except.ok cnt2 => Except.ok
                        (((KeyRangeResult.none.merge_into
                          (krOf (matchedKeys pred cA))).merge_into
                          (KeyRangeResult.some km0.1 km0.1 1)).merge_into
                          (KeyRangeResult.some km0.1
                            ((((KL.length, km0.1) :: (KL.length + 1, km1.1) :: (List.range' (KL.length + 1 + 1) KM3.length).zip (KM3.map Prod.fst))).getLast (List.cons_ne_nil _ _)).2 cnt2))) =
                    Except.ok r2 := heq
                split at heq3
                · rename_i p2 hsp
                  rw [hlast1] at hsp
                  rw [hspan] at hsp
                  exact Except.noConfusion hsp
                · rename_i cnt2 hsp
                  rw [hlast1] at hsp
                  rw [hspan] at hsp
                  obtain rfl : sumCounts (((c0 :: cs2).drop (KL.length + 1)).take (KM3.length + 1)) + (KM3.length + 1) = cnt2 :=
                    Except.ok.inj hsp
                  obtain rfl : ((KeyRangeResult.none.merge_into
                      (krOf (matchedKeys pred cA))).merge_into
                      (KeyRangeResult.some km0.1 km0.1 1)).merge_into
                      (KeyRangeResult.some km0.1
                        ((((KL.length, km0.1) :: (KL.length + 1, km1.1) :: (List.range' (KL.length + 1 + 1) KM3.length).zip (KM3.map Prod.fst))).getLast (List.cons_ne_nil _ _)).2
                        (sumCounts (((c0 :: cs2).drop (KL.length + 1)).take (KM3.length + 1)) + (KM3.length + 1))) = r2 :=
                    Except.ok.inj heq3
                  split
                  · rename_i heq6
                    rw [hBget1] at heq6
                    exact Option.noConfusion heq6
                  · rename_i c2 heq6
                    rw [hBget1] at heq6
                    obtain rfl : cB = c2 := Option.some.inj heq6
                    rw [hihB]
                    show Except.ok ((((KeyRangeResult.none.merge_into
                        (krOf (matchedKeys pred cA))).merge_into
                        (KeyRangeResult.some km0.1 km0.1 1)).merge_into
                        (KeyRangeResult.some km0.1
                          ((((KL.length, km0.1) :: (KL.length + 1, km1.1) :: (List.range' (KL.length + 1 + 1) KM3.length).zip (KM3.map Prod.fst))).getLast (List.cons_ne_nil _ _)).2
                          (sumCounts (((c0 :: cs2).drop (KL.length + 1)).take (KM3.length + 1)) + (KM3.length + 1)))).merge_into
                        (krOf (matchedKeys pred cB))) = _
                    rw [hlast2]
                    rw [merge_none_left,
                      merge_assoc (krOf (matchedKeys pred cA))
                        (KeyRangeResult.some km0.1 km0.1 1)
                        (KeyRangeResult.some km0.1 (((km0 :: km1 :: KM3).getLast (List.cons_ne_nil km0 (km1 :: KM3))).1)
                          (sumCounts (((c0 :: cs2).drop (KL.length + 1)).take (KM3.length + 1)) + (KM3.length + 1))),
                      krOf_cons_merge km0.1 (((km0 :: km1 :: KM3).getLast (List.cons_ne_nil km0 (km1 :: KM3))).1) ((interleave ((((c0 :: cs2).drop (KL.length + 1)).take (KM3.length + 1)).map Node.inorder) (km1 :: KM3)).map Prod.fst)
                        (sumCounts (((c0 :: cs2).drop (KL.length + 1)).take (KM3.length + 1)) + (KM3.length + 1)) hTkne hTklast hTklen
                        (le_of_lt hkm0klast),
                      krOf_merge (matchedKeys pred cA) (km0.1 :: (interleave ((((c0 :: cs2).drop (KL.length + 1)).take (KM3.length + 1)).map Node.inorder) (km1 :: KM3)).map Prod.fst)
                        (fun x hx y hy => by
                          rcases List.mem_cons.mp hy with rfl | hy2
                          · exact le_of_lt (hAkeys x hx)
                          · obtain ⟨x2, hx2, rfl⟩ := List.mem_map.mp hy2
                            exact le_of_lt (lt_trans (hAkeys x hx) (hTk_lo x2 hx2))),
                      krOf_merge (matchedKeys pred cA ++ km0.1 :: (interleave ((((c0 :: cs2).drop (KL.length + 1)).take (KM3.length + 1)).map Node.inorder) (km1 :: KM3)).map Prod.fst)
                        (matchedKeys pred cB)
                        (fun x hx y hy => by
                          have hyk := hBkeys y hy
                          rcases List.mem_append.mp hx with hx2 | hx2
                          · exact le_of_lt (lt_trans (lt_trans (hAkeys x hx2) hkm0klast) hyk)
                          · rcases List.mem_cons.mp hx2 with rfl | hx3
                            · exact le_of_lt (lt_trans hkm0klast hyk)
                            · obtain ⟨x2, hx4, rfl⟩ := List.mem_map.mp hx3
                              exact le_of_lt (lt_of_le_of_lt (hTk_hi x2 hx4) hyk))]
                    rw [hroot, hMfull]
                    congr 1
                    rw [List.map_append, List.map_cons, List.map_append, ← hmkc cA, ← hmkc cB]
                    rw [List.append_assoc, List.cons_append]
      | cons r0kv KR2 =>
        have hsepR0 : kvs.get? (KL.length + KM.length) = some r0kv := by
          have h3 := hsepKR 0
          rwa [Nat.add_zero] at h3
        cases KM with
        | nil =>
          -- no Match separator; the scan stops at the first Right separator
          -- and only the child left of it can hold matches
          have hscan : fkrScan pred kvs 0 Option.none =
              ⟨[], Option.none, Option.some KL.length⟩ := by
            conv_lhs => rw [hdec2]
            rw [fkrScan_left pred KL ([] ++ (r0kv :: KR2)) 0 Option.none hKL]
            simp only [List.nil_append]
            rw [fkrScan_right_cons pred r0kv KR2 _ _
              (hKR r0kv (List.mem_cons_self _ _))]
            simp
          have hsepR0a : kvs.get? KL.length = some r0kv := by
            have h3 := hsepR0
            rwa [show KL.length + ([] : List (K × V)).length = KL.length from
              by simp] at h3
          have hRightNil : ((interleaveSep
              (((c0 :: cs2).map Node.inorder).drop (KL.length + 1))
              (r0kv :: KR2)).filter
              fun x => pred x.1 == PredicateResult.Match) = [] := by
            rw [List.filter_eq_nil]
            intro x hx
            rcases mem_interleaveSep x _ _ hx with hxk | ⟨l, hl, hxl⟩
            · simp [hKR x hxk]
            · obtain ⟨i, hige, hgl⟩ := get?_of_mem_drop _ _ _ hl
              have hb := (interleave_sep_bounds _ kvs KL.length r0kv hlen2
                hsort hsepR0a).2.2.1 i l (by omega) hgl x hxl
              have h1 := hmono r0kv.1 x.1 (le_of_lt hb)
              rw [hKR r0kv (List.mem_cons_self _ _)] at h1
              have h2 : pred x.1 = .Right := rank_two_right _ h1
              simp [h2]
          have hMfull : ((interleave ((c0 :: cs2).map Node.inorder) kvs).filter
              fun x => pred x.1 == PredicateResult.Match) =
              cA.inorder.filter fun x => pred x.1 == PredicateResult.Match := by
            conv_lhs => rw [hdecls, hdec2]
            rw [interleave_append _ _ _ _ htklen, List.filter_append, hLeftNil,
              List.nil_append,
              drop_eq_get?_cons _ _ _ hAgetls]
            rw [show ([] : List (K × V)) ++ (r0kv :: KR2) = r0kv :: KR2 from
              rfl]
            rw [interleave_cons_child _ _ _ (by
              have h9 : cs2.length + 1 = kvs.length + 1 := by simpa using hlen
              have h10 : KL.length + (KR2.length + 1) = kvs.length := by
                simpa using hlensum
              simp [List.length_drop, List.length_map]
              omega)]
            rw [List.filter_append, hRightNil, List.append_nil]
          simp only [Node.find_key_range, hscan]
          split
          · rename_i p heq
            split at heq
            · rename_i c heq2
              rw [hAget] at heq2
              obtain rfl : cA = c := Option.some.inj heq2
              rw [hihA] at heq
              exact Except.noConfusion heq
            · rename_i heq2
              rw [hAget] at heq2
              exact Option.noConfusion heq2
          · rename_i r0 heq
            split at heq
            · rename_i c heq2
              rw [hAget] at heq2
              obtain rfl : cA = c := Option.some.inj heq2
              rw [hihA] at heq
              obtain rfl : krOf (matchedKeys pred cA) = r0 := Except.ok.inj heq
              rw [hroot, hMfull, ← hmkc cA]
            · rename_i heq2
              rw [hAget] at heq2
              exact Option.noConfusion heq2
        | cons km0 KM2 =>
          -- Match separators followed by at least one Right separator
          have hsepM0 : kvs.get? KL.length = some km0 := by
            have h3 := hsepKM 0 (by simp)
            rwa [Nat.add_zero] at h3
          have hm0match : pred km0.1 = .Match := hKM km0 (List.mem_cons_self _ _)
          have hq0 : (pred km0.1 == PredicateResult.Match) = true := by
            rw [hm0match]
            rfl
          have hlensum1 : KL.length + (KM2.length + 1) + (KR2.length + 1) = kvs.length := by
            simpa using hlensum
          obtain ⟨cB, hBget⟩ := hchild (KL.length + (KM2.length + 1)) (by omega)
          have hBgetls : ((c0 :: cs2).map Node.inorder).get?
              (KL.length + (KM2.length + 1)) = some cB.inorder := by
            rw [List.get?_map, hBget]
            rfl
          have hihB := ih cB (List.get?_mem hBget)
            (wf_child hwf cB (List.get?_mem hBget))
          have hAup : ∀ x ∈ cA.inorder, x.1 < km0.1 :=
            (interleave_sep_bounds _ kvs KL.length km0 hlen2 hsort hsepM0).1
              KL.length cA.inorder (le_refl _) hAgetls
          have hAkeys : ∀ k2 ∈ matchedKeys pred cA, k2 < km0.1 := by
            intro k2 hk2
            rw [hmkc] at hk2
            obtain ⟨x, hx, hfst⟩ := List.mem_map.mp hk2
            exact hfst ▸ hAup x (List.mem_of_mem_filter hx)
          have hklaste : kvs.get? (KL.length + KM2.length) =
              some ((km0 :: KM2).getLast (List.cons_ne_nil km0 KM2)) := by
            have h3 := hsepKM KM2.length (by simp)
            rw [h3, show KM2.length = (km0 :: KM2).length - 1 from by simp,
              get?_length_sub_one,
              List.getLast?_eq_getLast _ (List.cons_ne_nil km0 KM2)]
          have hBlo : ∀ x ∈ cB.inorder,
              ((km0 :: KM2).getLast (List.cons_ne_nil km0 KM2)).1 < x.1 := by
            have h3 := (interleave_sep_bounds _ kvs (KL.length + KM2.length)
              ((km0 :: KM2).getLast (List.cons_ne_nil km0 KM2)) hlen2 hsort
              hklaste).2.2.1 (KL.length + (KM2.length + 1)) cB.inorder
              (by omega) hBgetls
            exact h3
          have hBkeys : ∀ k2 ∈ matchedKeys pred cB,
              ((km0 :: KM2).getLast (List.cons_ne_nil km0 KM2)).1 < k2 := by
            intro k2 hk2
            rw [hmkc] at hk2
            obtain ⟨x, hx, hfst⟩ := List.mem_map.mp hk2
            exact hfst ▸ hBlo x (List.mem_of_mem_filter hx)
          cases KM2 with
          | nil =>
            -- exactly one Match separator before the first Right separator
            have h9a : cs2.length + 1 = kvs.length + 1 := by simpa using hlen
            have hlensum2 : KL.length + 1 + (KR2.length + 1) = kvs.length := by
              simpa using hlensum1
            have hBget1 : (c0 :: cs2).get? (KL.length + 1) = some cB := by
              simpa using hBget
            have hBgetls1 : ((c0 :: cs2).map Node.inorder).get? (KL.length + 1) =
                some cB.inorder := by
              simpa using hBgetls
            have hsepR0b : kvs.get? (KL.length + 1) = some r0kv := by
              simpa using hsepR0
            have hscan : fkrScan pred kvs 0 Option.none =
                ⟨[(KL.length, km0.1)], Option.none, Option.some (KL.length + 1)⟩ := by
              conv_lhs => rw [hdec2]
              rw [fkrScan_left pred KL ((km0 :: []) ++ (r0kv :: KR2)) 0 Option.none hKL,
                fkrScan_match pred (km0 :: []) (r0kv :: KR2) _ _ hKM,
                fkrScan_right_cons pred r0kv KR2 _ _ (hKR r0kv (List.mem_cons_self _ _))]
              simp
            have hRightNil : ((interleaveSep
                (((c0 :: cs2).map Node.inorder).drop (KL.length + 1 + 1))
                (r0kv :: KR2)).filter
                fun x => pred x.1 == PredicateResult.Match) = [] := by
              rw [List.filter_eq_nil]
              intro x hx
              rcases mem_interleaveSep x _ _ hx with hxk | ⟨l, hl, hxl⟩
              · simp [hKR x hxk]
              · obtain ⟨i, hige, hgl⟩ := get?_of_mem_drop _ _ _ hl
                have hb := (interleave_sep_bounds _ kvs (KL.length + 1) r0kv hlen2
                  hsort hsepR0b).2.2.1 i l (by omega) hgl x hxl
                have h1 := hmono r0kv.1 x.1 (le_of_lt hb)
                rw [hKR r0kv (List.mem_cons_self _ _)] at h1
                have h2 : pred x.1 = .Right := rank_two_right _ h1
                simp [h2]
            have hq0e : (fun x : K × V => pred x.1 == PredicateResult.Match) km0 =
                true := hq0
            have hMfull : ((interleave ((c0 :: cs2).map Node.inorder) kvs).filter
                fun x => pred x.1 == PredicateResult.Match) =
                (cA.inorder.filter fun x => pred x.1 == PredicateResult.Match) ++
                km0 :: (cB.inorder.filter
                  fun x => pred x.1 == PredicateResult.Match) := by
              conv_lhs => rw [hdecls, hdec2]
              rw [interleave_append _ _ _ _ htklen, List.filter_append, hLeftNil,
                List.nil_append, drop_eq_get?_cons _ _ _ hAgetls]
              rw [show (km0 :: []) ++ (r0kv :: KR2) = km0 :: r0kv :: KR2 from rfl]
              rw [show interleave
                  (cA.inorder :: ((c0 :: cs2).map Node.inorder).drop (KL.length + 1))
                  (km0 :: r0kv :: KR2) =
                  cA.inorder ++ km0 :: interleave
                    (((c0 :: cs2).map Node.inorder).drop (KL.length + 1))
                    (r0kv :: KR2) from rfl]
              rw [drop_eq_get?_cons _ _ _ hBgetls1]
              rw [interleave_cons_child _ _ _ (by
                simp only [List.length_drop, List.length_map, List.length_cons]
                omega)]
              rw [List.filter_append, List.filter_cons_of_pos
                (p := fun x : K × V => pred x.1 == PredicateResult.Match) (a := km0) hq0e,
                List.filter_append, hRightNil, List.append_nil]
            simp only [Node.find_key_range, hscan]
            split
            · rename_i p heq
              split at heq
              · rename_i c heq2
                rw [hBget1] at heq2
                obtain rfl : cB = c := Option.some.inj heq2
                rw [hihB] at heq
                exact Except.noConfusion heq
              · rename_i heq2
                rw [hBget1] at heq2
                exact Option.noConfusion heq2
            · rename_i r0 heq
              split at heq
              · rename_i c heq2
                rw [hBget1] at heq2
                obtain rfl : cB = c := Option.some.inj heq2
                rw [hihB] at heq
                obtain rfl : krOf (matchedKeys pred cB) = r0 := Except.ok.inj heq
                split
                · rename_i p heq3
                  split at heq3
                  · rename_i heq4
                    rw [hAget] at heq4
                    exact Option.noConfusion heq4
                  · rename_i c2 heq4
                    rw [hAget] at heq4
                    obtain rfl : cA = c2 := Option.some.inj heq4
                    rw [hihA] at heq3
                    have heq5 : Except.ok (((krOf (matchedKeys pred cB)).merge_into (krOf (matchedKeys pred cA))).merge_into (KeyRangeResult.some km0.1 km0.1 1)) =
                        Except.error p := heq3
                    exact Except.noConfusion heq5
                · rename_i r2 heq3
                  split at heq3
                  · rename_i heq4
                    rw [hAget] at heq4
                    exact Option.noConfusion heq4
                  · rename_i c2 heq4
                    rw [hAget] at heq4
                    obtain rfl : cA = c2 := Option.some.inj heq4
                    rw [hihA] at heq3
                    have heq5 : Except.ok (((krOf (matchedKeys pred cB)).merge_into (krOf (matchedKeys pred cA))).merge_into (KeyRangeResult.some km0.1 km0.1 1)) =
                        Except.ok r2 := heq3
                    obtain rfl : ((krOf (matchedKeys pred cB)).merge_into (krOf (matchedKeys pred cA))).merge_into (KeyRangeResult.some km0.1 km0.1 1) = r2 :=
                      Except.ok.inj heq5
                    rw [merge_comm (krOf (matchedKeys pred cB)) (krOf (matchedKeys pred cA)),
                      merge_assoc (krOf (matchedKeys pred cA)) (krOf (matchedKeys pred cB)) (KeyRangeResult.some km0.1 km0.1 1),
                      merge_comm (krOf (matchedKeys pred cB)) (KeyRangeResult.some km0.1 km0.1 1),
                      ← merge_assoc (krOf (matchedKeys pred cA)) (KeyRangeResult.some km0.1 km0.1 1) (krOf (matchedKeys pred cB)),
                      show KeyRangeResult.some km0.1 km0.1 1 = krOf [km0.1] from rfl,
                      krOf_merge _ _ (fun x hx y hy => by
                        rcases List.mem_singleton.mp hy with rfl
                        exact le_of_lt (hAkeys x hx)),
                      krOf_merge _ _ (fun x hx y hy => by
                        rcases List.mem_append.mp hx with hx2 | hx2
                        · exact le_of_lt (lt_trans (hAkeys x hx2)
                            (by simpa using hBkeys y hy))
                        · rcases List.mem_singleton.mp hx2 with rfl
                          exact le_of_lt (by simpa using hBkeys y hy))]
                    rw [hroot, hMfull]
                    congr 1
                    rw [List.map_append, List.map_cons, ← hmkc cA, ← hmkc cB]
                    rw [List.append_assoc]
                    rfl
              · rename_i heq2
                rw [hBget1] at heq2
                exact Option.noConfusion heq2
          | cons km1 KM3 =>
            -- two or more Match separators then a Right separator: span branch
            have h9a : cs2.length + 1 = kvs.length + 1 := by simpa using hlen
            have hblen1 : KL.length + (KM3.length + 2) + (KR2.length + 1) =
                kvs.length := by
              simpa using hlensum1
            have hBget1 : (c0 :: cs2).get? (KL.length + (KM3.length + 2)) = some cB := by
              simpa using hBget
            have hBgetls1 : ((c0 :: cs2).map Node.inorder).get?
                (KL.length + (KM3.length + 2)) = some cB.inorder := by
              simpa using hBgetls
            have hsepR0c : kvs.get? (KL.length + (KM3.length + 2)) = some r0kv := by
              simpa using hsepR0
            have hCMlen : (((c0 :: cs2).drop (KL.length + 1)).take (KM3.length + 1)).length = KM3.length + 1 := by
              rw [List.length_take, List.length_drop]
              simp only [List.length_cons]
              omega
            have hCMget : ∀ (j : Nat) (c : Node K V), (((c0 :: cs2).drop (KL.length + 1)).take (KM3.length + 1)).get? j = some c →
                (c0 :: cs2).get? (KL.length + 1 + j) = some c := by
              intro j c hj
              have hjl : j < (((c0 :: cs2).drop (KL.length + 1)).take (KM3.length + 1)).length := by
                by_contra hq
                rw [List.get?_eq_none.mpr (Nat.le_of_not_lt hq)] at hj
                exact Option.noConfusion hj
              have hjlt : j < KM3.length + 1 := by rwa [hCMlen] at hjl
              rw [List.get?_take hjlt, List.get?_drop] at hj
              exact hj
            have hCMmem : ∀ c ∈ (((c0 :: cs2).drop (KL.length + 1)).take (KM3.length + 1)), c ∈ (c0 :: cs2) := fun c hc =>
              List.mem_of_mem_drop (List.mem_of_mem_take hc)
            have hCMmaplen : ((((c0 :: cs2).drop (KL.length + 1)).take (KM3.length + 1)).map Node.inorder).length = (km1 :: KM3).length := by
              rw [List.length_map, hCMlen, List.length_cons]
            have hscan : fkrScan pred kvs 0 Option.none =
                ⟨((KL.length, km0.1) :: (KL.length + 1, km1.1) :: (List.range' (KL.length + 1 + 1) KM3.length).zip (KM3.map Prod.fst)), Option.none, Option.some (KL.length + (KM3.length + 2))⟩ := by
              conv_lhs => rw [hdec2]
              rw [fkrScan_left pred KL ((km0 :: km1 :: KM3) ++ (r0kv :: KR2)) 0
                  Option.none hKL,
                fkrScan_match pred (km0 :: km1 :: KM3) (r0kv :: KR2) _ _ hKM,
                fkrScan_right_cons pred r0kv KR2 _ _ (hKR r0kv (List.mem_cons_self _ _))]
              simp [List.range']
            have hZeq : ((KL.length, km0.1) :: (KL.length + 1, km1.1) :: (List.range' (KL.length + 1 + 1) KM3.length).zip (KM3.map Prod.fst)) =
                (List.range' KL.length ((km0.1 :: km1.1 :: KM3.map Prod.fst).length)).zip
                  (km0.1 :: km1.1 :: KM3.map Prod.fst) := by
              rw [show (km0.1 :: km1.1 :: KM3.map Prod.fst).length = KM3.length + 1 + 1
                from by simp only [List.length_cons, List.length_map]]
              rfl
            have hks : (km0.1 :: km1.1 :: KM3.map Prod.fst).getLast? =
                some (((km0 :: km1 :: KM3).getLast (List.cons_ne_nil km0 (km1 :: KM3))).1) := by
              rw [show km0.1 :: km1.1 :: KM3.map Prod.fst =
                  (km0 :: km1 :: KM3).map Prod.fst from rfl,
                getLast?_map_fst,
                List.getLast?_eq_getLast _ (List.cons_ne_nil km0 (km1 :: KM3))]
              rfl
            have hZlast : (((KL.length, km0.1) :: (KL.length + 1, km1.1) :: (List.range' (KL.length + 1 + 1) KM3.length).zip (KM3.map Prod.fst))).getLast? =
                some (KL.length + KM3.length + 1, ((km0 :: km1 :: KM3).getLast (List.cons_ne_nil km0 (km1 :: KM3))).1) := by
              rw [hZeq, zip_range_getLast? _ _ _ hks,
                show KL.length + (km0.1 :: km1.1 :: KM3.map Prod.fst).length - 1 =
                  KL.length + KM3.length + 1 from by
                  simp only [List.length_cons, List.length_map]; omega]
            have hlastval : (((KL.length, km0.1) :: (KL.length + 1, km1.1) :: (List.range' (KL.length + 1 + 1) KM3.length).zip (KM3.map Prod.fst))).getLast (List.cons_ne_nil _ _) =
                (KL.length + KM3.length + 1, ((km0 :: km1 :: KM3).getLast (List.cons_ne_nil km0 (km1 :: KM3))).1) :=
              getLast_eq_of_getLast? _ _ _ hZlast
            have hlast1 : ((((KL.length, km0.1) :: (KL.length + 1, km1.1) :: (List.range' (KL.length + 1 + 1) KM3.length).zip (KM3.map Prod.fst))).getLast (List.cons_ne_nil _ _)).1 =
                KL.length + KM3.length + 1 := congrArg Prod.fst hlastval
            have hlast2 : ((((KL.length, km0.1) :: (KL.length + 1, km1.1) :: (List.range' (KL.length + 1 + 1) KM3.length).zip (KM3.map Prod.fst))).getLast (List.cons_ne_nil _ _)).2 =
                ((km0 :: km1 :: KM3).getLast (List.cons_ne_nil km0 (km1 :: KM3))).1 := congrArg Prod.snd hlastval
            have hspan0 := spanCount_eq (c0 :: cs2) KL.length (((c0 :: cs2).drop (KL.length + 1)).take (KM3.length + 1)) hCMget
            rw [hCMlen] at hspan0
            have hspan : spanCount (c0 :: cs2) KL.length (KL.length + KM3.length + 1) =
                .ok (sumCounts (((c0 :: cs2).drop (KL.length + 1)).take (KM3.length + 1)) + (KM3.length + 1)) := by
              rwa [show KL.length + (KM3.length + 1) = KL.length + KM3.length + 1 from by
                omega] at hspan0
            have hklastval : (km1 :: KM3).getLast? = some ((km0 :: km1 :: KM3).getLast (List.cons_ne_nil km0 (km1 :: KM3))) := by
              have h1 := List.getLast?_eq_getLast (km0 :: km1 :: KM3)
                (List.cons_ne_nil km0 (km1 :: KM3))
              rw [List.getLast?_cons_cons] at h1
              exact h1
            have hTklast : ((interleave ((((c0 :: cs2).drop (KL.length + 1)).take (KM3.length + 1)).map Node.inorder) (km1 :: KM3)).map Prod.fst).getLast? = some (((km0 :: km1 :: KM3).getLast (List.cons_ne_nil km0 (km1 :: KM3))).1) := by
              rw [getLast?_map_fst,
                interleave_eq_getLast? _ _ hCMmaplen (List.cons_ne_nil km1 KM3),
                hklastval]
              rfl
            have hkm0klast : km0.1 < ((km0 :: km1 :: KM3).getLast (List.cons_ne_nil km0 (km1 :: KM3))).1 :=
              (interleave_sep_bounds _ kvs (KL.length + (km1 :: KM3).length) ((km0 :: km1 :: KM3).getLast (List.cons_ne_nil km0 (km1 :: KM3)))
                hlen2 hsort hklaste).2.1 KL.length km0
                (by simp only [List.length_cons]; omega) hsepM0
            have hTfull : ∀ x ∈ (interleave ((((c0 :: cs2).drop (KL.length + 1)).take (KM3.length + 1)).map Node.inorder) (km1 :: KM3)), pred x.1 = PredicateResult.Match := by
              intro x hx
              rcases (mem_interleave x _ _).mp hx with ⟨l, hl, hxl⟩ | hxk
              · obtain ⟨c, hcmem, rfl⟩ := List.mem_map.mp hl
                obtain ⟨i, hi⟩ := List.get_of_mem hcmem
                have hget : (((c0 :: cs2).drop (KL.length + 1)).take (KM3.length + 1)).get? i.1 = some c := by
                  rw [List.get?_eq_get i.2, hi]
                have hilt : i.1 < KM3.length + 1 := by
                  have h5 := i.2
                  simp only [List.length_take, List.length_drop,
                    List.length_cons] at h5
                  omega
                have hcs := hCMget i.1 c hget
                have hcsls : ((c0 :: cs2).map Node.inorder).get? (KL.length + 1 + i.1) =
                    some c.inorder := by
                  rw [List.get?_map, hcs]
                  rfl
                have hkmi : ∃ kmi, kvs.get? (KL.length + i.1) = some kmi ∧
                    kmi ∈ (km0 :: km1 :: KM3) := by
                  have h3 := hsepKM i.1 (by simp only [List.length_cons]; omega)
                  cases hq : (km0 :: km1 :: KM3).get? i.1 with
                  | none =>
                    rw [List.get?_eq_none] at hq
                    simp only [List.length_cons] at hq
                    omega
                  | some kmi => exact ⟨kmi, by rw [h3, hq], List.get?_mem hq⟩
                obtain ⟨kmi, hkig, hkim⟩ := hkmi
                have hlow := (interleave_sep_bounds _ kvs (KL.length + i.1) kmi hlen2
                  hsort hkig).2.2.1 (KL.length + 1 + i.1) c.inorder (by omega) hcsls x hxl
                have hkmi1 : ∃ kmj, kvs.get? (KL.length + (i.1 + 1)) = some kmj ∧
                    kmj ∈ (km0 :: km1 :: KM3) := by
                  have h3 := hsepKM (i.1 + 1) (by simp only [List.length_cons]; omega)
                  cases hq : (km0 :: km1 :: KM3).get? (i.1 + 1) with
                  | none =>
                    rw [List.get?_eq_none] at hq
                    simp only [List.length_cons] at hq
                    omega
                  | some kmj => exact ⟨kmj, by rw [h3, hq], List.get?_mem hq⟩
                obtain ⟨kmj, hkjg, hkjm⟩ := hkmi1
                have hup := (interleave_sep_bounds _ kvs (KL.length + (i.1 + 1)) kmj
                  hlen2 hsort hkjg).1 (KL.length + 1 + i.1) c.inorder (by omega) hcsls
                  x hxl
                have h1 := hmono kmi.1 x.1 (le_of_lt hlow)
                rw [hKM kmi hkim] at h1
                have h2 := hmono x.1 kmj.1 (le_of_lt hup)
                rw [hKM kmj hkjm] at h2
                exact rank_one_match _ h1 h2
              · exact hKM x (List.mem_cons_of_mem km0 hxk)
            have hTk_lo : ∀ x ∈ (interleave ((((c0 :: cs2).drop (KL.length + 1)).take (KM3.length + 1)).map Node.inorder) (km1 :: KM3)), km0.1 < x.1 := by
              intro x hx
              rcases (mem_interleave x _ _).mp hx with ⟨l, hl, hxl⟩ | hxk
              · obtain ⟨c, hcmem, rfl⟩ := List.mem_map.mp hl
                obtain ⟨i, hi⟩ := List.get_of_mem hcmem
                have hget : (((c0 :: cs2).drop (KL.length + 1)).take (KM3.length + 1)).get? i.1 = some c := by
                  rw [List.get?_eq_get i.2, hi]
                have hcs := hCMget i.1 c hget
                have hcsls : ((c0 :: cs2).map Node.inorder).get? (KL.length + 1 + i.1) =
                    some c.inorder := by
                  rw [List.get?_map, hcs]
                  rfl
                exact (interleave_sep_bounds _ kvs KL.length km0 hlen2 hsort
                  hsepM0).2.2.1 (KL.length + 1 + i.1) c.inorder (by omega) hcsls x hxl
              · obtain ⟨i, hi⟩ := List.get_of_mem hxk
                have hgk : (km1 :: KM3).get? i.1 = some x := by
                  rw [List.get?_eq_get i.2, hi]
                have hilt2 : i.1 < KM3.length + 1 := by
                  have h5 := i.2
                  simp only [List.length_cons] at h5
                  exact h5
                have h3 := hsepKM (i.1 + 1) (by simp only [List.length_cons]; omega)
                have hgk2 : kvs.get? (KL.length + (i.1 + 1)) = some x := by
                  rw [h3]
                  exact hgk
                exact (interleave_sep_bounds _ kvs KL.length km0 hlen2 hsort
                  hsepM0).2.2.2 (KL.length + (i.1 + 1)) x (by omega) hgk2
            have hTk_hi : ∀ x ∈ (interleave ((((c0 :: cs2).drop (KL.length + 1)).take (KM3.length + 1)).map Node.inorder) (km1 :: KM3)), x.1 ≤ ((km0 :: km1 :: KM3).getLast (List.cons_ne_nil km0 (km1 :: KM3))).1 := by
              intro x hx
              rcases (mem_interleave x _ _).mp hx with ⟨l, hl, hxl⟩ | hxk
              · obtain ⟨c, hcmem, rfl⟩ := List.mem_map.mp hl
                obtain ⟨i, hi⟩ := List.get_of_mem hcmem
                have hget : (((c0 :: cs2).drop (KL.length + 1)).take (KM3.length + 1)).get? i.1 = some c := by
                  rw [List.get?_eq_get i.2, hi]
                have hilt : i.1 < KM3.length + 1 := by
                  have h5 := i.2
                  simp only [List.length_take, List.length_drop,
                    List.length_cons] at h5
                  omega
                have hcs := hCMget i.1 c hget
                have hcsls : ((c0 :: cs2).map Node.inorder).get? (KL.length + 1 + i.1) =
                    some c.inorder := by
                  rw [List.get?_map, hcs]
                  rfl
                exact le_of_lt ((interleave_sep_bounds _ kvs
                  (KL.length + (km1 :: KM3).length) ((km0 :: km1 :: KM3).getLast (List.cons_ne_nil km0 (km1 :: KM3))) hlen2 hsort hklaste).1
                  (KL.length + 1 + i.1) c.inorder
                  (by simp only [List.length_cons]; omega) hcsls x hxl)
              · obtain ⟨i, hi⟩ := List.get_of_mem hxk
                have hgk : (km1 :: KM3).get? i.1 = some x := by
                  rw [List.get?_eq_get i.2, hi]
                have hilt2 : i.1 < KM3.length + 1 := by
                  have h5 := i.2
                  simp only [List.length_cons] at h5
                  exact h5
                have h3 := hsepKM (i.1 + 1) (by simp only [List.length_cons]; omega)
                have hgk2 : kvs.get? (KL.length + (i.1 + 1)) = some x := by
                  rw [h3]
                  exact hgk
                rcases Nat.lt_or_ge i.1 KM3.length with hltl | hgel
                · exact le_of_lt ((interleave_sep_bounds _ kvs
                    (KL.length + (km1 :: KM3).length) ((km0 :: km1 :: KM3).getLast (List.cons_ne_nil km0 (km1 :: KM3))) hlen2 hsort hklaste).2.1
                    (KL.length + (i.1 + 1)) x (by simp only [List.length_cons]; omega)
                    hgk2)
                · have hgk3 : kvs.get? (KL.length + (km1 :: KM3).length) = some x := by
                    rw [show KL.length + (km1 :: KM3).length = KL.length + (i.1 + 1)
                      from by simp only [List.length_cons]; omega]
                    exact hgk2
                  have h5 : x = ((km0 :: km1 :: KM3).getLast (List.cons_ne_nil km0 (km1 :: KM3))) := Option.some.inj (hgk3.symm.trans hklaste)
                  rw [h5]
            have hTElen : (interleave ((((c0 :: cs2).drop (KL.length + 1)).take (KM3.length + 1)).map Node.inorder) (km1 :: KM3)).length = sumCounts (((c0 :: cs2).drop (KL.length + 1)).take (KM3.length + 1)) + (KM3.length + 1) := by
              rw [length_interleave, List.map_map]
              rw [show ((((c0 :: cs2).drop (KL.length + 1)).take (KM3.length + 1)).map (List.length ∘ Node.inorder)) =
                  (((c0 :: cs2).drop (KL.length + 1)).take (KM3.length + 1)).map Node.count from
                List.map_congr_left fun c hc => inorder_length c (hccount c (hCMmem c hc))]
              rw [← sumCounts_eq_sum_map, List.length_cons]
            have hTEne : (interleave ((((c0 :: cs2).drop (KL.length + 1)).take (KM3.length + 1)).map Node.inorder) (km1 :: KM3)) ≠ [] := by
              intro h0
              have h1 := congrArg List.length h0
              rw [hTElen] at h1
              simp only [List.length_nil] at h1
              omega
            have hTkne : (interleave ((((c0 :: cs2).drop (KL.length + 1)).take (KM3.length + 1)).map Node.inorder) (km1 :: KM3)).map Prod.fst ≠ [] := by
              intro h0
              exact hTEne (List.map_eq_nil.mp h0)
            have hTklen : sumCounts (((c0 :: cs2).drop (KL.length + 1)).take (KM3.length + 1)) + (KM3.length + 1) =
                ((interleave ((((c0 :: cs2).drop (KL.length + 1)).take (KM3.length + 1)).map Node.inorder) (km1 :: KM3)).map Prod.fst).length := by
              rw [List.length_map, hTElen]
            have hCMmap : (((c0 :: cs2).map Node.inorder).drop (KL.length + 1)).take
                (KM3.length + 1) = (((c0 :: cs2).drop (KL.length + 1)).take (KM3.length + 1)).map Node.inorder := by
              rw [List.map_take, List.map_drop]
            have hDsplit : ((c0 :: cs2).map Node.inorder).drop (KL.length + 1) =
                (((c0 :: cs2).drop (KL.length + 1)).take (KM3.length + 1)).map Node.inorder ++ (cB.inorder ::
                  ((c0 :: cs2).map Node.inorder).drop
                    (KL.length + (KM3.length + 2) + 1)) := by
              conv_lhs => rw [← List.take_append_drop (KM3.length + 1)
                (((c0 :: cs2).map Node.inorder).drop (KL.length + 1))]
              rw [hCMmap]
              congr 1
              rw [List.drop_drop,
                show KL.length + 1 + (KM3.length + 1) = KL.length + (KM3.length + 2)
                  from by omega,
                drop_eq_get?_cons _ _ _ hBgetls1]
            have hRightNil : ((interleaveSep
                (((c0 :: cs2).map Node.inorder).drop (KL.length + (KM3.length + 2) + 1))
                (r0kv :: KR2)).filter
                fun x => pred x.1 == PredicateResult.Match) = [] := by
              rw [List.filter_eq_nil]
              intro x hx
              rcases mem_interleaveSep x _ _ hx with hxk | ⟨l, hl, hxl⟩
              · simp [hKR x hxk]
              · obtain ⟨i, hige, hgl⟩ := get?_of_mem_drop _ _ _ hl
                have hb := (interleave_sep_bounds _ kvs (KL.length + (KM3.length + 2))
                  r0kv hlen2 hsort hsepR0c).2.2.1 i l (by omega) hgl x hxl
                have h1 := hmono r0kv.1 x.1 (le_of_lt hb)
                rw [hKR r0kv (List.mem_cons_self _ _)] at h1
                have h2 : pred x.1 = .Right := rank_two_right _ h1
                simp [h2]
            have hq0e : (fun x : K × V => pred x.1 == PredicateResult.Match) km0 =
                true := hq0
            have hTEfilter : ((interleave ((((c0 :: cs2).drop (KL.length + 1)).take (KM3.length + 1)).map Node.inorder) (km1 :: KM3)).filter fun x => pred x.1 == PredicateResult.Match) =
                (interleave ((((c0 :: cs2).drop (KL.length + 1)).take (KM3.length + 1)).map Node.inorder) (km1 :: KM3)) := by
              rw [List.filter_eq_self]
              intro x hx
              simp [hTfull x hx]
            have hMfull : ((interleave ((c0 :: cs2).map Node.inorder) kvs).filter
                fun x => pred x.1 == PredicateResult.Match) =
                (cA.inorder.filter fun x => pred x.1 == PredicateResult.Match) ++
                km0 :: ((interleave ((((c0 :: cs2).drop (KL.length + 1)).take (KM3.length + 1)).map Node.inorder) (km1 :: KM3)) ++ (cB.inorder.filter
                  fun x => pred x.1 == PredicateResult.Match)) := by
              conv_lhs => rw [hdecls, hdec2]
              rw [interleave_append _ _ _ _ htklen, List.filter_append, hLeftNil,
                List.nil_append, drop_eq_get?_cons _ _ _ hAgetls]
              rw [show (km0 :: km1 :: KM3) ++ (r0kv :: KR2) =
                km0 :: ((km1 :: KM3) ++ (r0kv :: KR2)) from rfl]
              rw [show interleave
                  (cA.inorder :: ((c0 :: cs2).map Node.inorder).drop (KL.length + 1))
                  (km0 :: ((km1 :: KM3) ++ (r0kv :: KR2))) =
                  cA.inorder ++ km0 :: interleave
                    (((c0 :: cs2).map Node.inorder).drop (KL.length + 1))
                    ((km1 :: KM3) ++ (r0kv :: KR2)) from rfl]
              rw [hDsplit]
              rw [interleave_append _ _ _ _ hCMmaplen]
              rw [interleave_cons_child _ _ _ (by
                simp only [List.length_drop, List.length_map, List.length_cons]
                omega)]
              rw [List.filter_append, List.filter_cons_of_pos
                (p := fun x : K × V => pred x.1 == PredicateResult.Match) (a := km0) hq0e,
                List.filter_append, hTEfilter, List.filter_append, hRightNil,
                List.append_nil]
            simp only [Node.find_key_range, hscan]
            split
            · rename_i p heq
              split at heq
              · rename_i c heq2
                rw [hBget1] at heq2
                obtain rfl : cB = c := Option.some.inj heq2
                rw [hihB] at heq
                exact Except.noConfusion heq
              · rename_i heq2
                rw [hBget1] at heq2
                exact Option.noConfusion heq2
            · rename_i r0 heq
              split at heq
              · rename_i c heq2
                rw [hBget1] at heq2
                obtain rfl : cB = c := Option.some.inj heq2
                rw [hihB] at heq
                obtain rfl : krOf (matchedKeys pred cB) = r0 := Except.ok.inj heq
                split
                · rename_i p heq3
                  split at heq3
                  · rename_i heq4
                    rw [hAget] at heq4
                    exact Option.noConfusion heq4
                  · rename_i c2 heq4
                    rw [hAget] at heq4
                    obtain rfl : cA = c2 := Option.some.inj heq4
                    rw [hihA] at heq3
                    have heq5 : (match spanCount (c0 :: cs2) KL.length
                        ((((KL.length, km0.1) :: (KL.length + 1, km1.1) :: (List.range' (KL.length + 1 + 1) KM3.length).zip (KM3.map Prod.fst))).getLast (List.cons_ne_nil _ _)).1 with
                        | Except.error p2 => Except.error p2
                        | Except.ok cnt2 => Except.ok
                            ((((krOf (matchedKeys pred cB)).merge_into (krOf (matchedKeys pred cA))).merge_into (KeyRangeResult.some km0.1 km0.1 1)).merge_into
                              (KeyRangeResult.some km0.1
                                ((((KL.length, km0.1) :: (KL.length + 1, km1.1) :: (List.range' (KL.length + 1 + 1) KM3.length).zip (KM3.map Prod.fst))).getLast (List.cons_ne_nil _ _)).2 cnt2))) =
                        Except.error p := heq3
                    split at heq5
                    · rename_i p2 hsp
                      rw [hlast1] at hsp
                      rw [hspan] at hsp
                      exact Except.noConfusion hsp
                    · rename_i cnt2 hsp
                      exact Except.noConfusion heq5
                · rename_i r2 heq3
                  split at heq3
                  · rename_i heq4
                    rw [hAget] at heq4
                    exact Option.noConfusion heq4
                  · rename_i c2 heq4
                    rw [hAget] at heq4
                    obtain rfl : cA = c2 := Option.some.inj heq4
                    rw [hihA] at heq3
                    have heq5 : (match spanCount (c0 :: cs2) KL.length
                        ((((KL.length, km0.1) :: (KL.length + 1, km1.1) :: (List.range' (KL.length + 1 + 1) KM3.length).zip (KM3.map Prod.fst))).getLast (List.cons_ne_nil _ _)).1 with
                        | Except.error p2 => Except.error p2
                        | Except.ok cnt2 => Except.ok
                            ((((krOf (matchedKeys pred cB)).merge_into (krOf (matchedKeys pred cA))).merge_into (KeyRangeResult.some km0.1 km0.1 1)).merge_into
                              (KeyRangeResult.some km0.1
                                ((((KL.length, km0.1) :: (KL.length + 1, km1.1) :: (List.range' (KL.length + 1 + 1) KM3.length).zip (KM3.map Prod.fst))).getLast (List.cons_ne_nil _ _)).2 cnt2))) =
                        Except.ok r2 := heq3
                    split at heq5
                    · rename_i p2 hsp
                      rw [hlast1] at hsp
                      rw [hspan] at hsp
                      exact Except.noConfusion hsp
                    · rename_i cnt2 hsp
                      rw [hlast1] at hsp
                      rw [hspan] at hsp
                      obtain rfl : sumCounts (((c0 :: cs2).drop (KL.length + 1)).take (KM3.length + 1)) + (KM3.length + 1) = cnt2 :=
                        Except.ok.inj hsp
                      obtain rfl : (((krOf (matchedKeys pred cB)).merge_into (krOf (matchedKeys pred cA))).merge_into (KeyRangeResult.some km0.1 km0.1 1)).merge_into
                          (KeyRangeResult.some km0.1
                            ((((KL.length, km0.1) :: (KL.length + 1, km1.1) :: (List.range' (KL.length + 1 + 1) KM3.length).zip (KM3.map Prod.fst))).getLast (List.cons_ne_nil _ _)).2
                            (sumCounts (((c0 :: cs2).drop (KL.length + 1)).take (KM3.length + 1)) + (KM3.length + 1))) = r2 :=
                        Except.ok.inj heq5
                      rw [hlast2]
                      rw [merge_comm (krOf (matchedKeys pred cB)) (krOf (matchedKeys pred cA)),
                        merge_assoc (krOf (matchedKeys pred cA)) (krOf (matchedKeys pred cB)) (KeyRangeResult.some km0.1 km0.1 1),
                        merge_comm (krOf (matchedKeys pred cB)) (KeyRangeResult.some km0.1 km0.1 1),
                        ← merge_assoc (krOf (matchedKeys pred cA)) (KeyRangeResult.some km0.1 km0.1 1) (krOf (matchedKeys pred cB)),
                        merge_assoc ((krOf (matchedKeys pred cA)).merge_into (KeyRangeResult.some km0.1 km0.1 1)) (krOf (matchedKeys pred cB)) (KeyRangeResult.some km0.1 (((km0 :: km1 :: KM3).getLast (List.cons_ne_nil km0 (km1 :: KM3))).1) (sumCounts (((c0 :: cs2).drop (KL.length + 1)).take (KM3.length + 1)) + (KM3.length + 1))),
                        merge_comm (krOf (matchedKeys pred cB)) (KeyRangeResult.some km0.1 (((km0 :: km1 :: KM3).getLast (List.cons_ne_nil km0 (km1 :: KM3))).1) (sumCounts (((c0 :: cs2).drop (KL.length + 1)).take (KM3.length + 1)) + (KM3.length + 1))),
                        ← merge_assoc ((krOf (matchedKeys pred cA)).merge_into (KeyRangeResult.some km0.1 km0.1 1)) (KeyRangeResult.some km0.1 (((km0 :: km1 :: KM3).getLast (List.cons_ne_nil km0 (km1 :: KM3))).1) (sumCounts (((c0 :: cs2).drop (KL.length + 1)).take (KM3.length + 1)) + (KM3.length + 1))) (krOf (matchedKeys pred cB)),
                        merge_assoc (krOf (matchedKeys pred cA)) (KeyRangeResult.some km0.1 km0.1 1) (KeyRangeResult.some km0.1 (((km0 :: km1 :: KM3).getLast (List.cons_ne_nil km0 (km1 :: KM3))).1) (sumCounts (((c0 :: cs2).drop (KL.length + 1)).take (KM3.length + 1)) + (KM3.length + 1))),
                        krOf_cons_merge km0.1 (((km0 :: km1 :: KM3).getLast (List.cons_ne_nil km0 (km1 :: KM3))).1) ((interleave ((((c0 :: cs2).drop (KL.length + 1)).take (KM3.length + 1)).map Node.inorder) (km1 :: KM3)).map Prod.fst)
                          (sumCounts (((c0 :: cs2).drop (KL.length + 1)).take (KM3.length + 1)) + (KM3.length + 1)) hTkne hTklast hTklen
                          (le_of_lt hkm0klast),
                        krOf_merge (matchedKeys pred cA) (km0.1 :: (interleave ((((c0 :: cs2).drop (KL.length + 1)).take (KM3.length + 1)).map Node.inorder) (km1 :: KM3)).map Prod.fst)
                          (fun x hx y hy => by
                            rcases List.mem_cons.mp hy with rfl | hy2
                            · exact le_of_lt (hAkeys x hx)
                            · obtain ⟨x2, hx2, rfl⟩ := List.mem_map.mp hy2
                              exact le_of_lt (lt_trans (hAkeys x hx) (hTk_lo x2 hx2))),
                        krOf_merge (matchedKeys pred cA ++ km0.1 :: (interleave ((((c0 :: cs2).drop (KL.length + 1)).take (KM3.length + 1)).map Node.inorder) (km1 :: KM3)).map Prod.fst)
                          (matchedKeys pred cB)
                          (fun x hx y hy => by
                            have hyk := hBkeys y hy
                            rcases List.mem_append.mp hx with hx2 | hx2
                            · exact le_of_lt (lt_trans (lt_trans (hAkeys x hx2)
                                hkm0klast) hyk)
                            · rcases List.mem_cons.mp hx2 with rfl | hx3
                              · exact le_of_lt (lt_trans hkm0klast hyk)
                              · obtain ⟨x2, hx4, rfl⟩ := List.mem_map.mp hx3
                                exact le_of_lt (lt_of_le_of_lt (hTk_hi x2 hx4) hyk))]
                      rw [hroot, hMfull]
                      congr 1
                      rw [List.map_append, List.map_cons, List.map_append,
                        ← hmkc cA, ← hmkc cB]
                      rw [List.append_assoc, List.cons_append]
              · rename_i heq2
                rw [hBget1] at heq2
                exact Option.noConfusion heq2


theorem sorted_head_le [LinearOrder K] (k : K) (rest : List K)
    (h : (k :: rest).Pairwise (fun a b => a < b)) :
    ∀ x ∈ k :: rest, k ≤ x := by
  intro x hx
  rcases List.mem_cons.mp hx with rfl | hx2
  · exact le_refl x
  · exact le_of_lt ((List.pairwise_cons.mp h).1 x hx2)

theorem sorted_le_getLast [LinearOrder K] :
    ∀ (l : List K) (hne : l ≠ []), l.Pairwise (fun a b => a < b) →
      ∀ x ∈ l, x ≤ l.getLast hne := by
  intro l
  induction l with
  | nil => intro hne; exact absurd rfl hne
  | cons k rest ih =>
    intro hne hp x hx
    cases rest with
    | nil =>
      rcases List.mem_singleton.mp hx with rfl
      exact le_refl _
    | cons k1 rest2 =>
      rw [List.getLast_cons (List.cons_ne_nil k1 rest2)]
      rcases List.mem_cons.mp hx with rfl | hx2
      · exact le_of_lt ((List.pairwise_cons.mp hp).1 _ (List.getLast_mem _))
      · exact ih (List.cons_ne_nil k1 rest2) (List.pairwise_cons.mp hp).2 x hx2

theorem matchedKeys_sorted [LinearOrder K] (pred : K → PredicateResult)
    (t : Node K V) (h : t.wf) :
    (matchedKeys pred t).Pairwise (fun a b => a < b) := by
  have hsort := h.2.2.2
  have h1 : (t.inorder.map Prod.fst).Pairwise (fun a b : K => a < b) := by
    rw [List.pairwise_map]
    exact hsort
  exact List.Pairwise.sublist (List.filter_sublist _) h1

/-- **C1**: for every tree satisfying the structural invariants and every
predicate monotone in key order (all Left keys precede all Match keys,
which precede all Right keys), `find_key_range` succeeds and returns
`none` exactly when no key of the tree is classified Match; otherwise it
returns `some start end n` where `start` is the smallest key classified
Match, `end` the largest such key, and `n` the number of keys of the
tree for which the predicate evaluates to Match. -/
theorem c1_find_key_range_spec [LinearOrder K] (pred : K → PredicateResult)
    (hmono : MonoPred pred) (t : Node K V) (h : t.wf) :
    (matchedKeys pred t = [] →
      Node.find_key_range pred t = .ok KeyRangeResult.none) ∧
    (matchedKeys pred t ≠ [] → ∃ s e,
      Node.find_key_range pred t =
        .ok (KeyRangeResult.some s e (matchedKeys pred t).length) ∧
      s ∈ matchedKeys pred t ∧ e ∈ matchedKeys pred t ∧
      ∀ k ∈ matchedKeys pred t, s ≤ k ∧ k ≤ e) := by
  have hmain := c1_range_shortcut pred hmono t h
  have hsorted := matchedKeys_sorted pred t h
  constructor
  · intro h0
    rw [hmain, h0]
    rfl
  · intro h0
    cases hmk : matchedKeys pred t with
    | nil => exact absurd hmk h0
    | cons m rest =>
      rw [hmk] at hmain hsorted
      refine ⟨m, (m :: rest).getLast (List.cons_ne_nil m rest), ?_,
        List.mem_cons_self m rest, List.getLast_mem _, ?_⟩
      · rw [hmain, krOf_cons, List.length_cons]
      · intro k hk
        exact ⟨sorted_head_le m rest hsorted k hk,
          sorted_le_getLast (m :: rest) (List.cons_ne_nil m rest) hsorted k hk⟩

/-- Witness for C1: a concrete well-formed two-entry leaf and the
constant Match predicate. -/
theorem c1_find_key_range_spec_witness :
    MonoPred (fun _ : Nat => PredicateResult.Match) ∧
    (Node.mk [((1 : Nat), (10 : Nat)), (2, 20)] [] 2).wf ∧
    ((matchedKeys (fun _ : Nat => PredicateResult.Match)
        (Node.mk [((1 : Nat), (10 : Nat)), (2, 20)] [] 2) = [] →
      Node.find_key_range (fun _ : Nat => PredicateResult.Match)
        (Node.mk [((1 : Nat), (10 : Nat)), (2, 20)] [] 2) =
        .ok KeyRangeResult.none) ∧
     (matchedKeys (fun _ : Nat => PredicateResult.Match)
        (Node.mk [((1 : Nat), (10 : Nat)), (2, 20)] [] 2) ≠ [] → ∃ s e,
      Node.find_key_range (fun _ : Nat => PredicateResult.Match)
        (Node.mk [((1 : Nat), (10 : Nat)), (2, 20)] [] 2) =
        .ok (KeyRangeResult.some s e
          (matchedKeys (fun _ : Nat => PredicateResult.Match)
            (Node.mk [((1 : Nat), (10 : Nat)), (2, 20)] [] 2)).length) ∧
      s ∈ matchedKeys (fun _ : Nat => PredicateResult.Match)
        (Node.mk [((1 : Nat), (10 : Nat)), (2, 20)] [] 2) ∧
      e ∈ matchedKeys (fun _ : Nat => PredicateResult.Match)
        (Node.mk [((1 : Nat), (10 : Nat)), (2, 20)] [] 2) ∧
      ∀ k ∈ matchedKeys (fun _ : Nat => PredicateResult.Match)
        (Node.mk [((1 : Nat), (10 : Nat)), (2, 20)] [] 2),
        s ≤ k ∧ k ≤ e)) := by
  have hm : MonoPred (fun _ : Nat => PredicateResult.Match) :=
    fun a b h3 => le_refl _
  have hwf : (Node.mk [((1 : Nat), (10 : Nat)), (2, 20)] [] 2).wf := by
    refine ⟨?_, ?_, ?_, ?_⟩
    · simp [structOk_mk]
    · simp [countOk_mk, sumCounts_nil, Node.count]
    · simp [entriesNonempty_mk]
    · simp [sortedKeys, inorder_mk, interleave]
  exact ⟨hm, hwf, c1_find_key_range_spec _ hm _ hwf⟩

end Imord2
